import Mathlib

/-!
Shallow embedding of glampert/compression-algorithms (huffman.hpp, rice.hpp,
rle.hpp) and proofs about the claims of the specification.

Modelling conventions, used throughout:

* C++ `std::uint8_t` buffers are `List Nat` whose elements are below 256;
  `int` sizes that can be negative at an interface are `Int`, internal
  non-negative counters are `Nat`.
* A raw data pointer that may be null is `Option (List Nat)`; an out-pointer
  that is only checked against null is a `Bool` (true = non-null).
* The fatal error hook (`HUFFMAN_ERROR` / `RICE_ERROR`), which logs and lets
  the function continue or return, is a sticky `Bool` flag threaded through
  the state ("hooked"/`err`).  A write through an unallocated stream pointer
  (undefined behaviour in C++) is recorded in the sticky `oob` flag.
* Loops that are not structurally recursive take an explicit fuel argument,
  always instantiated large enough; sufficiency is proved where a claim
  depends on it.
-/

namespace huffman

/-- Bit `i` of a little-endian-within-byte stream: bit `i % 8` of byte `i / 8`. -/
def bitAt (stream : List Nat) (i : Nat) : Nat :=
  (stream.getD (i / 8) 0 >>> (i % 8)) &&& 1

/-- Local helper `nextPowerOfTwo` from huffman.hpp: round up to the next
power of two by smearing the high bit over a 32-bit int. -/
def nextPowerOfTwo (num : Nat) : Nat :=
  let n := num - 1
  let n := n ||| (n >>> 1)
  let n := n ||| (n >>> 2)
  let n := n ||| (n >>> 4)
  let n := n ||| (n >>> 8)
  let n := n ||| (n >>> 16)
  n + 1

/-- Local helper `bitsForInteger` from huffman.hpp: number of bits needed to
represent `num` (its log2 plus one).  The C++ `while (num > 0)` loop is
modelled with fuel 64, ample for every call site (arguments are at most 64). -/
def bitsForIntegerAux (fuel num bits : Nat) : Nat :=
  match fuel with
  | 0 => bits
  | fuel + 1 => if 0 < num then bitsForIntegerAux fuel (num >>> 1) (bits + 1) else bits

def bitsForInteger (num : Nat) : Nat :=
  bitsForIntegerAux 64 num 0

/-- `Code::MaxBits` from huffman.hpp. -/
def CodeMaxBits : Nat := 64

/-- `huffman::Code`: a Huffman code, `bits` stored right-to-left (bit 0 is the
first bit emitted) together with its current length in bits. -/
structure Code where
  bits : Nat
  length : Nat
deriving DecidableEq

/-- The cleared code, as produced by `Code::clear()` / the default constructor. -/
def Code.nil : Code := ⟨0, 0⟩

/-- `Code::appendBit`: append one bit at position `length`.  When the code is
already `MaxBits` long the C++ reports a fatal error and ignores the bit; the
returned flag records that the error hook fired.  The source computes
`(bits & ~mask) | (-bit & mask)` over `uint64`; call sites only pass 0 or 1,
for which this equals clearing respectively setting the masked bit. -/
def Code.appendBit (c : Code) (bit : Nat) : Code × Bool :=
  if c.length = CodeMaxBits then (c, true)
  else
    let mask := 1 <<< c.length
    (⟨if bit = 0 then c.bits &&& ((1 <<< 64) - 1 - mask) else c.bits ||| mask,
      c.length + 1⟩, false)

/-- `Code::getBit`. -/
def Code.getBit (c : Code) (index : Nat) : Nat :=
  (c.bits >>> index) &&& 1

/-- `Code::appendCode`: append every bit of `other`, accumulating the error
flag of the individual `appendBit` calls. -/
def Code.appendCode (c other : Code) : Code × Bool :=
  (List.range other.length).foldl
    (fun p b =>
      let q := p.1.appendBit (other.getBit b)
      (q.1, p.2 || q.2))
    (c, false)

/-- `huffman::BitStreamWriter`.  The `stream` list is the heap buffer
(`bytesAllocated` bytes, kept equal to `stream.length`); `oob` records a
write through a position outside the allocation (C++ undefined behaviour,
in particular a null `stream`). -/
structure BitStreamWriter where
  stream : List Nat
  bytesAllocated : Nat
  granularity : Nat
  currBytePos : Nat
  nextBitPos : Nat
  numBitsWritten : Nat
  oob : Bool
deriving DecidableEq

/-- `BitStreamWriter::allocate`: round a non-multiple-of-8 bit request up with
`nextPowerOfTwo`, keep the buffer when it is already large enough, otherwise
reallocate zero-filled memory and copy the old contents over
(`allocBytes` memsets the fresh buffer to zero before the copy). -/
def BitStreamWriter.allocate (w : BitStreamWriter) (bitsWanted : Nat) : BitStreamWriter :=
  match w with
  | ⟨stream, bytesAllocated, granularity, cb, nb, nw, oob⟩ =>
    let bitsWanted := if bitsWanted = 0 then 8 else bitsWanted
    let bitsWanted := if bitsWanted % 8 ≠ 0 then nextPowerOfTwo bitsWanted else bitsWanted
    let sizeInBytes := bitsWanted / 8
    if sizeInBytes ≤ bytesAllocated then ⟨stream, bytesAllocated, granularity, cb, nb, nw, oob⟩
    else ⟨stream ++ List.replicate (sizeInBytes - stream.length) 0,
          sizeInBytes, granularity, cb, nb, nw, oob⟩

/-- `BitStreamWriter::setGranularity`: clamp to at least 2. -/
def BitStreamWriter.setGranularity (w : BitStreamWriter) (g : Nat) : BitStreamWriter :=
  { w with granularity := if 2 ≤ g then g else 2 }

/-- The default `BitStreamWriter()` constructor: `internalInit()` then
`allocate(8192)` (1024 bytes, granularity 2). -/
def BitStreamWriter.init : BitStreamWriter :=
  BitStreamWriter.allocate ⟨[], 0, 2, 0, 0, 0, false⟩ 8192

/-- `BitStreamWriter::appendBit`: write `bit` at the current bit position,
advance, and grow the buffer by `granularity` when the last allocated byte
fills up.  The C++ stores `(stream[pos] & ~mask) | (-bit & mask)` into a
`uint8`; call sites only pass 0 or 1, for which this clears respectively sets
the masked bit of the byte. -/
def BitStreamWriter.appendBit (w : BitStreamWriter) (bit : Nat) : BitStreamWriter :=
  match w with
  | ⟨stream, bytesAllocated, granularity, currBytePos, nextBitPos, numBitsWritten, oob⟩ =>
    let mask := 1 <<< nextBitPos
    let oob := oob || decide (stream.length ≤ currBytePos)
    let byte := stream.getD currBytePos 0
    let byte := if bit = 0 then byte &&& (255 - mask) else byte ||| mask
    let stream := stream.set currBytePos byte
    let numBitsWritten := numBitsWritten + 1
    if nextBitPos + 1 = 8 then
      let w2 : BitStreamWriter :=
        ⟨stream, bytesAllocated, granularity, currBytePos + 1, 0, numBitsWritten, oob⟩
      if currBytePos + 1 = bytesAllocated then
        w2.allocate (bytesAllocated * granularity * 8)
      else w2
    else
      ⟨stream, bytesAllocated, granularity, currBytePos, nextBitPos + 1, numBitsWritten, oob⟩

/-- `BitStreamWriter::appendBitsU64`: emit the `bitCount` low bits of `num`,
least-significant first (`!!(num & (1 << b))`). -/
def BitStreamWriter.appendBitsU64 (w : BitStreamWriter) (num : Nat) (bitCount : Nat) :
    BitStreamWriter :=
  (List.range bitCount).foldl (fun w b => w.appendBit ((num >>> b) &&& 1)) w

/-- `BitStreamWriter::appendCode`: emit the bits of `code` in order. -/
def BitStreamWriter.appendCode (w : BitStreamWriter) (code : Code) : BitStreamWriter :=
  (List.range code.length).foldl (fun w b => w.appendBit (code.getBit b)) w

/-- `BitStreamWriter::getByteCount`: bytes in use, rounding the last partial
byte up. -/
def BitStreamWriter.getByteCount (w : BitStreamWriter) : Nat :=
  let usedBytes := w.numBitsWritten / 8
  let leftovers := w.numBitsWritten % 8
  if leftovers ≠ 0 then usedBytes + 1 else usedBytes

/-- `BitStreamWriter::getBitCount`. -/
def BitStreamWriter.getBitCount (w : BitStreamWriter) : Nat :=
  w.numBitsWritten

/-- `huffman::BitStreamReader`: borrowed stream plus exact bit size, read
cursor, and the running `currCode` accumulator.  `err` records invocations of
the fatal error hook (a `currCode` overflow inside `readNextBit`). -/
structure BitStreamReader where
  stream : List Nat
  sizeInBytes : Nat
  sizeInBits : Nat
  currBytePos : Nat
  nextBitPos : Nat
  numBitsRead : Nat
  currCode : Code
  err : Bool
deriving DecidableEq

/-- The `BitStreamReader(stream, byteCount, bitCount)` constructor followed by
`reset()`. -/
def BitStreamReader.init (stream : List Nat) (byteCount bitCount : Nat) : BitStreamReader :=
  ⟨stream, byteCount, bitCount, 0, 0, 0, Code.nil, false⟩

/-- `BitStreamReader::readNextBit`: return false at the end of the stream,
otherwise fetch the bit at the cursor, advance, and append the bit to
`currCode`. -/
def BitStreamReader.readNextBit (r : BitStreamReader) : Bool × BitStreamReader :=
  match r with
  | ⟨stream, szBytes, szBits, currBytePos, nextBitPos, numBitsRead, currCode, err⟩ =>
    if szBits ≤ numBitsRead then
      (false, ⟨stream, szBytes, szBits, currBytePos, nextBitPos, numBitsRead, currCode, err⟩)
    else
      let bit := (stream.getD currBytePos 0 >>> nextBitPos) &&& 1
      let p := currCode.appendBit bit
      if nextBitPos + 1 = 8 then
        (true, ⟨stream, szBytes, szBits, currBytePos + 1, 0, numBitsRead + 1, p.1, err || p.2⟩)
      else
        (true, ⟨stream, szBytes, szBits, currBytePos, nextBitPos + 1, numBitsRead + 1, p.1,
                err || p.2⟩)

/-- The `for` loop of `BitStreamReader::readBitsU64`: read `n` bits into
`currCode`; on a failed read, fire the error hook and stop. -/
def BitStreamReader.readBitsLoop (r : BitStreamReader) : Nat → BitStreamReader
  | 0 => r
  | n + 1 =>
    match r.readNextBit with
    | (false, r1) => { r1 with err := true }
    | (true, r1) => r1.readBitsLoop n

/-- `BitStreamReader::readBitsU64`: clear `currCode`, read `bitCount` bits
through it, and return the accumulated value. -/
def BitStreamReader.readBitsU64 (r : BitStreamReader) (bitCount : Nat) :
    Nat × BitStreamReader :=
  let r := { r with currCode := Code.nil }
  let r2 := r.readBitsLoop bitCount
  (r2.currCode.bits, r2)

/-- The sentinel `huffman::Nil`. -/
def Nil : Int := -1

def MaxSymbols : Nat := 256

/-- `MaxNodes = MaxSymbols + 512`. -/
def MaxNodes : Nat := 768

/-- `huffman::Node`: frequency (`Nil` while unused), child indices into the
pool (`Nil` for none), symbol value, and the code assigned by the tree walk. -/
structure Node where
  frequency : Int
  leftChild : Int
  rightChild : Int
  value : Int
  code : Code
deriving DecidableEq

/-- A default-constructed `Node`. -/
def dNode : Node := ⟨Nil, Nil, Nil, Nil, Code.nil⟩

/-- `Node::isValid`. -/
def Node.isValid (n : Node) : Bool := n.frequency != Nil

/-- `Node::isLeaf`. -/
def Node.isLeaf (n : Node) : Bool := n.leftChild == Nil && n.rightChild == Nil

/-- The encoder's zero-initialised fixed pool `std::array<Node, MaxNodes>`. -/
def initialNodes : List Node := List.replicate MaxNodes dNode

/-- `Encoder::countFrequencies`: bump the frequency of leaf slot `b` for every
data byte `b`, marking the slot valid with `value = b` on first occurrence. -/
def countFrequencies (nodes : List Node) (data : List Nat) : List Node :=
  data.foldl
    (fun nodes b =>
      let node := nodes.getD b dNode
      if !node.isValid then
        nodes.set b { node with frequency := 1, value := (b : Int) }
      else
        nodes.set b { node with frequency := node.frequency + 1 })
    nodes

/-- `Encoder::addInnerNode`: claim the first free slot in `[MaxSymbols,
MaxNodes)`, storing the summed frequency, the two child links and the slot
index as `value`.  When the pool is exhausted the C++ fires the error hook and
returns the last node unmodified; the flag records that case. -/
def addInnerNode (nodes : List Node) (frequency : Int) (leftChild rightChild : Int) :
    List Node × Nat × Bool :=
  match (List.range' MaxSymbols 512).find? (fun n => !(nodes.getD n dNode).isValid) with
  | some n =>
    (nodes.set n { nodes.getD n dNode with
                    frequency := frequency, leftChild := leftChild,
                    rightChild := rightChild, value := (n : Int) }, n, false)
  | none => (nodes, MaxNodes - 1, true)

/-- Extraction of the queue minimum.  The C++ keeps `Node*` pointers in a
`std::priority_queue` whose comparator orders by `frequency` only; which of
several minimal-frequency nodes `top()` yields is unspecified.  This model
fixes a deterministic choice: the earliest element of the queue list attaining
the minimal frequency.  Every property proved below is independent of the
choice. -/
def popMin (nodes : List Node) : List Nat → Option (Nat × List Nat)
  | [] => none
  | i :: rest =>
    match popMin nodes rest with
    | none => some (i, rest)
    | some (j, rest2) =>
      if (nodes.getD i dNode).frequency ≤ (nodes.getD j dNode).frequency then
        some (i, rest)
      else
        some (j, i :: rest2)

/-- The `while (pQueue.size() > 1)` loop of `Encoder::buildHuffmanTree`:
merge the two lowest-frequency nodes into a fresh inner node until one root
remains.  `pQueue.top()` on an empty queue (empty input) is undefined; the
flag records it, as well as pool exhaustion.  Fuel bounds the iteration count
(at most 255 merges can ever happen). -/
def buildLoop (nodes : List Node) (q : List Nat) (e : Bool) :
    Nat → List Node × Nat × Bool
  | 0 => (nodes, 0, true)
  | fuel + 1 =>
    if q.length ≤ 1 then
      match q with
      | [] => (nodes, 0, true)
      | r :: _ => (nodes, r, e)
    else
      match popMin nodes q with
      | none => (nodes, 0, true)
      | some (c0, q1) =>
        match popMin nodes q1 with
        | none => (nodes, 0, true)
        | some (c1, q2) =>
          let f := (nodes.getD c0 dNode).frequency + (nodes.getD c1 dNode).frequency
          let v0 := (nodes.getD c0 dNode).value
          let v1 := (nodes.getD c1 dNode).value
          match addInnerNode nodes f v0 v1 with
          | (nodes2, idx, e2) => buildLoop nodes2 (q2 ++ [idx]) (e || e2) fuel

/-- `Encoder::recursiveAssignCodes`: a node inherits its parent's code (when
not the root), appends its own branch bit, and recurses left with bit 0 and
right with bit 1.  Child links are pool indices, so the recursion is fuelled;
fuel `MaxNodes` is proved sufficient below. -/
def recursiveAssignCodes (nodes : List Node) (nodeIdx : Nat) (parent : Option Nat)
    (bit : Nat) : Nat → List Node × Bool
  | 0 => (nodes, true)
  | fuel + 1 =>
    let node := nodes.getD nodeIdx dNode
    let p1 : Code × Bool :=
      match parent with
      | none => (node.code, false)
      | some pi => node.code.appendCode (nodes.getD pi dNode).code
    let p2 := p1.1.appendBit bit
    let nodes := nodes.set nodeIdx { node with code := p2.1 }
    let q1 :=
      if node.leftChild != Nil then
        recursiveAssignCodes nodes node.leftChild.toNat (some nodeIdx) 0 fuel
      else (nodes, false)
    let q2 :=
      if node.rightChild != Nil then
        recursiveAssignCodes q1.1 node.rightChild.toNat (some nodeIdx) 1 fuel
      else (q1.1, false)
    (q2.1, p1.2 || p2.2 || q1.2 || q2.2)

/-- `Encoder::buildHuffmanTree`: push every valid leaf (in symbol order), run
the merge loop, and assign codes from the root (branch bit 0 at the root). -/
def buildHuffmanTree (nodes : List Node) : List Node × Nat × Bool :=
  let q := (List.range MaxSymbols).filter (fun s => (nodes.getD s dNode).isValid)
  match buildLoop nodes q false MaxSymbols with
  | (nodes, root, e1) =>
    match recursiveAssignCodes nodes root none 0 MaxNodes with
    | (nodes2, e2) => (nodes2, root, e1 || e2)

/-- State of a `huffman::Encoder` under construction: output writer, node
pool, root index, header length in bits, and the sticky error-hook flag. -/
structure EncState where
  bitStream : BitStreamWriter
  nodes : List Node
  treeRoot : Nat
  treePrefixBits : Nat
  err : Bool
deriving DecidableEq

/-- The padding loop at the end of `Encoder::writeTreeBitStream`:
`while ((treePrefixBits % 8) != 0) { appendBit(0); ++treePrefixBits; }`.
At most 7 iterations, so fuel 8 is exact. -/
def padLoop (w : BitStreamWriter) (tp : Nat) : Nat → BitStreamWriter × Nat
  | 0 => (w, tp)
  | fuel + 1 =>
    if tp % 8 ≠ 0 then padLoop (w.appendBit 0) (tp + 1) fuel
    else (w, tp)

/-- The max-code-length scan at the top of `Encoder::writeTreeBitStream`:
`if (nodes[s].isValid() && nodes[s].code.getLength() > maxCodeLengthInBits)`. -/
def maxCodeLen (nodes : List Node) : Nat :=
  (List.range MaxSymbols).foldl
    (fun m s =>
      let nd := nodes.getD s dNode
      if nd.isValid && decide (m < nd.code.length) then nd.code.length else m) 0

/-- `Encoder::writeTreeBitStream`: find the longest leaf code, reject lengths
outside `1..=64` through the error hook, then emit two 16-bit counters, the
256 `(code_length, code_bits)` records, and zero padding to a byte boundary. -/
def writeTreeBitStream (st : EncState) : EncState :=
  let maxCodeLengthInBits := maxCodeLen st.nodes
  if maxCodeLengthInBits = 0 || decide (CodeMaxBits < maxCodeLengthInBits) then
    { st with err := true }
  else
    let codeLengthWidth := bitsForInteger maxCodeLengthInBits
    let w := st.bitStream.appendBitsU64 MaxSymbols 16
    let w := w.appendBitsU64 codeLengthWidth 16
    let p := (List.range MaxSymbols).foldl
      (fun (p : BitStreamWriter × Nat) s =>
        let nd := st.nodes.getD s dNode
        let w := p.1.appendBitsU64 nd.code.length codeLengthWidth
        let w := w.appendBitsU64 nd.code.bits nd.code.length
        (w, p.2 + codeLengthWidth + nd.code.length))
      (w, 32)
    let q := padLoop p.1 p.2 8
    { st with bitStream := q.1, treePrefixBits := q.2 }

/-- `Encoder::writeDataBitStream`: append the code of the leaf slot of every
data byte. -/
def writeDataBitStream (st : EncState) (data : List Nat) : EncState :=
  { st with bitStream :=
      data.foldl (fun w b => w.appendCode ((st.nodes.getD b dNode).code)) st.bitStream }

/-- The `Encoder` constructor: count frequencies, build the tree, optionally
write the self-describing header, then the payload. -/
def encoderInit (data : List Nat) (prependTreeToBitStream : Bool) : EncState :=
  let nodes := countFrequencies initialNodes data
  match buildHuffmanTree nodes with
  | (nodes, root, e) =>
    let st : EncState := ⟨BitStreamWriter.init, nodes, root, 0, e⟩
    let st := if prependTreeToBitStream then writeTreeBitStream st else st
    writeDataBitStream st data

/-- `Decoder::findMatchingCode`: first symbol whose table entry equals `code`
(bits and length), `Nil` when none does. -/
def findMatchingCode (codes : List Code) (code : Code) : Int :=
  match (List.range MaxSymbols).find? (fun c => code = codes.getD c Code.nil) with
  | some c => (c : Int)
  | none => Nil

/-- One `(code_length, code_bits)` record loop body of
`Decoder::readPrefixData`: read `n` bits into `currCode`, reporting whether
every read succeeded. -/
def readCodeLoop (r : BitStreamReader) : Nat → BitStreamReader × Bool
  | 0 => (r, true)
  | n + 1 =>
    match r.readNextBit with
    | (false, r1) => (r1, false)
    | (true, r1) => readCodeLoop r1 n

/-- The 256-iteration code-table loop of `Decoder::readPrefixData`, reading a
fixed-width length then that many code bits for each symbol `c` in order.
A failed read fires the hook and aborts the whole prefix parse. -/
def readCodesLoop (codes : List Code) (r : BitStreamReader) (codeLengthWidth : Nat)
    (tp : Nat) (c : Nat) : Nat → List Code × BitStreamReader × Nat × Bool
  | 0 => (codes, r, tp, false)
  | n + 1 =>
    let r0 := { r with currCode := Code.nil }
    match readCodeLoop r0 codeLengthWidth with
    | (r1, false) => (codes, r1, tp, true)
    | (r1, true) =>
      let tp := tp + codeLengthWidth
      let codeBitsWidth := r1.currCode.bits
      let r2 := { r1 with currCode := Code.nil }
      match readCodeLoop r2 codeBitsWidth with
      | (r3, false) => (codes, r3, tp, true)
      | (r3, true) =>
        let tp := tp + codeBitsWidth
        readCodesLoop (codes.set c r3.currCode) r3 codeLengthWidth tp (c + 1) n

/-- The padding-skip loop at the end of `Decoder::readPrefixData` (the result
of `readNextBit` is ignored there). -/
def skipPadLoop (r : BitStreamReader) (tp : Nat) : Nat → BitStreamReader × Nat
  | 0 => (r, tp)
  | fuel + 1 =>
    if tp % 8 ≠ 0 then skipPadLoop (r.readNextBit).2 (tp + 1) fuel
    else (r, tp)

/-- `Decoder::readPrefixData`: parse the two 16-bit counters, the 256 code
records, and skip the byte padding, producing the decoder's code table.  The
flag records any error-hook invocation (wrong code count or unexpected end). -/
def readPrefixData (r : BitStreamReader) : List Code × BitStreamReader × Bool :=
  let p1 := r.readBitsU64 16
  let numberOfCodes := p1.1
  let p2 := p1.2.readBitsU64 16
  let codeLengthWidth := p2.1
  let codes0 := List.replicate MaxSymbols Code.nil
  if numberOfCodes ≠ MaxSymbols then (codes0, p2.2, true)
  else
    match readCodesLoop codes0 p2.2 codeLengthWidth 32 0 MaxSymbols with
    | (codes, r, tp, e) =>
      if e then (codes, r, true) else
        let r := { r with currCode := Code.nil }
        match skipPadLoop r tp 8 with
        | (r, _) => (codes, { r with currCode := Code.nil }, r.err)

/-- The `while (bitStream.readNextBit())` loop of `Decoder::decode`: grow the
accumulator code one bit at a time, emit a byte on a table match, and fail
through the hook when a match arrives with the output already full. -/
def decodeLoop (codes : List Code) (r : BitStreamReader) (data : List Nat)
    (bytesDecoded : Nat) (dataSizeBytes : Nat) : Nat → List Nat × Nat × Bool
  | 0 => (data, bytesDecoded, true)
  | fuel + 1 =>
    match r.readNextBit with
    | (false, _) => (data, bytesDecoded, false)
    | (true, r1) =>
      let codeIndex := findMatchingCode codes r1.currCode
      if codeIndex == Nil then
        decodeLoop codes r1 data bytesDecoded dataSizeBytes fuel
      else if bytesDecoded = dataSizeBytes then
        (data, bytesDecoded, true)
      else
        decodeLoop codes { r1 with currCode := Code.nil } (data ++ [codeIndex.toNat])
          (bytesDecoded + 1) dataSizeBytes fuel

/-- `huffman::easyEncode`: guard the arguments (firing the hook on null
pointers or bad sizes), run the encoder with the header prepended, and hand
the buffer with its byte and bit counts back.  The result also carries the
sticky hook and out-of-bounds-write flags. -/
structure EasyEncodeResult where
  compressed : Option (List Nat)
  compressedSizeBytes : Nat
  compressedSizeBits : Nat
  hooked : Bool
  oob : Bool
deriving DecidableEq

def easyEncode (uncompressed : Option (List Nat)) (uncompressedSizeBytes : Int)
    (compressedValid sizeBytesValid sizeBitsValid : Bool) : EasyEncodeResult :=
  match uncompressed with
  | none => ⟨none, 0, 0, true, false⟩
  | some data =>
    if !compressedValid then ⟨none, 0, 0, true, false⟩
    else if uncompressedSizeBytes ≤ 0 || !sizeBytesValid || !sizeBitsValid then
      ⟨none, 0, 0, true, false⟩
    else
      let bytes := (List.range uncompressedSizeBytes.toNat).map (fun i => data.getD i 0)
      let st := encoderInit bytes true
      ⟨some st.bitStream.stream, st.bitStream.getByteCount, st.bitStream.getBitCount,
       st.err, st.bitStream.oob⟩

/-- `huffman::easyDecode`: guard the arguments, parse the header, then run the
decode loop.  Returns the C++ return value (bytes decoded), the bytes written
to the output buffer, and the sticky hook flag. -/
def easyDecode (compressed : Option (List Nat)) (compressedSizeBytes compressedSizeBits : Int)
    (uncompressedValid : Bool) (uncompressedSizeBytes : Int) : Int × List Nat × Bool :=
  match compressed with
  | none => (0, [], true)
  | some buf =>
    if !uncompressedValid then (0, [], true)
    else if compressedSizeBytes ≤ 0 || compressedSizeBits ≤ 0 ||
        uncompressedSizeBytes ≤ 0 then
      (0, [], true)
    else
      let r := BitStreamReader.init buf compressedSizeBytes.toNat compressedSizeBits.toNat
      match readPrefixData r with
      | (codes, r, e1) =>
        match decodeLoop codes r [] 0 uncompressedSizeBytes.toNat (r.sizeInBits + 1) with
        | (out, n, e2) => ((n : Int), out, e1 || e2)

end huffman

namespace rice

/-- Local `nextPowerOfTwo` from rice.hpp (same bit-smearing loop over a
32-bit int as the huffman one). -/
def nextPowerOfTwo (num : Nat) : Nat :=
  let n := num - 1
  let n := n ||| (n >>> 1)
  let n := n ||| (n >>> 2)
  let n := n ||| (n >>> 4)
  let n := n ||| (n >>> 8)
  let n := n ||| (n >>> 16)
  n + 1

/-- `rice::Encoder`: the same growable bit-stream writer as the huffman one.
`oob` records a write through a position outside the allocated buffer — in
particular through the null `stream` pointer left by an `allocate` call that
ended up with `bytesAllocated = 0`. -/
structure Encoder where
  stream : List Nat
  bytesAllocated : Nat
  granularity : Nat
  currBytePos : Nat
  nextBitPos : Nat
  numBitsWritten : Nat
  oob : Bool
deriving DecidableEq

/-- `Encoder::allocate` from rice.hpp: requests of at most 0 bits become 8;
a request that is not a byte multiple is rounded with `nextPowerOfTwo`; a
request already satisfied keeps the buffer, otherwise zero-filled memory is
allocated and the old bytes copied over. -/
def Encoder.allocate (w : Encoder) (bitsWanted : Nat) : Encoder :=
  match w with
  | ⟨stream, bytesAllocated, granularity, cb, nb, nw, oob⟩ =>
    let bitsWanted := if bitsWanted = 0 then 8 else bitsWanted
    let bitsWanted := if bitsWanted % 8 ≠ 0 then nextPowerOfTwo bitsWanted else bitsWanted
    let sizeInBytes := bitsWanted / 8
    if sizeInBytes ≤ bytesAllocated then ⟨stream, bytesAllocated, granularity, cb, nb, nw, oob⟩
    else ⟨stream ++ List.replicate (sizeInBytes - stream.length) 0,
          sizeInBytes, granularity, cb, nb, nw, oob⟩

/-- `Encoder::setGranularity`. -/
def Encoder.setGranularity (w : Encoder) (g : Nat) : Encoder :=
  { w with granularity := if 2 ≤ g then g else 2 }

/-- The `Encoder(initialSizeInBits, growthGranularity = 2)` constructor:
`internalInit()`, `setGranularity`, `allocate(initialSizeInBits)`. -/
def Encoder.initWith (initialSizeInBits : Nat) (growthGranularity : Nat) : Encoder :=
  (Encoder.setGranularity ⟨[], 0, 2, 0, 0, 0, false⟩ growthGranularity).allocate
    initialSizeInBits

/-- `Encoder::appendBit` from rice.hpp, identical to the huffman writer. -/
def Encoder.appendBit (w : Encoder) (bit : Nat) : Encoder :=
  match w with
  | ⟨stream, bytesAllocated, granularity, currBytePos, nextBitPos, numBitsWritten, oob⟩ =>
    let mask := 1 <<< nextBitPos
    let oob := oob || decide (stream.length ≤ currBytePos)
    let byte := stream.getD currBytePos 0
    let byte := if bit = 0 then byte &&& (255 - mask) else byte ||| mask
    let stream := stream.set currBytePos byte
    let numBitsWritten := numBitsWritten + 1
    if nextBitPos + 1 = 8 then
      let w2 : Encoder :=
        ⟨stream, bytesAllocated, granularity, currBytePos + 1, 0, numBitsWritten, oob⟩
      if currBytePos + 1 = bytesAllocated then
        w2.allocate (bytesAllocated * granularity * 8)
      else w2
    else
      ⟨stream, bytesAllocated, granularity, currBytePos, nextBitPos + 1, numBitsWritten, oob⟩

/-- `Encoder::writeKBitsWord`: emit the `bitCount` low bits of `KBits`,
least-significant first. -/
def Encoder.writeKBitsWord (w : Encoder) (KBits : Nat) (bitCount : Nat) : Encoder :=
  (List.range bitCount).foldl (fun w b => w.appendBit ((KBits >>> b) &&& 1)) w

/-- The remainder loop of `Encoder::encodeByte`:
`for (i = KBits-1; i >= 0; i--) appendBit((value >> i) & 1)` — most
significant of the `KBits` low bits first. -/
def Encoder.appendRemainder (w : Encoder) (value : Nat) : Nat → Encoder
  | 0 => w
  | i + 1 => Encoder.appendRemainder (w.appendBit ((value >>> i) &&& 1)) value i

/-- The unary-quotient loop of `Encoder::encodeByte`: `q` one bits. -/
def Encoder.appendOnes (w : Encoder) : Nat → Encoder
  | 0 => w
  | q + 1 => Encoder.appendOnes (w.appendBit 1) q

/-- `Encoder::encodeByte`: `q = value / 2^KBits` one bits, a zero terminator,
then the `KBits`-bit remainder most-significant first. -/
def Encoder.encodeByte (w : Encoder) (value : Nat) (KBits : Nat) : Encoder :=
  let m := 1 <<< KBits
  let q := value / m
  (((w.appendOnes q).appendBit 0).appendRemainder value KBits)

/-- `Encoder::computeCodeLength`: `q + 1 + KBits` bits for one value. -/
def computeCodeLength (value : Nat) (KBits : Nat) : Nat :=
  let m := 1 <<< KBits
  let q := value / m
  q + 1 + KBits

/-- The inner accumulation of `Encoder::findBestKBits` for one `k`. -/
def totalCodeLength (input : List Nat) (k : Nat) : Nat :=
  input.foldl (fun acc v => acc + computeCodeLength v k) 0

/-- `Encoder::findBestKBits`: try every `k ∈ 0..=KBitsMax`, keeping the first
`k` whose total size beats the best so far (the `bestSize == 0` test makes the
`k = 0` pass always install itself first).  Returns `(bestKBits, bestSize)`;
the C++ reports the size through an out pointer. -/
def findBestKBits (input : List Nat) (KBitsMax : Nat) : Nat × Nat :=
  (List.range (KBitsMax + 1)).foldl
    (fun (p : Nat × Nat) k =>
      let outputSize := totalCodeLength input k
      if p.2 = 0 || outputSize < p.2 then (k, outputSize) else p)
    (0, 0)

/-- `Encoder::getByteCount`. -/
def Encoder.getByteCount (w : Encoder) : Nat :=
  let usedBytes := w.numBitsWritten / 8
  let leftovers := w.numBitsWritten % 8
  if leftovers ≠ 0 then usedBytes + 1 else usedBytes

/-- `Encoder::getBitCount`. -/
def Encoder.getBitCount (w : Encoder) : Nat :=
  w.numBitsWritten

/-- `rice::Decoder`: borrowed stream, sizes, and cursor. -/
structure Decoder where
  stream : List Nat
  sizeInBytes : Nat
  sizeInBits : Nat
  currBytePos : Nat
  nextBitPos : Nat
  numBitsRead : Nat
deriving DecidableEq

/-- The `Decoder(encodedData, encodedSizeBytes, encodedSizeBits)` constructor
followed by `reset()`. -/
def Decoder.init (stream : List Nat) (byteCount bitCount : Nat) : Decoder :=
  ⟨stream, byteCount, bitCount, 0, 0, 0⟩

/-- `Decoder::readNextBit`. -/
def Decoder.readNextBit (r : Decoder) : Option Nat × Decoder :=
  match r with
  | ⟨stream, szBytes, szBits, currBytePos, nextBitPos, numBitsRead, ⟩ =>
    if szBits ≤ numBitsRead then
      (none, ⟨stream, szBytes, szBits, currBytePos, nextBitPos, numBitsRead⟩)
    else
      let bit := (stream.getD currBytePos 0 >>> nextBitPos) &&& 1
      if nextBitPos + 1 = 8 then
        (some bit, ⟨stream, szBytes, szBits, currBytePos + 1, 0, numBitsRead + 1⟩)
      else
        (some bit, ⟨stream, szBytes, szBits, currBytePos, nextBitPos + 1, numBitsRead + 1⟩)

/-- `Decoder::readKBitsWord`: assemble `bitCount` bits least-significant
first; a failed read fires the hook and breaks. -/
def Decoder.readKBitsWordLoop (r : Decoder) (num : Nat) (b : Nat) :
    Nat → Nat × Decoder × Bool
  | 0 => (num, r, false)
  | n + 1 =>
    match r.readNextBit with
    | (none, r1) => (num, r1, true)
    | (some bit, r1) =>
      Decoder.readKBitsWordLoop r1 (num ||| (bit <<< b)) (b + 1) n

def Decoder.readKBitsWord (r : Decoder) (bitCount : Nat) : Nat × Decoder × Bool :=
  Decoder.readKBitsWordLoop r 0 0 bitCount

/-- The quotient loop of `easyDecode`:
`while (readNextBit(bit) && bit == 1) ++q`. -/
def Decoder.readQuotient (r : Decoder) (q : Nat) : Nat → Nat × Decoder
  | 0 => (q, r)
  | fuel + 1 =>
    match r.readNextBit with
    | (none, r1) => (q, r1)
    | (some bit, r1) =>
      if bit = 1 then Decoder.readQuotient r1 (q + 1) fuel else (q, r1)

/-- The remainder loop of `easyDecode`:
`for (i = KBits-1; i >= 0; i--)` or-ing each bit into position `i`; a failed
read fires the hook and aborts the decode. -/
def Decoder.readRemainder (r : Decoder) (value : Nat) : Nat → Option (Nat × Decoder)
  | 0 => some (value, r)
  | i + 1 =>
    match r.readNextBit with
    | (none, _) => none
    | (some bit, r1) => Decoder.readRemainder r1 (value ||| (bit <<< i)) i

/-- The per-byte loop of `rice::easyDecode`; `remaining` counts down from the
output capacity (which the guard made at least 1). -/
def decodeBytesLoop (r : Decoder) (m KBits : Nat) (out : List Nat) :
    Nat → List Nat × Bool
  | 0 => (out, false)
  | remaining + 1 =>
    match Decoder.readQuotient r 0 (r.sizeInBits + 1) with
    | (q, r1) =>
      match Decoder.readRemainder r1 (m * q) KBits with
      | none => (out, true)
      | some (value, r2) =>
        let out := out ++ [value % 256]
        if remaining = 0 then (out, false)
        else decodeBytesLoop r2 m KBits out remaining

/-- Result of `rice::easyEncode`: the released buffer with its byte and bit
counts (absent when an argument guard fired), the hook flag, and the sticky
out-of-bounds-write flag. -/
structure EasyEncodeResult where
  compressed : Option (List Nat)
  compressedSizeBytes : Nat
  compressedSizeBits : Nat
  hooked : Bool
  oob : Bool
deriving DecidableEq

/-- `rice::easyEncode`: argument guards fire the hook and return; otherwise
pick the best `k`, allocate a writer sized by the predicted bit count (the
4-bit `k` word is not included in that prediction), write the `k` word and
every byte, and release the buffer. -/
def easyEncode (uncompressed : Option (List Nat)) (uncompressedSizeBytes : Int)
    (compressedValid sizeBytesValid sizeBitsValid : Bool) : EasyEncodeResult :=
  match uncompressed with
  | none => ⟨none, 0, 0, true, false⟩
  | some data =>
    if !compressedValid then ⟨none, 0, 0, true, false⟩
    else if uncompressedSizeBytes ≤ 0 || !sizeBytesValid || !sizeBitsValid then
      ⟨none, 0, 0, true, false⟩
    else
      let bytes := (List.range uncompressedSizeBytes.toNat).map (fun i => data.getD i 0)
      match findBestKBits bytes 8 with
      | (KBits, minCompressedBitSize) =>
        let w := Encoder.initWith minCompressedBitSize 2
        let w := w.writeKBitsWord KBits 4
        let w := bytes.foldl (fun w b => w.encodeByte b KBits) w
        ⟨some w.stream, w.getByteCount, w.getBitCount, false, w.oob⟩

/-- `rice::easyDecode`: argument guards fire the hook and return 0 bytes;
otherwise read the 4-bit `k` word and decode bytes until the output buffer is
full.  Returns the C++ return value, the output bytes, and the hook flag. -/
def easyDecode (compressed : Option (List Nat)) (compressedSizeBytes compressedSizeBits : Int)
    (uncompressedValid : Bool) (uncompressedSizeBytes : Int) : Int × List Nat × Bool :=
  match compressed with
  | none => (0, [], true)
  | some buf =>
    if !uncompressedValid then (0, [], true)
    else if compressedSizeBytes ≤ 0 || compressedSizeBits ≤ 0 ||
        uncompressedSizeBytes ≤ 0 then
      (0, [], true)
    else
      let r := Decoder.init buf compressedSizeBytes.toNat compressedSizeBits.toNat
      match r.readKBitsWord 4 with
      | (KBits, r1, e1) =>
        let m := 1 <<< KBits
        match decodeBytesLoop r1 m KBits [] uncompressedSizeBytes.toNat with
        | (out, e2) => ((out.length : Int), out, e1 || e2)

end rice

namespace rle

/-- `RleWord` is `std::uint8_t` (the build without `RLE_WORD_SIZE_16`), so a
packet is `sizeof(RleWord) + sizeof(uint8) = 2` bytes. -/
def MaxRunLength : Nat := 255

/-- The encoder loop of `rle::easyEncode` over the remaining input, carrying
the current run `(rleCount, rleByte)` and the bytes written so far.  A flush
that does not fit returns `(-1, partial output)`; the `for` loop increment
`++rleCount` is performed on entering the next iteration. -/
def encodeLoop (outSizeBytes : Int) : List Nat → Nat → Nat → List Nat → Int × List Nat
  | [], rleCount, rleByte, out =>
    if rleCount ≠ 0 then
      if (out.length : Int) + 2 > outSizeBytes then (-1, out)
      else ((out.length : Int) + 2, out ++ [rleCount, rleByte])
    else ((out.length : Int), out)
  | b :: rest, rleCount, rleByte, out =>
    if b ≠ rleByte || rleCount = MaxRunLength then
      if (out.length : Int) + 2 > outSizeBytes then (-1, out)
      else encodeLoop outSizeBytes rest (0 + 1) b (out ++ [rleCount, rleByte])
    else encodeLoop outSizeBytes rest (rleCount + 1) rleByte out

/-- `rle::easyEncode`: null and non-positive-size guards, then the run loop
starting from `rleCount = 0, rleByte = input[0]`.  The input pointer plus
`inSizeBytes` region is modelled as the list itself (an empty list stands for
a non-positive input size). -/
def easyEncode (input : Option (List Nat)) (outputValid : Bool) (outSizeBytes : Int) :
    Int × List Nat :=
  match input with
  | none => (-1, [])
  | some data =>
    if !outputValid then (-1, [])
    else if data.length = 0 || outSizeBytes ≤ 0 then (-1, [])
    else encodeLoop outSizeBytes data 0 (data.headD 0) []

/-- The `while (rleCount--)` replication loop of `rle::easyDecode`: write
`rleByte`, and return the error only when the output becomes exactly full
while the current packet still has bytes to write.  The output pointer is not
bounds-checked by the C++, so the model keeps appending (`bw` is the running
`bytesWritten`). -/
def writeRun (rleByte : Nat) (outSizeBytes : Int) :
    Nat → Nat → List Nat → Bool × Nat × List Nat
  | 0, bw, out => (true, bw, out)
  | c + 1, bw, out =>
    let out := out ++ [rleByte]
    let bw := bw + 1
    if (bw : Int) = outSizeBytes && c ≠ 0 then (false, bw, out)
    else writeRun rleByte outSizeBytes c bw out

/-- The packet loop of `rle::easyDecode` (`i += 2` per packet).  An odd
trailing byte makes the C++ read one byte past the input buffer; the model
reads 0 there. -/
def decodeLoop (outSizeBytes : Int) : List Nat → Nat → List Nat → Int × List Nat
  | [], bw, out => ((bw : Int), out)
  | [c], bw, out =>
    match writeRun 0 outSizeBytes c bw out with
    | (true, bw1, out1) => ((bw1 : Int), out1)
    | (false, _, out1) => (-1, out1)
  | c :: b :: rest, bw, out =>
    match writeRun b outSizeBytes c bw out with
    | (true, bw1, out1) => decodeLoop outSizeBytes rest bw1 out1
    | (false, _, out1) => (-1, out1)

/-- `rle::easyDecode`: null and non-positive-size guards, then the packet
loop.  Returns the C++ return value together with every byte the code wrote
through the output pointer (which can exceed `outSizeBytes`, see C7). -/
def easyDecode (input : Option (List Nat)) (outputValid : Bool) (outSizeBytes : Int) :
    Int × List Nat :=
  match input with
  | none => (-1, [])
  | some data =>
    if !outputValid then (-1, [])
    else if data.length = 0 || outSizeBytes ≤ 0 then (-1, [])
    else decodeLoop outSizeBytes data 0 []

end rle

namespace huffman

/-- A sequence of `appendBit` operations, one per element of `bits`. -/
def BitStreamWriter.appendRun (w : BitStreamWriter) (bits : List Nat) : BitStreamWriter :=
  bits.foldl BitStreamWriter.appendBit w

/-- The `n` least-significant bits of `num`, least-significant first — the
exact sequence `appendBitsU64(num, n)` pushes. -/
def lsbBits (num n : Nat) : List Nat :=
  (List.range n).map (fun b => (num >>> b) &&& 1)

/-- The bit sequence of a `Code`, first-emitted bit first — the exact
sequence `appendCode(code)` pushes. -/
def codeBits (c : Code) : List Nat :=
  (List.range c.length).map (fun b => c.getBit b)

/-- Every element of the list is a bit (0 or 1). -/
def bitsGood (bits : List Nat) : Prop := ∀ b ∈ bits, b ≤ 1

/-- Value of a bit list read least-significant first. -/
def bitsVal (l : List Nat) : Nat :=
  l.foldr (fun b acc => b + 2 * acc) 0

/-- Appending one bit to a code that is not at its capacity, as a total
function: the bit lands at position `length`. -/
def Code.push (c : Code) (b : Nat) : Code :=
  ⟨c.bits + b * 2 ^ c.length, c.length + 1⟩

/-- Writer invariant: the cursor fields track the number of bits appended so
far, the buffer holds exactly those bits (early positions) and zeros
elsewhere, and no out-of-bounds write ever happened. -/
structure WInv (w : BitStreamWriter) (bits : List Nat) : Prop where
  stream_len : w.stream.length = w.bytesAllocated
  gran : 2 ≤ w.granularity
  alloc_pos : 1 ≤ w.bytesAllocated
  nbits : w.numBitsWritten = bits.length
  cur : w.currBytePos = bits.length / 8
  nxt : w.nextBitPos = bits.length % 8
  cur_lt : w.currBytePos < w.bytesAllocated
  bytes_lt : ∀ x ∈ w.stream, x < 256
  content : ∀ i, bitAt w.stream i = bits.getD i 0
  noOob : w.oob = false

/-- Reader view: the reader is positioned `k` bits into a stream whose first
`sizeInBits` bits are `bits`. -/
structure RInv (r : BitStreamReader) (bits : List Nat) (k : Nat) : Prop where
  content : ∀ i, i < bits.length → bitAt r.stream i = bits.getD i 0
  szb : r.sizeInBits = bits.length
  pos : r.numBitsRead = k
  cur : r.currBytePos = k / 8
  nxt : r.nextBitPos = k % 8

/-- A `Code` built from `clear()` by appends: the stored word never has bits
at or above `length`. -/
def Code.wf (c : Code) : Prop := c.bits < 2 ^ c.length

/-- Code prefix order: `c` is an initial segment of `d` in emission order. -/
def codePre (c d : Code) : Prop :=
  c.length ≤ d.length ∧ ∀ i, i < c.length → d.getBit i = c.getBit i

/-- Abstract binary tree extracted from the encoder's node pool:
the shape the index-linked `Node` records denote. -/
inductive HTree where
  | leaf : Nat → HTree
  | node : HTree → HTree → HTree

/-- Leaf symbols in left-to-right order. -/
def HTree.syms : HTree → List Nat
  | .leaf s => [s]
  | .node l r => l.syms ++ r.syms

/-- Node count. -/
def HTree.size : HTree → Nat
  | .leaf _ => 1
  | .node l r => l.size + r.size + 1

/-- `Rep pool i t ix`: pool index `i` denotes the tree `t`, with `ix` the
(preorder) list of pool indices of `t`'s nodes.  Leaves sit in their symbol's
slot of the pool with no children; inner nodes link to their two children. -/
inductive Rep (pool : List Node) : Nat → HTree → List Nat → Prop where
  | leaf (s : Nat) (h1 : s < MaxSymbols)
      (h2 : (pool.getD s dNode).leftChild = Nil)
      (h3 : (pool.getD s dNode).rightChild = Nil)
      (h4 : (pool.getD s dNode).value = (s : Int)) :
      Rep pool s (.leaf s) [s]
  | node (i li ri : Nat) (l r : HTree) (il ir : List Nat)
      (hl : Rep pool li l il) (hr : Rep pool ri r ir)
      (h1 : (pool.getD i dNode).leftChild = (li : Int))
      (h2 : (pool.getD i dNode).rightChild = (ri : Int))
      (h4 : (pool.getD i dNode).value = (i : Int))
      (hge : MaxSymbols ≤ i)
      (hi : i < MaxNodes) :
      Rep pool i (.node l r) (i :: il ++ ir)

/-- The codes `recursiveAssignCodes` assigns to the leaves of a tree whose
root received code `c`: descend appending 0 left and 1 right. -/
def assignSpec : HTree → Code → List (Nat × Code)
  | .leaf s, c => [(s, c)]
  | .node l r, c => assignSpec l (c.push 0) ++ assignSpec r (c.push 1)

/-- The header record of one symbol: its code length in `width` bits, then
the code bits themselves. -/
def symBits (cs : Nat → Code) (width s : Nat) : List Nat :=
  lsbBits (cs s).length width ++ codeBits (cs s)

/-- The unpadded header: two 16-bit counters then the 256 symbol records. -/
def headerAll (cs : Nat → Code) (width : Nat) : List Nat :=
  lsbBits MaxSymbols 16 ++ lsbBits width 16 ++
    ((List.range MaxSymbols).map (symBits cs width)).flatten

/-- Zero padding to the next byte boundary after `n` bits. -/
def headerPad (n : Nat) : List Nat := List.replicate ((8 - n % 8) % 8) 0

/-- The payload: the code of every input byte, concatenated. -/
def payBits (cs : Nat → Code) (input : List Nat) : List Nat :=
  (input.map (fun b => codeBits (cs b))).flatten

/-- The invariant of the `countFrequencies` fold: the pool is the frequency
table of the data processed so far (count function `cnt`), with untouched
leaf slots and the whole upper region default-constructed. -/
def cfInv (pool : List Node) (cnt : Nat → Nat) : Prop :=
  pool.length = MaxNodes ∧
  ∀ s : Nat, pool.getD s dNode =
    if 0 < cnt s ∧ s < MaxSymbols then ⟨(cnt s : Int), Nil, Nil, (s : Int), Code.nil⟩
    else dNode

/-- Invariant of the `while (pQueue.size() > 1)` merge loop: every queue
element is the root of a tree over pairwise-distinct pool slots, the inner
slots `[MaxSymbols, MaxSymbols + used)` are exactly the claimed ones, nothing
above them has been touched, no code has been assigned anywhere, and every
queued root has positive frequency. -/
structure QInv (pool : List Node) (q : List Nat) (ents : List (HTree × List Nat))
    (used : Nat) : Prop where
  plen : pool.length = MaxNodes
  rel : List.Forall₂ (fun i e => Rep pool i e.1 e.2) q ents
  ixnd : ((ents.map Prod.snd).flatten).Nodup
  ixlt : ∀ j ∈ (ents.map Prod.snd).flatten, j < MaxSymbols + used
  fresh : ∀ j, MaxSymbols + used ≤ j → pool.getD j dNode = dNode
  innerValid : ∀ j, MaxSymbols ≤ j → j < MaxSymbols + used →
    0 < (pool.getD j dNode).frequency
  codes : ∀ j, (pool.getD j dNode).code = Code.nil
  qfreq : ∀ i ∈ q, 0 < (pool.getD i dNode).frequency

/-- The loop of `Code::appendCode`, over an explicit list of bits. -/
def pushRunGo (p : Code × Bool) (bs : List Nat) : Code × Bool :=
  bs.foldl (fun p b => let q := p.1.appendBit b; (q.1, p.2 || q.2)) p

/-- The body of one `recursiveAssignCodes` call after the parent code has been
assembled successfully into `c`. -/
def assignBody (pool : List Node) (i : Nat) (bit : Nat) (c : Code) (fuel : Nat) :
    List Node × Bool :=
  let node := pool.getD i dNode
  let p2 := c.appendBit bit
  let pool2 := pool.set i { node with code := p2.1 }
  let q1 :=
    if node.leftChild != Nil then
      recursiveAssignCodes pool2 node.leftChild.toNat (some i) 0 fuel
    else (pool2, false)
  let q2 :=
    if node.rightChild != Nil then
      recursiveAssignCodes q1.1 node.rightChild.toNat (some i) 1 fuel
    else (q1.1, false)
  (q2.1, p2.2 || q1.2 || q2.2)

/-- The code a node inherits from its parent: nothing at the root, the
parent's stored code otherwise. -/
def parentCode (pool : List Node) (parent : Option Nat) : Code :=
  match parent with
  | none => Code.nil
  | some pi => (pool.getD pi dNode).code

/-- The parent-code append step at the top of `recursiveAssignCodes`. -/
def p1Step (pool : List Node) (i : Nat) (parent : Option Nat) : Code × Bool :=
  match parent with
  | none => ((pool.getD i dNode).code, false)
  | some pi => (pool.getD i dNode).code.appendCode ((pool.getD pi dNode).code)

/-- Bit position of symbol `c`'s record inside the header. -/
def recPos (cs : Nat → Code) (width c : Nat) : Nat :=
  32 + (((List.range c).map (symBits cs width)).flatten).length

end huffman

namespace huffman

theorem getD_set_self {l : List Nat} {i : Nat} (v d : Nat) (h : i < l.length) :
    (l.set i v).getD i d = v := by
  simp [List.getD_eq_getElem?_getD, List.getElem?_set_self, h]

theorem getD_set_ne {l : List Nat} {i j : Nat} (v d : Nat) (h : i ≠ j) :
    (l.set i v).getD j d = l.getD j d := by
  simp [List.getD_eq_getElem?_getD, List.getElem?_set_ne h]

theorem getD_append_left {l m : List Nat} {i : Nat} (d : Nat) (h : i < l.length) :
    (l ++ m).getD i d = l.getD i d := by
  simp [List.getD_eq_getElem?_getD, List.getElem?_append, h]

theorem getD_append_right {l m : List Nat} {i : Nat} (d : Nat) (h : l.length ≤ i) :
    (l ++ m).getD i d = m.getD (i - l.length) d := by
  simp [List.getD_eq_getElem?_getD, List.getElem?_append, Nat.not_lt.2 h]

theorem getD_append_len {l : List Nat} {b d : Nat} :
    (l ++ [b]).getD l.length d = b := by
  rw [getD_append_right d le_rfl]
  simp

theorem getD_pos_mem {l : List Nat} {i : Nat} (d : Nat) (h : i < l.length) :
    l.getD i d ∈ l := by
  rw [List.getD_eq_getElem l d h]
  exact l.getElem_mem h

theorem shift_and_one (x j : Nat) : (x >>> j) &&& 1 = (x.testBit j).toNat := by
  rw [Nat.toNat_testBit, Nat.and_one_is_mod, Nat.shiftRight_eq_div_pow]

theorem shift_and_one_le (x j : Nat) : (x >>> j) &&& 1 ≤ 1 := by
  rw [shift_and_one]
  cases x.testBit j <;> simp

/-- Bit query through the byte decomposition, as a `testBit`. -/
theorem bitAt_testBit (s : List Nat) (i : Nat) :
    bitAt s i = ((s.getD (i / 8) 0).testBit (i % 8)).toNat := by
  rw [bitAt, shift_and_one]

theorem bitAt_le_one (s : List Nat) (i : Nat) : bitAt s i ≤ 1 := by
  rw [bitAt]; exact shift_and_one_le _ _

theorem bitAt_append_zeros (s : List Nat) (m i : Nat) :
    bitAt (s ++ List.replicate m 0) i = bitAt s i := by
  rcases Nat.lt_or_ge (i / 8) s.length with h | h
  · rw [bitAt, bitAt, getD_append_left 0 h]
  · rw [bitAt, bitAt, getD_append_right 0 h, List.getD_eq_default _ _ h]
    rcases Nat.lt_or_ge (i / 8 - s.length) m with h2 | h2
    · simp [List.getD_eq_getElem?_getD, List.getElem?_replicate, h2]
    · rw [List.getD_eq_default]
      simpa using h2

theorem bitAt_set_other {s : List Nat} {cb i : Nat} (v : Nat) (h : i / 8 ≠ cb) :
    bitAt (s.set cb v) i = bitAt s i := by
  rw [bitAt, bitAt, getD_set_ne v 0 (fun hh => h hh.symm)]

theorem bitAt_set_same {s : List Nat} {cb i : Nat} (v : Nat) (h : i / 8 = cb)
    (hlt : cb < s.length) : bitAt (s.set cb v) i = (v >>> (i % 8)) &&& 1 := by
  rw [bitAt, h, getD_set_self v 0 hlt]

/-- Setting via `byte ||| (1 <<< nb)`: bit `nb` becomes 1, others unchanged. -/
theorem testBit_or_mask (byte nb j : Nat) :
    (byte ||| 1 <<< nb).testBit j = (byte.testBit j || decide (j = nb)) := by
  rw [Nat.shiftLeft_eq, Nat.one_mul, Nat.testBit_or]
  rcases eq_or_ne j nb with h | h
  · subst h; simp
  · simp [Nat.testBit_two_pow_of_ne (Ne.symm h), h]

/-- Clearing via `byte &&& (255 - (1 <<< nb))` for a byte value: bit `nb`
becomes 0, other low bits unchanged. -/
theorem testBit_and_mask (byte nb j : Nat) (hnb : nb < 8) (hbyte : byte < 256) :
    (byte &&& (255 - 1 <<< nb)).testBit j = (byte.testBit j && decide (j ≠ nb)) := by
  have h255 : (255 - 1 <<< nb) = 255 ^^^ 1 <<< nb := by
    interval_cases nb <;> rfl
  rw [h255, Nat.testBit_and, Nat.testBit_xor, Nat.shiftLeft_eq, Nat.one_mul]
  rcases Nat.lt_or_ge j 8 with hj | hj
  · have h2 : (255 : Nat).testBit j = true := by interval_cases j <;> rfl
    rcases eq_or_ne j nb with h | h
    · subst h; simp [h2]
    · simp [h2, Nat.testBit_two_pow_of_ne (Ne.symm h), h]
  · have hpow : (256 : Nat) ≤ 2 ^ j := by
      calc (256 : Nat) = 2 ^ 8 := by norm_num
      _ ≤ 2 ^ j := Nat.pow_le_pow_right (by norm_num) hj
    have h2 : (255 : Nat).testBit j = false :=
      Nat.testBit_eq_false_of_lt (by omega)
    have h3 : byte.testBit j = false :=
      Nat.testBit_eq_false_of_lt (by omega)
    simp [h2, h3]

theorem allocate_grow (stream : List Nat) (ba g cb nb nw : Nat) (k : Nat)
    (hk : ba < k) (h0 : 0 < k) :
    BitStreamWriter.allocate ⟨stream, ba, g, cb, nb, nw, false⟩ (k * 8) =
      ⟨stream ++ List.replicate (k - stream.length) 0, k, g, cb, nb, nw, false⟩ := by
  simp only [BitStreamWriter.allocate]
  rw [if_neg (by omega : ¬ k * 8 = 0), if_neg (by omega : ¬ k * 8 % 8 ≠ 0)]
  rw [Nat.mul_div_cancel _ (by norm_num : (0:Nat) < 8)]
  rw [if_neg (by omega : ¬ k ≤ ba)]

theorem appendBit_eq (stream : List Nat) (ba g cb nb nw : Nat) (b : Nat)
    (hcb : cb < stream.length) :
    BitStreamWriter.appendBit ⟨stream, ba, g, cb, nb, nw, false⟩ b =
      (let byte2 := if b = 0 then stream.getD cb 0 &&& (255 - 1 <<< nb)
                    else stream.getD cb 0 ||| 1 <<< nb
       let stream2 := stream.set cb byte2
       if nb + 1 = 8 then
         (if cb + 1 = ba then
            BitStreamWriter.allocate ⟨stream2, ba, g, cb + 1, 0, nw + 1, false⟩ (ba * g * 8)
          else ⟨stream2, ba, g, cb + 1, 0, nw + 1, false⟩)
       else ⟨stream2, ba, g, cb, nb + 1, nw + 1, false⟩) := by
  simp only [BitStreamWriter.appendBit]
  rw [show (decide (stream.length ≤ cb)) = false by simpa using Nat.not_le.2 hcb]
  simp only [Bool.or_false]

theorem or_two_pow_of_lt {v j : Nat} (h : v < 2 ^ j) : v ||| 2 ^ j = v + 2 ^ j := by
  apply Nat.eq_of_testBit_eq
  intro i
  rw [Nat.testBit_or, Nat.add_comm v (2 ^ j)]
  rcases Nat.lt_trichotomy i j with hij | hij | hij
  · rw [Nat.testBit_two_pow_add_gt hij, Nat.testBit_two_pow_of_ne (by omega)]
    simp
  · subst hij
    rw [Nat.testBit_two_pow_add_eq, Nat.testBit_eq_false_of_lt h,
        Nat.testBit_two_pow_self]
    simp
  · have h1 : 2 ^ j + v < 2 ^ i := by
      have : 2 ^ (j + 1) ≤ 2 ^ i := Nat.pow_le_pow_right (by norm_num) hij
      have := Nat.pow_succ 2 j
      omega
    rw [Nat.testBit_eq_false_of_lt h1,
        Nat.testBit_eq_false_of_lt (lt_of_lt_of_le h (Nat.pow_le_pow_right (by norm_num) (le_of_lt hij))),
        Nat.testBit_two_pow_of_ne (by omega)]
    rfl

/-- Appending a bit preserves the writer invariant, extending the abstract
bit list. -/
theorem WInv_appendBit {w : BitStreamWriter} {bits : List Nat} (h : WInv w bits)
    {b : Nat} (hb : b ≤ 1) : WInv (w.appendBit b) (bits ++ [b]) := by
  obtain ⟨stream, ba, g, cb, nb, nw, oob⟩ := w
  obtain ⟨hlen, hg, hba, hnw, hcb, hnb, hcl, hblt, hcont, hoob⟩ := h
  simp only at hlen hg hba hnw hcb hnb hcl hblt hcont hoob
  subst hnw hcb hnb hoob
  set n := bits.length with hn
  have hcbs : n / 8 < stream.length := by omega
  rw [appendBit_eq stream ba g (n / 8) (n % 8) n b hcbs]
  simp only
  set byte := stream.getD (n / 8) 0 with hbyte_def
  set byte2 := if b = 0 then byte &&& (255 - 1 <<< (n % 8)) else byte ||| 1 <<< (n % 8)
    with hbyte2_def
  have hbyte : byte < 256 := hblt _ (getD_pos_mem 0 hcbs)
  have hmod8 : n % 8 < 8 := Nat.mod_lt _ (by norm_num)
  have hb2 : byte2 < 256 := by
    rw [hbyte2_def]
    split
    · exact lt_of_le_of_lt Nat.and_le_left hbyte
    · have hm : (1 <<< (n % 8)) < 256 := by
        rw [Nat.shiftLeft_eq, Nat.one_mul]
        calc (2:Nat) ^ (n % 8) ≤ 2 ^ 7 := Nat.pow_le_pow_right (by norm_num) (by omega)
        _ < 256 := by norm_num
      exact Nat.or_lt_two_pow (n := 8) hbyte hm
  have hbit_same : byte2.testBit (n % 8) = decide (b = 1) := by
    rcases Nat.le_one_iff_eq_zero_or_eq_one.mp hb with h0 | h1
    · rw [hbyte2_def, if_pos h0, testBit_and_mask _ _ _ hmod8 hbyte, h0]
      simp
    · rw [hbyte2_def, if_neg (by omega), testBit_or_mask, h1]
      simp
  have hbit_other : ∀ j, j ≠ n % 8 → byte2.testBit j = byte.testBit j := by
    intro j hj
    rw [hbyte2_def]
    split
    · rw [testBit_and_mask _ _ _ hmod8 hbyte]
      simp [hj]
    · rw [testBit_or_mask]
      simp [hj]
  have content2 : ∀ i, bitAt (stream.set (n / 8) byte2) i = (bits ++ [b]).getD i 0 := by
    intro i
    rcases eq_or_ne (i / 8) (n / 8) with hi8 | hi8
    · rw [bitAt_set_same byte2 hi8 hcbs, shift_and_one]
      rcases eq_or_ne i n with hieq | hine
      · subst hieq
        rw [hbit_same, getD_append_len]
        rcases Nat.le_one_iff_eq_zero_or_eq_one.mp hb with h0 | h1 <;> subst_vars <;> simp
      · have hjne : i % 8 ≠ n % 8 := by omega
        rw [hbit_other _ hjne, hbyte_def, ← hi8, ← bitAt_testBit, hcont i]
        rcases Nat.lt_or_ge i n with hilt | hige
        · rw [getD_append_left 0 hilt]
        · have h2 : (bits ++ [b]).length ≤ i := by
            simp only [List.length_append, List.length_singleton]
            omega
          rw [List.getD_eq_default _ _ (hn ▸ hige), List.getD_eq_default _ _ h2]
    · rw [bitAt_set_other byte2 hi8, hcont i]
      have hine : i ≠ n := fun hh => hi8 (by rw [hh])
      rcases Nat.lt_or_ge i n with hilt | hige
      · rw [getD_append_left 0 hilt]
      · have h2 : (bits ++ [b]).length ≤ i := by
          simp only [List.length_append, List.length_singleton]
          omega
        rw [List.getD_eq_default _ _ (hn ▸ hige), List.getD_eq_default _ _ h2]
  have hlen2 : (stream.set (n / 8) byte2).length = ba := by
    rw [List.length_set]; exact hlen
  have hblt2 : ∀ x ∈ stream.set (n / 8) byte2, x < 256 := by
    intro x hx
    rcases List.mem_or_eq_of_mem_set hx with hx1 | hx1
    · exact hblt x hx1
    · subst hx1; exact hb2
  have hlenapp : (bits ++ [b]).length = n + 1 := by
    simp [hn]
  have hbag : ba * 2 ≤ ba * g := Nat.mul_le_mul_left ba hg
  split
  · rename_i h8
    have hn8 : n % 8 = 7 := by omega
    split
    · rename_i hgrow
      rw [show ba * g * 8 = (ba * g) * 8 by ring,
          allocate_grow _ ba g _ 0 (n + 1) (ba * g) (by omega) (by omega)]
      constructor <;> simp only
      · simp only [List.length_append, List.length_replicate, hlen2]
        omega
      · exact hg
      · omega
      · omega
      · omega
      · omega
      · omega
      · intro x hx
        rcases List.mem_append.mp hx with hx1 | hx1
        · exact hblt2 x hx1
        · rw [List.eq_of_mem_replicate hx1]; norm_num
      · intro i
        rw [bitAt_append_zeros, content2 i]
    · rename_i hgrow
      constructor <;> simp only
      · exact hlen2
      · exact hg
      · exact hba
      · omega
      · omega
      · omega
      · omega
      · exact hblt2
      · exact content2
  · rename_i h8
    constructor <;> simp only
    · exact hlen2
    · exact hg
    · exact hba
    · omega
    · omega
    · omega
    · omega
    · exact hblt2
    · exact content2

end huffman

namespace huffman

theorem appendRun_nil (w : BitStreamWriter) : w.appendRun [] = w := rfl

theorem appendRun_cons (w : BitStreamWriter) (a : Nat) (l : List Nat) :
    w.appendRun (a :: l) = (w.appendBit a).appendRun l := rfl

theorem appendRun_append (w : BitStreamWriter) (l m : List Nat) :
    w.appendRun (l ++ m) = (w.appendRun l).appendRun m := by
  simp [BitStreamWriter.appendRun, List.foldl_append]

/-- A run of appends preserves the writer invariant. -/
theorem WInv_appendRun {w : BitStreamWriter} {bits : List Nat} (h : WInv w bits)
    {bs : List Nat} (hbs : bitsGood bs) : WInv (w.appendRun bs) (bits ++ bs) := by
  induction bs generalizing w bits with
  | nil => simpa [appendRun_nil]
  | cons a l ih =>
    rw [appendRun_cons]
    have h1 := WInv_appendBit h (hbs a (by simp))
    have h2 := ih h1 (fun x hx => hbs x (by simp [hx]))
    simpa [List.append_assoc] using h2

theorem init_eq : BitStreamWriter.init = ⟨List.replicate 1024 0, 1024, 2, 0, 0, 0, false⟩ := by
  show BitStreamWriter.allocate ⟨[], 0, 2, 0, 0, 0, false⟩ 8192 = _
  rw [show (8192 : Nat) = 1024 * 8 by norm_num,
      allocate_grow [] 0 2 0 0 0 1024 (by norm_num) (by norm_num)]
  simp only [List.nil_append, List.length_nil, Nat.sub_zero]

theorem getD_replicate_zero (n i : Nat) : (List.replicate n 0).getD i 0 = 0 := by
  rcases Nat.lt_or_ge i n with h | h
  · simp [List.getD_eq_getElem?_getD, List.getElem?_replicate, h]
  · rw [List.getD_eq_default]
    simpa using h

/-- The freshly constructed writer satisfies the invariant with no bits. -/
theorem WInv_init : WInv BitStreamWriter.init [] := by
  rw [init_eq]
  constructor
  · simp only [List.length_replicate]
  · norm_num
  · norm_num
  · rfl
  · rfl
  · rfl
  · norm_num
  · intro x hx
    rw [List.eq_of_mem_replicate hx]; norm_num
  · intro i
    rw [bitAt_testBit, getD_replicate_zero]
    simp
  · rfl

end huffman

namespace huffman

theorem getByteCount_ceil {w : BitStreamWriter} {bits : List Nat} (h : WInv w bits) :
    w.getByteCount = (bits.length + 7) / 8 := by
  rw [BitStreamWriter.getByteCount, h.nbits]
  split <;> omega

end huffman

/-- C4: folding any sequence of `appendBit` operations (bits 0/1) over a fresh
`huffman::BitStreamWriter` leaves `getBitCount` equal to the number of bits
appended, `getByteCount` equal to `⌈getBitCount / 8⌉`, keeps
`⌈getBitCount / 8⌉ ≤ bytesAllocated`, and every bit position at or beyond
`getBitCount` in the stream holds zero (in particular the padding bits of the
final byte). -/
theorem C4_bitstream_accounting (bits : List Nat) (hb : huffman.bitsGood bits) :
    (huffman.BitStreamWriter.init.appendRun bits).getBitCount = bits.length ∧
    (huffman.BitStreamWriter.init.appendRun bits).getByteCount = (bits.length + 7) / 8 ∧
    ((huffman.BitStreamWriter.init.appendRun bits).getBitCount + 7) / 8 ≤
      (huffman.BitStreamWriter.init.appendRun bits).bytesAllocated ∧
    ∀ i, (huffman.BitStreamWriter.init.appendRun bits).getBitCount ≤ i →
      huffman.bitAt (huffman.BitStreamWriter.init.appendRun bits).stream i = 0 := by
  have h := huffman.WInv_appendRun huffman.WInv_init hb
  rw [List.nil_append] at h
  have hbc : (huffman.BitStreamWriter.init.appendRun bits).getBitCount = bits.length := h.nbits
  refine ⟨hbc, huffman.getByteCount_ceil h, ?_, ?_⟩
  · rw [hbc]
    have h1 := h.cur
    have h2 := h.cur_lt
    omega
  · intro i hi
    rw [hbc] at hi
    rw [h.content i, List.getD_eq_default _ _ hi]

/-- C4 witness: the theorem applied at the concrete bit sequence 1,0,1. -/
theorem C4_bitstream_accounting_witness :
    huffman.bitsGood [1, 0, 1] ∧
    ((huffman.BitStreamWriter.init.appendRun [1, 0, 1]).getBitCount = 3 ∧
     (huffman.BitStreamWriter.init.appendRun [1, 0, 1]).getByteCount = (3 + 7) / 8 ∧
     ((huffman.BitStreamWriter.init.appendRun [1, 0, 1]).getBitCount + 7) / 8 ≤
       (huffman.BitStreamWriter.init.appendRun [1, 0, 1]).bytesAllocated ∧
     ∀ i, (huffman.BitStreamWriter.init.appendRun [1, 0, 1]).getBitCount ≤ i →
       huffman.bitAt (huffman.BitStreamWriter.init.appendRun [1, 0, 1]).stream i = 0) :=
  ⟨by
    show ∀ b ∈ ([1, 0, 1] : List Nat), b ≤ 1
    decide,
   C4_bitstream_accounting [1, 0, 1] (by
    show ∀ b ∈ ([1, 0, 1] : List Nat), b ≤ 1
    decide)⟩

namespace huffman

theorem getD_take {l : List Nat} {m i : Nat} (d : Nat) (h : i < m) :
    (l.take m).getD i d = l.getD i d := by
  simp [List.getD_eq_getElem?_getD, List.getElem?_take, h]

/-- Low bits of the `~mask` trick on a `uint64`: for `L < 64` the constant
`2^64 - 1 - 2^L` is `2^L - 1` modulo `2^L`. -/
theorem mask64_mod (L : Nat) (hL : L < 64) :
    ((1 <<< 64) - 1 - (1 <<< L)) % 2 ^ L = 2 ^ L - 1 := by
  rw [Nat.shiftLeft_eq, Nat.shiftLeft_eq, Nat.one_mul, Nat.one_mul]
  have hsplit : (2:Nat) ^ 64 = 2 ^ L * 2 ^ (64 - L) := by
    rw [← pow_add]
    congr 1
    omega
  have hK : (2:Nat) ^ (64 - L) ≥ 2 := by
    calc (2:Nat) ^ (64 - L) ≥ 2 ^ 1 := Nat.pow_le_pow_right (by norm_num) (by omega)
    _ = 2 := by norm_num
  have hP : (1:Nat) ≤ 2 ^ L := Nat.one_le_two_pow
  have heq : (2:Nat) ^ 64 - 1 - 2 ^ L = (2 ^ L - 1) + (2 ^ (64 - L) - 2) * 2 ^ L := by
    have h1 : (2 ^ (64 - L) - 2) * 2 ^ L = 2 ^ (64 - L) * 2 ^ L - 2 * 2 ^ L := by
      rw [Nat.sub_mul]
    have h2 : (2:Nat) ^ (64 - L) * 2 ^ L = 2 ^ 64 := by rw [mul_comm] at hsplit; omega
    have h3 : (2:Nat) ^ 64 ≥ 2 * 2 ^ L := by
      calc (2:Nat) * 2 ^ L = 2 ^ (L + 1) := by ring
      _ ≤ 2 ^ 64 := Nat.pow_le_pow_right (by norm_num) (by omega)
    omega
  rw [heq, Nat.add_mul_mod_self_right, Nat.mod_eq_of_lt (by omega)]

theorem and_mod_two_pow {a m L : Nat} (ha : a < 2 ^ L) : a &&& m = a &&& (m % 2 ^ L) := by
  apply Nat.eq_of_testBit_eq
  intro i
  rw [Nat.testBit_and, Nat.testBit_and, Nat.testBit_mod_two_pow]
  rcases Nat.lt_or_ge i L with h | h
  · simp [h]
  · rw [Nat.testBit_eq_false_of_lt (lt_of_lt_of_le ha (Nat.pow_le_pow_right (by norm_num) h))]
    simp

theorem and_two_pow_sub_one {a L : Nat} (ha : a < 2 ^ L) : a &&& (2 ^ L - 1) = a := by
  apply Nat.eq_of_testBit_eq
  intro i
  rw [Nat.testBit_and, Nat.testBit_two_pow_sub_one]
  rcases Nat.lt_or_ge i L with h | h
  · simp [h]
  · rw [Nat.testBit_eq_false_of_lt (lt_of_lt_of_le ha (Nat.pow_le_pow_right (by norm_num) h))]
    simp

/-- `Code::appendBit` below capacity on a well-formed code is a plain push of
the bit at position `length`. -/
theorem appendBit_push {c : Code} (hl : c.length < 64) (hv : c.bits < 2 ^ c.length)
    {b : Nat} (hb : b ≤ 1) :
    c.appendBit b = (⟨c.bits + b * 2 ^ c.length, c.length + 1⟩, false) := by
  rw [Code.appendBit, if_neg (by rw [CodeMaxBits]; omega)]
  rcases Nat.le_one_iff_eq_zero_or_eq_one.mp hb with h0 | h1
  · subst h0
    simp only [if_pos rfl, Nat.mul_zero, Nat.add_zero]
    rw [and_mod_two_pow hv, mask64_mod _ hl, and_two_pow_sub_one hv]
    simp
  · subst h1
    simp only [if_neg (by norm_num : (1:Nat) ≠ 0), Nat.one_mul]
    rw [Nat.shiftLeft_eq, Nat.one_mul, or_two_pow_of_lt hv]

theorem bitsVal_nil : bitsVal [] = 0 := rfl

theorem bitsVal_cons (b : Nat) (l : List Nat) : bitsVal (b :: l) = b + 2 * bitsVal l := rfl

theorem bitsVal_snoc (l : List Nat) (b : Nat) :
    bitsVal (l ++ [b]) = bitsVal l + b * 2 ^ l.length := by
  induction l with
  | nil => simp [bitsVal]
  | cons a t ih =>
    rw [List.cons_append, bitsVal_cons, bitsVal_cons, ih]
    rw [List.length_cons]
    ring

theorem bitsVal_lt {l : List Nat} (h : bitsGood l) : bitsVal l < 2 ^ l.length := by
  induction l with
  | nil => simp [bitsVal]
  | cons a t ih =>
    rw [bitsVal_cons]
    have ha : a ≤ 1 := h a (by simp)
    have ht := ih (fun x hx => h x (by simp [hx]))
    rw [List.length_cons, pow_succ]
    omega

theorem lsbBits_zero (num : Nat) : lsbBits num 0 = [] := rfl

theorem lsbBits_succ (num n : Nat) :
    lsbBits num (n + 1) = lsbBits num n ++ [(num >>> n) &&& 1] := by
  rw [lsbBits, lsbBits, List.range_succ, List.map_append]
  rfl

theorem lsbBits_length (num n : Nat) : (lsbBits num n).length = n := by
  rw [lsbBits, List.length_map, List.length_range]

theorem lsbBits_good (num n : Nat) : bitsGood (lsbBits num n) := by
  intro b hb
  rw [lsbBits] at hb
  obtain ⟨i, _, hi⟩ := List.mem_map.mp hb
  rw [← hi]
  exact shift_and_one_le _ _

theorem bitsVal_lsbBits (num n : Nat) : bitsVal (lsbBits num n) = num % 2 ^ n := by
  induction n with
  | zero => simp [lsbBits_zero, bitsVal, Nat.mod_one]
  | succ n ih =>
    rw [lsbBits_succ, bitsVal_snoc, lsbBits_length, ih, Nat.mod_pow_succ]
    congr 1
    rw [Nat.and_one_is_mod, Nat.shiftRight_eq_div_pow]
    ring

theorem appendBitsU64_eq_run (w : BitStreamWriter) (num n : Nat) :
    w.appendBitsU64 num n = w.appendRun (lsbBits num n) := by
  rw [BitStreamWriter.appendBitsU64, BitStreamWriter.appendRun, lsbBits, List.foldl_map]

theorem codeBits_length (c : Code) : (codeBits c).length = c.length := by
  rw [codeBits, List.length_map, List.length_range]

theorem codeBits_good (c : Code) : bitsGood (codeBits c) := by
  intro b hb
  rw [codeBits] at hb
  obtain ⟨i, _, hi⟩ := List.mem_map.mp hb
  rw [← hi]
  exact shift_and_one_le _ _

theorem appendCode_eq_run (w : BitStreamWriter) (c : Code) :
    w.appendCode c = w.appendRun (codeBits c) := by
  rw [BitStreamWriter.appendCode, BitStreamWriter.appendRun, codeBits, List.foldl_map]

end huffman

namespace huffman

/-- Reading one bit in range: the reader advances one position and appends
the stream bit to `currCode`. -/
theorem RInv_readNextBit {r : BitStreamReader} {bits : List Nat} {k : Nat}
    (h : RInv r bits k) (hk : k < bits.length) :
    r.readNextBit =
      (true, ⟨r.stream, r.sizeInBytes, r.sizeInBits, (k + 1) / 8, (k + 1) % 8, k + 1,
              (r.currCode.appendBit (bits.getD k 0)).1,
              r.err || (r.currCode.appendBit (bits.getD k 0)).2⟩) := by
  obtain ⟨stream, szBytes, szBits, cb, nb, n, code, err⟩ := r
  obtain ⟨hcont, hszb, hpos, hcur, hnxt⟩ := h
  simp only at hcont hszb hpos hcur hnxt
  rw [BitStreamReader.readNextBit]
  rw [if_neg (by omega)]
  have hbit : (stream.getD cb 0 >>> nb) &&& 1 = bits.getD k 0 := by
    rw [hcur, hnxt, ← bitAt, hcont k hk]
  rw [hbit]
  have h8 : nb < 8 := by omega
  split
  · rename_i hnb8
    rw [show (k + 1) / 8 = cb + 1 from by omega,
        show (k + 1) % 8 = 0 from by omega,
        show k + 1 = n + 1 from by omega]
  · rename_i hnb8
    rw [show (k + 1) / 8 = cb from by omega,
        show (k + 1) % 8 = nb + 1 from by omega,
        show k + 1 = n + 1 from by omega]

/-- Reading at the end of the stream fails and leaves the reader unchanged. -/
theorem RInv_readNextBit_end {r : BitStreamReader} {bits : List Nat} {k : Nat}
    (h : RInv r bits k) (hk : bits.length ≤ k) :
    r.readNextBit = (false, r) := by
  obtain ⟨stream, szBytes, szBits, cb, nb, n, code, err⟩ := r
  obtain ⟨hcont, hszb, hpos, hcur, hnxt⟩ := h
  simp only at hszb hpos
  rw [BitStreamReader.readNextBit]
  rw [if_pos (by omega)]

/-- The reader view after `readNextBit` in range. -/
theorem RInv_step {r : BitStreamReader} {bits : List Nat} {k : Nat}
    (h : RInv r bits k) :
    RInv (⟨r.stream, r.sizeInBytes, r.sizeInBits, (k + 1) / 8, (k + 1) % 8, k + 1,
           (r.currCode.appendBit (bits.getD k 0)).1,
           r.err || (r.currCode.appendBit (bits.getD k 0)).2⟩ : BitStreamReader) bits (k + 1) :=
  ⟨h.content, h.szb, rfl, rfl, rfl⟩

/-- `readBitsLoop` over an in-range window accumulates exactly the window's
bits into a well-formed `currCode`, without touching the error flag. -/
theorem readBitsLoop_ok {bits : List Nat} (hgood : bitsGood bits) :
    ∀ (n k : Nat) (r : BitStreamReader), RInv r bits k → k + n ≤ bits.length →
    r.currCode.bits < 2 ^ r.currCode.length → r.currCode.length + n ≤ 64 →
    r.readBitsLoop n =
      ⟨r.stream, r.sizeInBytes, r.sizeInBits, (k + n) / 8, (k + n) % 8, k + n,
       ⟨r.currCode.bits + bitsVal ((bits.drop k).take n) * 2 ^ r.currCode.length,
        r.currCode.length + n⟩, r.err⟩ := by
  intro n
  induction n with
  | zero =>
    intro k r h hle hv hl
    obtain ⟨stream, szBytes, szBits, cb, nb, nn, code, err⟩ := r
    obtain ⟨hcont, hszb, hpos, hcur, hnxt⟩ := h
    simp only at hcont hszb hpos hcur hnxt
    rw [BitStreamReader.readBitsLoop]
    simp only [List.take_zero, bitsVal_nil, Nat.zero_mul, Nat.add_zero]
    rw [← hcur, ← hnxt, ← hpos]
  | succ n ih =>
    intro k r h hle hv hl
    have hklt : k < bits.length := by omega
    rw [BitStreamReader.readBitsLoop, RInv_readNextBit h hklt]
    have hb : bits.getD k 0 ≤ 1 := by
      have : bits.getD k 0 ∈ bits := getD_pos_mem 0 hklt
      exact hgood _ this
    have hpush := appendBit_push (c := r.currCode) (by omega) hv hb
    rw [hpush]
    simp only [Bool.or_false]
    set r2 : BitStreamReader :=
      ⟨r.stream, r.sizeInBytes, r.sizeInBits, (k + 1) / 8, (k + 1) % 8, k + 1,
       ⟨r.currCode.bits + bits.getD k 0 * 2 ^ r.currCode.length, r.currCode.length + 1⟩,
       r.err⟩ with hr2
    have h2 : RInv r2 bits (k + 1) := ⟨h.content, h.szb, rfl, rfl, rfl⟩
    have hv2 : r2.currCode.bits < 2 ^ r2.currCode.length := by
      rw [hr2]
      simp only
      rw [pow_succ]
      have h3 := Nat.mul_le_mul_right (2 ^ r.currCode.length) hb
      rw [Nat.one_mul] at h3
      omega
    have hl2 : r2.currCode.length + n ≤ 64 := by
      rw [hr2]; simp only; omega
    have hrec := ih (k + 1) r2 h2 (by omega) hv2 hl2
    rw [hrec, hr2]
    simp only
    have hseg : (bits.drop k).take (n + 1) = bits.getD k 0 :: (bits.drop (k + 1)).take n := by
      rw [List.drop_eq_getElem_cons hklt, List.take_succ_cons]
      congr 1
      rw [List.getD_eq_getElem _ _ hklt]
    rw [hseg, bitsVal_cons]
    rw [show k + (n + 1) = k + 1 + n from by omega,
        show r.currCode.length + (n + 1) = r.currCode.length + 1 + n from by omega,
        show r.currCode.bits +
              (bits.getD k 0 + 2 * bitsVal ((bits.drop (k + 1)).take n)) * 2 ^ r.currCode.length =
            r.currCode.bits + bits.getD k 0 * 2 ^ r.currCode.length +
              bitsVal ((bits.drop (k + 1)).take n) * 2 ^ (r.currCode.length + 1) from by
          rw [pow_succ]; ring]

end huffman

namespace huffman

theorem readBitsU64_ok {bits : List Nat} (hgood : bitsGood bits) {r : BitStreamReader}
    {k : Nat} (h : RInv r bits k) (n : Nat) (hle : k + n ≤ bits.length) (hn : n ≤ 64) :
    r.readBitsU64 n =
      (bitsVal ((bits.drop k).take n),
       ⟨r.stream, r.sizeInBytes, r.sizeInBits, (k + n) / 8, (k + n) % 8, k + n,
        ⟨bitsVal ((bits.drop k).take n), n⟩, r.err⟩) := by
  rw [BitStreamReader.readBitsU64]
  have h1 : RInv { r with currCode := Code.nil } bits k :=
    ⟨h.content, h.szb, h.pos, h.cur, h.nxt⟩
  have h2 := readBitsLoop_ok hgood n k _ h1 hle
    (by simp [Code.nil]) (by simp [Code.nil]; omega)
  simp only at h2
  rw [h2]
  simp [Code.nil]

theorem readBitsLoop_err {bits : List Nat} :
    ∀ (n k : Nat) (r : BitStreamReader), RInv r bits k → k ≤ bits.length →
    bits.length < k + n → (r.readBitsLoop n).err = true := by
  intro n
  induction n with
  | zero => intro k r h hk hlt; omega
  | succ n ih =>
    intro k r h hk hlt
    rcases Nat.lt_or_ge k bits.length with hklt | hkge
    · rw [BitStreamReader.readBitsLoop, RInv_readNextBit h hklt]
      exact ih (k + 1) _ (RInv_step h) (by omega) (by omega)
    · rw [BitStreamReader.readBitsLoop, RInv_readNextBit_end h hkge]

theorem readBitsU64_err {bits : List Nat} {r : BitStreamReader} {k : Nat}
    (h : RInv r bits k) (hk : k ≤ bits.length) (n : Nat) (hlt : bits.length < k + n) :
    (r.readBitsU64 n).2.err = true := by
  rw [BitStreamReader.readBitsU64]
  exact readBitsLoop_err n k _ ⟨h.content, h.szb, h.pos, h.cur, h.nxt⟩ hk hlt

theorem RInv_ofWriter {w : BitStreamWriter} {bits : List Nat} (h : WInv w bits) :
    RInv (BitStreamReader.init w.stream w.getByteCount w.getBitCount) bits 0 := by
  constructor
  · intro i _
    exact h.content i
  · exact h.nbits
  · rfl
  · rfl
  · rfl

theorem RInv_ofWriter_trunc {w : BitStreamWriter} {bits : List Nat} (h : WInv w bits)
    (m : Nat) (hm : m ≤ bits.length) :
    RInv (BitStreamReader.init w.stream w.getByteCount m) (bits.take m) 0 := by
  constructor
  · intro i hi
    rw [List.length_take] at hi
    have hi2 : i < m := lt_of_lt_of_le hi (min_le_left _ _)
    show bitAt w.stream i = (bits.take m).getD i 0
    rw [h.content i, getD_take 0 hi2]
  · show m = (bits.take m).length
    rw [List.length_take]
    omega
  · rfl
  · rfl
  · rfl

theorem lsbBits_getD {num n i : Nat} (h : i < n) :
    (lsbBits num n).getD i 0 = (num >>> i) &&& 1 := by
  have hlen : i < (lsbBits num n).length := by rw [lsbBits_length]; exact h
  rw [List.getD_eq_getElem _ _ hlen]
  simp [lsbBits]

end huffman

/-- C5: `appendBitsU64(num, n)` (`n ≤ 64`, `num` a 64-bit value) appends
exactly the `n` least-significant bits of `num`, least-significant first; a
reader over the resulting stream returns `num mod 2^n` from `readBitsU64(n)`
with no error; and a reader whose stream ends after only `m < n` bits reports
the unexpected-end error from `readBitsU64(n)`. -/
theorem C5_append_read_bits_u64 (num n : Nat) (hnum : num < 2 ^ 64) (hn : n ≤ 64) :
    ((huffman.BitStreamWriter.init.appendBitsU64 num n).getBitCount = n ∧
     ∀ i, i < n →
       huffman.bitAt (huffman.BitStreamWriter.init.appendBitsU64 num n).stream i =
         (num >>> i) &&& 1) ∧
    ((huffman.BitStreamReader.init
        (huffman.BitStreamWriter.init.appendBitsU64 num n).stream
        (huffman.BitStreamWriter.init.appendBitsU64 num n).getByteCount
        (huffman.BitStreamWriter.init.appendBitsU64 num n).getBitCount).readBitsU64 n).1 =
        num % 2 ^ n ∧
    ((huffman.BitStreamReader.init
        (huffman.BitStreamWriter.init.appendBitsU64 num n).stream
        (huffman.BitStreamWriter.init.appendBitsU64 num n).getByteCount
        (huffman.BitStreamWriter.init.appendBitsU64 num n).getBitCount).readBitsU64 n).2.err =
        false ∧
    ∀ m, m < n →
      ((huffman.BitStreamReader.init
          (huffman.BitStreamWriter.init.appendBitsU64 num n).stream
          (huffman.BitStreamWriter.init.appendBitsU64 num n).getByteCount
          m).readBitsU64 n).2.err = true := by
  have hw : huffman.WInv (huffman.BitStreamWriter.init.appendBitsU64 num n)
      (huffman.lsbBits num n) := by
    rw [huffman.appendBitsU64_eq_run]
    have := huffman.WInv_appendRun huffman.WInv_init (huffman.lsbBits_good num n)
    rwa [List.nil_append] at this
  have hr := huffman.RInv_ofWriter hw
  have hlen := huffman.lsbBits_length num n
  have hfull := huffman.readBitsU64_ok (huffman.lsbBits_good num n) hr n
    (by omega) hn
  have hseg : ((huffman.lsbBits num n).drop 0).take n = huffman.lsbBits num n := by
    rw [List.drop_zero]
    exact List.take_of_length_le (by rw [hlen])
  refine ⟨⟨hw.nbits.trans hlen, ?_⟩, ?_, ?_, ?_⟩
  · intro i hi
    rw [hw.content i, huffman.lsbBits_getD hi]
  · rw [hfull]
    dsimp only
    rw [hseg]
    exact huffman.bitsVal_lsbBits num n
  · rw [hfull]
    rfl
  · intro m hm
    exact huffman.readBitsU64_err (huffman.RInv_ofWriter_trunc hw m (by omega))
      (by simp) n (by rw [List.length_take]; omega)

/-- C5 witness: the theorem applied at `num = 2893`, `n = 12`. -/
theorem C5_append_read_bits_u64_witness :
    (2893 < 2 ^ 64 ∧ 12 ≤ 64) ∧
    (((huffman.BitStreamWriter.init.appendBitsU64 2893 12).getBitCount = 12 ∧
      ∀ i, i < 12 →
        huffman.bitAt (huffman.BitStreamWriter.init.appendBitsU64 2893 12).stream i =
          (2893 >>> i) &&& 1) ∧
     ((huffman.BitStreamReader.init
         (huffman.BitStreamWriter.init.appendBitsU64 2893 12).stream
         (huffman.BitStreamWriter.init.appendBitsU64 2893 12).getByteCount
         (huffman.BitStreamWriter.init.appendBitsU64 2893 12).getBitCount).readBitsU64 12).1 =
         2893 % 2 ^ 12 ∧
     ((huffman.BitStreamReader.init
         (huffman.BitStreamWriter.init.appendBitsU64 2893 12).stream
         (huffman.BitStreamWriter.init.appendBitsU64 2893 12).getByteCount
         (huffman.BitStreamWriter.init.appendBitsU64 2893 12).getBitCount).readBitsU64 12).2.err =
         false ∧
     ∀ m, m < 12 →
       ((huffman.BitStreamReader.init
           (huffman.BitStreamWriter.init.appendBitsU64 2893 12).stream
           (huffman.BitStreamWriter.init.appendBitsU64 2893 12).getByteCount
           m).readBitsU64 12).2.err = true) :=
  ⟨⟨by norm_num, by norm_num⟩,
   C5_append_read_bits_u64 2893 12 (by norm_num) (by norm_num)⟩

namespace rle

/-- The encoder loop only returns a non-negative value when it returns the
length of everything written, and it writes at most one 2-byte packet per
remaining input byte (plus one for the open run). -/
theorem encodeLoop_bound (outSizeBytes : Int) :
    ∀ (rest : List Nat) (c byte : Nat) (out : List Nat) (r : Int) (out2 : List Nat),
    encodeLoop outSizeBytes rest c byte out = (r, out2) → 0 ≤ r →
    r = out2.length ∧ out2.length ≤ out.length + 2 * (max c 1 + rest.length) := by
  intro rest
  induction rest with
  | nil =>
    intro c byte out r out2 h hr
    rw [encodeLoop] at h
    split at h
    · split at h
      · obtain ⟨h1, h2⟩ := Prod.mk.injEq .. ▸ h
        omega
      · obtain ⟨h1, h2⟩ := Prod.mk.injEq .. ▸ h
        subst h2
        simp only [List.length_append, List.length_cons, List.length_nil] at h1 ⊢
        constructor
        · omega
        · have : 1 ≤ max c 1 := le_max_right c 1
          omega
    · obtain ⟨h1, h2⟩ := Prod.mk.injEq .. ▸ h
      subst h2
      constructor
      · omega
      · have : 1 ≤ max c 1 := le_max_right c 1
        omega
  | cons b rest ih =>
    intro c byte out r out2 h hr
    rw [encodeLoop] at h
    split at h
    · split at h
      · obtain ⟨h1, h2⟩ := Prod.mk.injEq .. ▸ h
        omega
      · obtain ⟨h1, h2⟩ := ih (0 + 1) b (out ++ [c, byte]) r out2 h hr
        refine ⟨h1, ?_⟩
        simp only [List.length_append, List.length_cons, List.length_nil] at h2
        have hc1 : 1 ≤ max c 1 := le_max_right c 1
        have : (max (0 + 1) 1) = 1 := by omega
        rw [this] at h2
        simp only [List.length_cons]
        omega
    · obtain ⟨h1, h2⟩ := ih (c + 1) byte out r out2 h hr
      refine ⟨h1, ?_⟩
      have hcc : max (c + 1) 1 = c + 1 := by omega
      have hc1 : c ≤ max c 1 := le_max_left c 1
      have hc2 : 1 ≤ max c 1 := le_max_right c 1
      rw [hcc] at h2
      simp only [List.length_cons]
      omega

/-- The encoder loop's output is always complete 2-byte packets with positive
counts, and (when the open-run hypothesis holds, as it does from the real
entry point) at least one packet is flushed. -/
theorem encodeLoop_packets (outSizeBytes : Int) :
    ∀ (rest : List Nat) (c byte : Nat) (out : List Nat) (r : Int) (out2 : List Nat),
    encodeLoop outSizeBytes rest c byte out = (r, out2) → 0 ≤ r →
    (c = 0 → rest ≠ [] ∧ rest.headD 0 = byte ∧ c ≠ MaxRunLength) →
    out.length % 2 = 0 → (∀ j, 2 * j < out.length → 1 ≤ out.getD (2 * j) 0) →
    r = out2.length ∧ out2.length % 2 = 0 ∧ out.length + 2 ≤ out2.length ∧
      (∀ j, 2 * j < out2.length → 1 ≤ out2.getD (2 * j) 0) := by
  intro rest
  induction rest with
  | nil =>
    intro c byte out r out2 h hr hopen heven hcnt
    have hc : c ≠ 0 := by
      intro h0
      exact (hopen h0).1 rfl
    rw [encodeLoop] at h
    rw [if_pos hc] at h
    split at h
    · obtain ⟨h1, h2⟩ := Prod.mk.injEq .. ▸ h
      omega
    · obtain ⟨h1, h2⟩ := Prod.mk.injEq .. ▸ h
      subst h2
      simp only [List.length_append, List.length_cons, List.length_nil]
      refine ⟨by omega, by omega, by omega, ?_⟩
      intro j hj
      rcases Nat.lt_or_ge (2 * j) out.length with hlt | hge
      · rw [huffman.getD_append_left 0 hlt]
        exact hcnt j hlt
      · have h2j : 2 * j = out.length := by omega
        rw [huffman.getD_append_right 0 hge, h2j, Nat.sub_self]
        show 1 ≤ c
        omega
  | cons b rest ih =>
    intro c byte out r out2 h hr hopen heven hcnt
    rw [encodeLoop] at h
    split at h
    · rename_i hflush
      have hc : c ≠ 0 := by
        intro h0
        obtain ⟨hne, hhd, hmax⟩ := hopen h0
        simp only [List.headD_cons] at hhd
        subst h0
        simp [hhd] at hflush
        exact hmax hflush
      split at h
      · obtain ⟨h1, h2⟩ := Prod.mk.injEq .. ▸ h
        omega
      · have hrec := ih (0 + 1) b (out ++ [c, byte]) r out2 h hr
          (by intro h0; omega)
          (by simp only [List.length_append, List.length_cons, List.length_nil]; omega)
          (by
            intro j hj
            simp only [List.length_append, List.length_cons, List.length_nil] at hj
            rcases Nat.lt_or_ge (2 * j) out.length with hlt | hge
            · rw [huffman.getD_append_left 0 hlt]
              exact hcnt j hlt
            · have h2j : 2 * j = out.length := by omega
              rw [huffman.getD_append_right 0 hge, h2j, Nat.sub_self]
              show 1 ≤ c
              omega)
        obtain ⟨h1, h2, h3, h4⟩ := hrec
        simp only [List.length_append, List.length_cons, List.length_nil] at h3
        exact ⟨h1, h2, by omega, h4⟩
    · exact ih (c + 1) byte out r out2 h hr (by intro h0; omega) heven hcnt

end rle

/-- C7 (code bug evidence): the compressed input `[2, 65, 1, 66]` (two
packets, counts summing to 3) decoded into a 2-byte output buffer returns 3
and writes a third byte past the buffer, instead of returning −1 as the claim
requires: the `(++bytesWritten == outSizeBytes && rleCount != 0)` check does
not fire when a packet ends exactly at the capacity and decoding continues
into the next packet. -/
theorem C7_rle_decode_overflow_eval :
    rle.easyDecode (some [2, 65, 1, 66]) true 2 = (3, [65, 65, 66]) ∧
    ((3 : Int) ≠ -1) := by
  constructor
  · rfl
  · decide

/-- C9 counterexample: for the 3-byte input `[0, 1, 0]` with ample output
space, `rle::easyEncode` succeeds and returns 6 bytes, exceeding the claimed
bound `2 · ⌈3 / MaxRunLength⌉ · (sizeof(RleWord) + 1) = 4`. -/
theorem C9_rle_bound_counterexample :
    0 ≤ (rle.easyEncode (some [0, 1, 0]) true 16).1 ∧
    ¬ ((rle.easyEncode (some [0, 1, 0]) true 16).1 ≤
        ((2 * ((3 + rle.MaxRunLength - 1) / rle.MaxRunLength) * (1 + 1) : Nat) : Int)) := by
  constructor
  · rw [show rle.easyEncode (some [0, 1, 0]) true 16 = (6, [1, 0, 1, 1, 1, 0]) from rfl]
    decide
  · rw [show rle.easyEncode (some [0, 1, 0]) true 16 = (6, [1, 0, 1, 1, 1, 0]) from rfl]
    decide

/-- C9 amended: when `rle::easyEncode` succeeds on a (non-null, non-empty)
input, the returned encoded size in bytes is at most
`(sizeof(RleWord) + 1) · |input| = 2 · |input|` — the claimed bound
`2 · ⌈|input| / MaxRunLength⌉ · (sizeof(RleWord) + 1)` does not hold. -/
theorem C9_rle_bound_amended (input : List Nat) (outputValid : Bool) (outSizeBytes : Int)
    (r : Int) (out : List Nat)
    (henc : rle.easyEncode (some input) outputValid outSizeBytes = (r, out))
    (hok : 0 ≤ r) : r ≤ 2 * input.length := by
  rw [rle.easyEncode] at henc
  by_cases hov : outputValid
  · rw [if_neg (by simp [hov])] at henc
    split at henc
    · obtain ⟨h1, h2⟩ := Prod.mk.injEq .. ▸ henc
      omega
    · rename_i hguard
      have hne : input ≠ [] := by
        intro h0
        subst h0
        simp at hguard
    -- peel the first loop iteration: the first byte always extends the run
      obtain ⟨d, rest, hrest⟩ := List.exists_cons_of_ne_nil hne
      subst hrest
      rw [rle.encodeLoop] at henc
      rw [if_neg (by simp [rle.MaxRunLength])] at henc
      obtain ⟨h1, h2⟩ := rle.encodeLoop_bound outSizeBytes rest (0 + 1) d [] r out henc hok
      simp only [List.length_nil, Nat.zero_add, List.length_cons] at h1 h2 ⊢
      have hmax : max (0 + 1) 1 = 1 := by omega
      rw [hmax] at h2
      omega
  · rw [if_pos (by simp [hov])] at henc
    obtain ⟨h1, h2⟩ := Prod.mk.injEq .. ▸ henc
    omega

/-- C9 amended witness: the amended bound at the concrete input `[0, 1, 0]`. -/
theorem C9_rle_bound_amended_witness :
    rle.easyEncode (some [0, 1, 0]) true 16 = (6, [1, 0, 1, 1, 1, 0]) ∧
    (0 : Int) ≤ 6 ∧ (6 : Int) ≤ 2 * ([0, 1, 0] : List Nat).length :=
  ⟨rfl, by decide,
   C9_rle_bound_amended [0, 1, 0] true 16 6 [1, 0, 1, 1, 1, 0] rfl (by decide)⟩

/-- C10: whenever `rle::easyEncode` succeeds on a non-empty input, the
returned byte count is a non-zero multiple of `sizeof(RleWord) + 1 = 2`, the
output is that many bytes of complete `(count, byte)` packets, and every
emitted count is at least 1. -/
theorem C10_rle_packet_structure (input : List Nat) (hne : input ≠ [])
    (outputValid : Bool) (outSizeBytes : Int) (r : Int) (out : List Nat)
    (henc : rle.easyEncode (some input) outputValid outSizeBytes = (r, out))
    (hok : 0 ≤ r) :
    ∃ k : Nat, r = 2 * k ∧ 1 ≤ k ∧ out.length = 2 * k ∧
      ∀ j, j < k → 1 ≤ out.getD (2 * j) 0 := by
  rw [rle.easyEncode] at henc
  by_cases hov : outputValid
  · rw [if_neg (by simp [hov])] at henc
    split at henc
    · obtain ⟨h1, h2⟩ := Prod.mk.injEq .. ▸ henc
      omega
    · rename_i hguard
      obtain ⟨h1, h2, h3, h4⟩ := rle.encodeLoop_packets outSizeBytes input 0 (input.headD 0)
        [] r out henc hok
        (by
          intro h0
          refine ⟨hne, rfl, ?_⟩
          rw [rle.MaxRunLength]
          omega)
        (by simp) (by intro j hj; simp at hj)
      refine ⟨out.length / 2, by omega, by simp at h3; omega, by omega, ?_⟩
      intro j hj
      exact h4 j (by omega)
  · rw [if_pos (by simp [hov])] at henc
    obtain ⟨h1, h2⟩ := Prod.mk.injEq .. ▸ henc
    omega

/-- C10 witness: the theorem applied at the concrete input `[7, 7, 5]`. -/
theorem C10_rle_packet_structure_witness :
    rle.easyEncode (some [7, 7, 5]) true 16 = (4, [2, 7, 1, 5]) ∧
    (∃ k : Nat, (4 : Int) = 2 * k ∧ 1 ≤ k ∧ ([2, 7, 1, 5] : List Nat).length = 2 * k ∧
      ∀ j, j < k → 1 ≤ ([2, 7, 1, 5] : List Nat).getD (2 * j) 0) :=
  ⟨rfl,
   C10_rle_packet_structure [7, 7, 5] (by decide) true 16 4 [2, 7, 1, 5] rfl (by decide)⟩

namespace rice

theorem totalCodeLength_eq (input : List Nat) (k : Nat) :
    totalCodeLength input k = (input.map (fun v => (v >>> k) + 1 + k)).sum := by
  rw [totalCodeLength]
  suffices h : ∀ acc, input.foldl (fun acc v => acc + computeCodeLength v k) acc
      = acc + (input.map (fun v => (v >>> k) + 1 + k)).sum by
    simpa using h 0
  induction input with
  | nil => simp
  | cons a t ih =>
    intro acc
    simp only [List.foldl_cons, List.map_cons, List.sum_cons, ih]
    rw [computeCodeLength]
    simp only [Nat.shiftRight_eq_div_pow, Nat.shiftLeft_eq, Nat.one_mul]
    ring

theorem totalCodeLength_pos (input : List Nat) (hne : input ≠ []) (k : Nat) :
    0 < totalCodeLength input k := by
  obtain ⟨a, t, rfl⟩ := List.exists_cons_of_ne_nil hne
  rw [totalCodeLength_eq]
  simp only [List.map_cons, List.sum_cons]
  generalize a >>> k = x
  omega

theorem findBestKBits_succ (input : List Nat) (m : Nat) :
    findBestKBits input (m + 1) =
      (if (findBestKBits input m).2 = 0 ||
          totalCodeLength input (m + 1) < (findBestKBits input m).2 then
        (m + 1, totalCodeLength input (m + 1))
       else findBestKBits input m) := by
  rw [findBestKBits, findBestKBits, List.range_succ, List.foldl_append]
  rfl

theorem findBestKBits_spec (input : List Nat) (hne : input ≠ []) (m : Nat) :
    (findBestKBits input m).1 ≤ m ∧
    0 < (findBestKBits input m).2 ∧
    (findBestKBits input m).2 = totalCodeLength input (findBestKBits input m).1 ∧
    ∀ j, j ≤ m → (findBestKBits input m).2 ≤ totalCodeLength input j := by
  induction m with
  | zero =>
    have h0 : findBestKBits input 0 = (0, totalCodeLength input 0) := by
      rw [findBestKBits]
      simp [List.range_succ]
    rw [h0]
    refine ⟨le_rfl, totalCodeLength_pos input hne 0, rfl, ?_⟩
    intro j hj
    interval_cases j
    exact le_rfl
  | succ m ih =>
    obtain ⟨ih1, ih2, ih3, ih4⟩ := ih
    rw [findBestKBits_succ]
    split
    · rename_i hcond
      simp only [Bool.or_eq_true, decide_eq_true_eq] at hcond
      rcases hcond with h0 | hlt
      · omega
      · refine ⟨le_rfl, totalCodeLength_pos input hne (m + 1), rfl, ?_⟩
        intro j hj
        rcases Nat.lt_or_ge j (m + 1) with hjm | hjm
        · exact le_of_lt (lt_of_lt_of_le hlt (ih4 j (by omega)))
        · have : j = m + 1 := by omega
          subst this
          exact le_rfl
    · rename_i hcond
      simp only [Bool.or_eq_true, decide_eq_true_eq, not_or, Nat.not_lt] at hcond
      refine ⟨by omega, ih2, ih3, ?_⟩
      intro j hj
      rcases Nat.lt_or_ge j (m + 1) with hjm | hjm
      · exact ih4 j (by omega)
      · have : j = m + 1 := by omega
        subst this
        exact hcond.2

end rice

/-- C6: for every non-empty input, `rice::Encoder::findBestKBits` with
`KBitsMax = 8` returns a `k` in `0..=8` that minimises the total encoded bit
count `Σ ((value_i >> k) + 1 + k)` over `k ∈ 0..=8` (the per-byte cost is
`computeCodeLength(value, k) = value / 2^k + 1 + k`). -/
theorem C6_rice_best_k (input : List Nat) (hne : input ≠ []) :
    (rice.findBestKBits input 8).1 ≤ 8 ∧
    ∀ j, j ≤ 8 →
      (input.map (fun v => (v >>> (rice.findBestKBits input 8).1) + 1 +
          (rice.findBestKBits input 8).1)).sum ≤
        (input.map (fun v => (v >>> j) + 1 + j)).sum := by
  obtain ⟨h1, h2, h3, h4⟩ := rice.findBestKBits_spec input hne 8
  refine ⟨h1, ?_⟩
  intro j hj
  rw [← rice.totalCodeLength_eq, ← rice.totalCodeLength_eq, ← h3]
  exact h4 j hj

/-- C6 witness: the theorem applied at the concrete input `[10, 200]`
(for which the chosen parameter is `k = 4`). -/
theorem C6_rice_best_k_witness :
    (rice.findBestKBits [10, 200] 8).1 ≤ 8 ∧
    ∀ j, j ≤ 8 →
      (([10, 200] : List Nat).map (fun v => (v >>> (rice.findBestKBits [10, 200] 8).1) + 1 +
          (rice.findBestKBits [10, 200] 8).1)).sum ≤
        (([10, 200] : List Nat).map (fun v => (v >>> j) + 1 + j)).sum :=
  C6_rice_best_k [10, 200] (by decide)

/-- C8 counterexample: calling `rice::easyDecode` with a null compressed
pointer (and `rice::easyEncode` with a null input pointer) does invoke the
fatal-error hook (`RICE_ERROR`), contradicting the claim that the hook is not
invoked on argument errors. -/
theorem C8_rice_null_hook_counterexample :
    ¬ ((rice.easyDecode none 4 5 true 3).2.2 = false ∧
       (rice.easyEncode none 1 true true true).hooked = false) := by
  decide

/-- C8 amended: on a null data pointer or a non-positive size argument,
`rice::easyEncode` and `rice::easyDecode` return immediately with zero bytes
produced — and the fatal-error hook IS invoked (the original claim's
"the fatal-error hook is not invoked" is what fails on the code). -/
theorem C8_rice_arg_errors_amended :
    (∀ (u : Option (List Nat)) (sz : Int) (cv sbv sbitv : Bool),
       u = none ∨ cv = false ∨ sz ≤ 0 ∨ sbv = false ∨ sbitv = false →
       rice.easyEncode u sz cv sbv sbitv =
         ⟨none, 0, 0, true, false⟩) ∧
    (∀ (c : Option (List Nat)) (szB szb : Int) (ov : Bool) (cap : Int),
       c = none ∨ ov = false ∨ szB ≤ 0 ∨ szb ≤ 0 ∨ cap ≤ 0 →
       rice.easyDecode c szB szb ov cap = (0, [], true)) := by
  constructor
  · intro u sz cv sbv sbitv h
    rcases u with _ | data
    · rfl
    · rcases h with h | h | h | h | h
      · exact absurd h (by simp)
      · cases sbv <;> cases sbitv <;> simp [rice.easyEncode, h]
      · cases cv <;> cases sbv <;> cases sbitv <;> simp [rice.easyEncode, h]
      · cases cv <;> simp [rice.easyEncode, h]
      · cases cv <;> simp [rice.easyEncode, h]
  · intro c szB szb ov cap h
    rcases c with _ | buf
    · rfl
    · rcases h with h | h | h | h | h
      · exact absurd h (by simp)
      · simp [rice.easyDecode, h]
      · cases ov <;> simp [rice.easyDecode, h]
      · cases ov <;> simp [rice.easyDecode, h]
      · cases ov <;> simp [rice.easyDecode, h]

/-- C2 (code bug evidence): `rice::easyEncode` on the single-byte input `[0]`
predicts a best size of 1 bit, so `allocate(1)` rounds 1 up with
`nextPowerOfTwo` to 1 bit = 0 bytes and leaves the stream buffer null
(`bytesAllocated = 0`), after which every `appendBit` writes through the null
pointer (undefined behaviour, recorded by the `oob` flag): the function
nevertheless reports a 1-byte, 5-bit compressed stream while the actual
buffer is empty, so the round trip of the claim cannot happen. -/
theorem C2_rice_null_stream_eval :
    (rice.easyEncode (some [0]) 1 true true true).oob = true ∧
    (rice.easyEncode (some [0]) 1 true true true).compressed = some [] ∧
    (rice.easyEncode (some [0]) 1 true true true).compressedSizeBytes = 1 ∧
    (rice.easyEncode (some [0]) 1 true true true).compressedSizeBits = 5 := by
  decide

namespace huffman

theorem perm_get_eraseIdx {α : Type} :
    ∀ (l : List α) (n : Nat) (h : n < l.length),
      l.Perm (l.get ⟨n, h⟩ :: l.eraseIdx n) := by
  intro l
  induction l with
  | nil => intro n h; simp at h
  | cons a t ih =>
    intro n h
    cases n with
    | zero => simp
    | succ m =>
      have hm : m < t.length := by simpa using h
      show (a :: t).Perm (t.get ⟨m, hm⟩ :: a :: t.eraseIdx m)
      exact ((ih m hm).cons a).trans (List.Perm.swap (t.get ⟨m, hm⟩) a (t.eraseIdx m))

theorem forall₂_get_eraseIdx {α β : Type} {R : α → β → Prop} :
    ∀ {q : List α} {ts : List β}, List.Forall₂ R q ts →
      ∀ (n : Nat) (hn : n < q.length) (hn2 : n < ts.length),
      R (q.get ⟨n, hn⟩) (ts.get ⟨n, hn2⟩) ∧
      List.Forall₂ R (q.eraseIdx n) (ts.eraseIdx n) := by
  intro q ts h
  induction h with
  | nil => intro n hn; simp at hn
  | @cons a b l1 l2 hab htl ih =>
    intro n hn hn2
    cases n with
    | zero => exact ⟨hab, htl⟩
    | succ m =>
      have hm : m < l1.length := by simpa using hn
      have hm2 : m < l2.length := by simpa using hn2
      obtain ⟨h1, h2⟩ := ih m hm hm2
      exact ⟨h1, List.Forall₂.cons hab h2⟩

theorem popMin_eraseIdx (pool : List Node) :
    ∀ (q : List Nat) (x : Nat) (rest : List Nat),
      popMin pool q = some (x, rest) →
      ∃ (n : Nat) (hn : n < q.length), q.get ⟨n, hn⟩ = x ∧ rest = q.eraseIdx n := by
  intro q
  induction q with
  | nil => intro x rest h; simp [popMin] at h
  | cons i t ih =>
    intro x rest h
    rw [popMin] at h
    rcases ht : popMin pool t with _ | ⟨j, rest2⟩
    · rw [ht] at h
      simp only [Option.some.injEq, Prod.mk.injEq] at h
      exact ⟨0, by simp, h.1, by simp [h.2.symm]⟩
    · rw [ht] at h
      simp only at h
      split at h
      · simp only [Option.some.injEq, Prod.mk.injEq] at h
        exact ⟨0, by simp, h.1, by simp [h.2.symm]⟩
      · simp only [Option.some.injEq, Prod.mk.injEq] at h
        obtain ⟨m, hm, hget, herase⟩ := ih j rest2 ht
        refine ⟨m + 1, by simpa using hm, ?_, ?_⟩
        · rw [show (i :: t).get ⟨m + 1, by simpa using hm⟩ = t.get ⟨m, hm⟩ from rfl, hget, h.1]
        · rw [← h.2, herase]
          rfl

theorem Code.push_wf {c : Code} (h : c.wf) {b : Nat} (hb : b ≤ 1) : (c.push b).wf := by
  rw [Code.wf] at h
  rw [Code.wf, Code.push]
  simp only
  rw [pow_succ]
  have : b * 2 ^ c.length ≤ 1 * 2 ^ c.length := Nat.mul_le_mul_right _ hb
  omega

theorem Code.push_getBit_lt {c : Code} (h : c.wf) {b : Nat} (hb : b ≤ 1)
    {i : Nat} (hi : i < c.length) : (c.push b).getBit i = c.getBit i := by
  rw [Code.push, Code.getBit, Code.getBit]
  simp only
  rw [shift_and_one, shift_and_one]
  congr 1
  rcases Nat.le_one_iff_eq_zero_or_eq_one.mp hb with h0 | h1
  · subst h0; simp
  · subst h1
    rw [Nat.one_mul, Nat.add_comm, Nat.testBit_two_pow_add_gt hi]

theorem Code.push_getBit_self {c : Code} (h : c.wf) {b : Nat} (hb : b ≤ 1) :
    (c.push b).getBit c.length = b := by
  rw [Code.push, Code.getBit]
  simp only
  rw [shift_and_one]
  rcases Nat.le_one_iff_eq_zero_or_eq_one.mp hb with h0 | h1
  · subst h0
    simp only [Nat.zero_mul, Nat.add_zero]
    rw [Nat.testBit_eq_false_of_lt h]
    rfl
  · subst h1
    rw [Nat.one_mul, Nat.add_comm, Nat.testBit_two_pow_add_eq,
        Nat.testBit_eq_false_of_lt h]
    rfl

theorem Code.push_length (c : Code) (b : Nat) : (c.push b).length = c.length + 1 := rfl

theorem codePre_refl (c : Code) : codePre c c := ⟨le_rfl, fun _ _ => rfl⟩

theorem codePre_trans {c d e : Code} (h1 : codePre c d) (h2 : codePre d e) : codePre c e := by
  refine ⟨le_trans h1.1 h2.1, ?_⟩
  intro i hi
  rw [h2.2 i (lt_of_lt_of_le hi h1.1), h1.2 i hi]

theorem codePre_push {c : Code} (h : c.wf) {b : Nat} (hb : b ≤ 1) :
    codePre c (c.push b) := by
  refine ⟨by rw [Code.push_length]; omega, ?_⟩
  intro i hi
  exact Code.push_getBit_lt h hb hi

theorem assignSpec_fst (t : HTree) (c : Code) :
    (assignSpec t c).map Prod.fst = t.syms := by
  induction t generalizing c with
  | leaf s => rfl
  | node l r ihl ihr =>
    rw [assignSpec, HTree.syms, List.map_append, ihl, ihr]

/-- Every assigned code extends the root code and stays well-formed. -/
theorem assignSpec_ext (t : HTree) (c : Code) (hc : c.wf) :
    ∀ p ∈ assignSpec t c, codePre c p.2 ∧ p.2.wf := by
  induction t generalizing c with
  | leaf s =>
    intro p hp
    rw [assignSpec, List.mem_singleton] at hp
    subst hp
    exact ⟨codePre_refl c, hc⟩
  | node l r ihl ihr =>
    intro p hp
    rw [assignSpec, List.mem_append] at hp
    rcases hp with hp | hp
    · obtain ⟨h1, h3⟩ := ihl (c.push 0) (Code.push_wf hc (by norm_num)) p hp
      exact ⟨codePre_trans (codePre_push hc (by norm_num)) h1, h3⟩
    · obtain ⟨h1, h3⟩ := ihr (c.push 1) (Code.push_wf hc (by norm_num)) p hp
      exact ⟨codePre_trans (codePre_push hc (by norm_num)) h1, h3⟩

/-- Codes assigned to distinct leaves are not prefixes of one another. -/
theorem assignSpec_prefix_free (t : HTree) (c : Code) (hc : c.wf) (hnd : t.syms.Nodup) :
    ∀ p ∈ assignSpec t c, ∀ q ∈ assignSpec t c, p.1 ≠ q.1 → ¬ codePre p.2 q.2 := by
  induction t generalizing c with
  | leaf s =>
    intro p hp q hq hne
    rw [assignSpec, List.mem_singleton] at hp hq
    subst hp hq
    exact absurd rfl hne
  | node l r ihl ihr =>
    rw [HTree.syms] at hnd
    have hndl : l.syms.Nodup := hnd.of_append_left
    have hndr : r.syms.Nodup := hnd.of_append_right
    have hdisj : ∀ s ∈ l.syms, s ∉ r.syms := fun s hs => (List.disjoint_of_nodup_append hnd) hs
    intro p hp q hq hne
    rw [assignSpec, List.mem_append] at hp hq
    have hw0 : (c.push 0).wf := Code.push_wf hc (by norm_num)
    have hw1 : (c.push 1).wf := Code.push_wf hc (by norm_num)
    rcases hp with hp | hp <;> rcases hq with hq | hq
    · exact ihl (c.push 0) hw0 hndl p hp q hq hne
    · -- p left, q right: they disagree at bit position c.length
      intro hpre
      obtain ⟨hp1, _⟩ := assignSpec_ext l (c.push 0) hw0 p hp
      obtain ⟨hq1, _⟩ := assignSpec_ext r (c.push 1) hw1 q hq
      have hplen : c.length < p.2.length := by
        have := hp1.1
        rw [Code.push_length] at this
        omega
      have hb0 : p.2.getBit c.length = 0 := by
        rw [hp1.2 c.length (by rw [Code.push_length]; omega),
            Code.push_getBit_self hc (by norm_num)]
      have hb1 : q.2.getBit c.length = 1 := by
        rw [hq1.2 c.length (by rw [Code.push_length]; omega),
            Code.push_getBit_self hc (by norm_num)]
      have := hpre.2 c.length hplen
      rw [hb0, hb1] at this
      cases this
    · intro hpre
      obtain ⟨hp1, _⟩ := assignSpec_ext r (c.push 1) hw1 p hp
      obtain ⟨hq1, _⟩ := assignSpec_ext l (c.push 0) hw0 q hq
      have hplen : c.length < p.2.length := by
        have := hp1.1
        rw [Code.push_length] at this
        omega
      have hb1 : p.2.getBit c.length = 1 := by
        rw [hp1.2 c.length (by rw [Code.push_length]; omega),
            Code.push_getBit_self hc (by norm_num)]
      have hb0 : q.2.getBit c.length = 0 := by
        rw [hq1.2 c.length (by rw [Code.push_length]; omega),
            Code.push_getBit_self hc (by norm_num)]
      have := hpre.2 c.length hplen
      rw [hb1, hb0] at this
      cases this
    · exact ihr (c.push 1) hw1 hndr p hp q hq hne

end huffman

namespace huffman

theorem getDg_set_self {α : Type} {l : List α} {i : Nat} (v d : α) (h : i < l.length) :
    (l.set i v).getD i d = v := by
  simp [List.getD_eq_getElem?_getD, List.getElem?_set_self, h]

theorem getDg_set_ne {α : Type} {l : List α} {i j : Nat} (v d : α) (h : i ≠ j) :
    (l.set i v).getD j d = l.getD j d := by
  simp [List.getD_eq_getElem?_getD, List.getElem?_set_ne h]

theorem getDg_replicate {α : Type} (n i : Nat) (d : α) :
    (List.replicate n d).getD i d = d := by
  rcases Nat.lt_or_ge i n with h | h
  · simp [List.getD_eq_getElem?_getD, List.getElem?_replicate, h]
  · rw [List.getD_eq_default]
    simpa using h

theorem cfInv_ext {pool : List Node} {cnt cnt' : Nat → Nat}
    (h : cfInv pool cnt) (he : ∀ s, cnt s = cnt' s) : cfInv pool cnt' := by
  refine ⟨h.1, fun s => ?_⟩
  rw [← he s]
  exact h.2 s

theorem cfInv_init : cfInv initialNodes (fun _ => 0) := by
  refine ⟨by simp [initialNodes], fun s => ?_⟩
  rw [if_neg (fun h => Nat.lt_irrefl 0 h.1)]
  exact getDg_replicate _ _ _

theorem cfInv_step {pool : List Node} {cnt : Nat → Nat} (h : cfInv pool cnt)
    {b : Nat} (hb : b < MaxSymbols) :
    cfInv
      (if !(pool.getD b dNode).isValid then
         pool.set b { pool.getD b dNode with frequency := 1, value := (b : Int) }
       else
         pool.set b { pool.getD b dNode with
                        frequency := (pool.getD b dNode).frequency + 1 })
      (fun s => if s = b then cnt s + 1 else cnt s) := by
  obtain ⟨hlen, hget⟩ := h
  have hblt : b < pool.length := by
    rw [hlen]
    rw [MaxSymbols] at hb
    rw [MaxNodes]
    omega
  have hgb := hget b
  rcases Nat.eq_zero_or_pos (cnt b) with h0 | hpos
  · have hnode : pool.getD b dNode = dNode := by
      rw [hgb, if_neg (by omega)]
    have hval : (pool.getD b dNode).isValid = false := by
      rw [hnode]
      decide
    rw [if_pos (by rw [hval]; rfl)]
    constructor
    · rw [List.length_set, hlen]
    · intro s
      rcases eq_or_ne s b with rfl | hne
      · rw [getDg_set_self _ _ hblt, hnode]
        simp [dNode, h0, hb]
      · rw [getDg_set_ne _ _ (fun he => hne he.symm), hget s]
        simp [hne]
  · have hnode : pool.getD b dNode =
        ⟨(cnt b : Int), Nil, Nil, (b : Int), Code.nil⟩ := by
      rw [hgb, if_pos ⟨hpos, hb⟩]
    have hval : (pool.getD b dNode).isValid = true := by
      rw [hnode, Node.isValid, Nil]
      simp only [bne_iff_ne, ne_eq, decide_eq_true_eq]
      omega
    rw [if_neg (by rw [hval]; simp)]
    constructor
    · rw [List.length_set, hlen]
    · intro s
      rcases eq_or_ne s b with rfl | hne
      · rw [getDg_set_self _ _ hblt, hnode]
        simp [hb]
      · rw [getDg_set_ne _ _ (fun he => hne he.symm), hget s]
        simp [hne]

theorem countFrequencies_go :
    ∀ (data : List Nat) (pool : List Node) (cnt : Nat → Nat),
      (∀ b ∈ data, b < MaxSymbols) → cfInv pool cnt →
      cfInv (countFrequencies pool data) (fun s => cnt s + data.count s) := by
  intro data
  induction data with
  | nil =>
    intro pool cnt _ h
    exact cfInv_ext h (by simp)
  | cons b rest ih =>
    intro pool cnt hd h
    have hb : b < MaxSymbols := hd b (by simp)
    have h1 := cfInv_step h hb
    have h2 := ih _ _ (fun x hx => hd x (by simp [hx])) h1
    refine cfInv_ext h2 (fun s => ?_)
    simp only [List.count_cons]
    rcases eq_or_ne s b with rfl | hne
    · rw [if_pos rfl, if_pos (by simp)]
      omega
    · rw [if_neg hne, if_neg (by simpa using fun he => hne he.symm)]
      omega

/-- After `countFrequencies` on the fresh pool, each leaf slot of an occurring
byte holds its occurrence count, symbol value and no children; every other
slot is default-constructed. -/
theorem countFrequencies_char (data : List Nat) (hdata : ∀ b ∈ data, b < MaxSymbols) :
    cfInv (countFrequencies initialNodes data) (fun s => data.count s) := by
  have h := countFrequencies_go data initialNodes (fun _ => 0) hdata cfInv_init
  exact cfInv_ext h (by simp)

end huffman

namespace huffman

theorem find?_range' (p : Nat → Bool) :
    ∀ (n a m : Nat), m < n → (∀ k, k < m → p (a + k) = false) → p (a + m) = true →
      (List.range' a n).find? p = some (a + m) := by
  intro n
  induction n with
  | zero =>
    intro a m hm
    exact absurd hm (Nat.not_lt_zero m)
  | succ n ih =>
    intro a m hm hlt hp
    rw [List.range'_succ]
    cases m with
    | zero =>
      rw [List.find?_cons_of_pos _ (by simpa using hp)]
      simp
    | succ m =>
      rw [List.find?_cons_of_neg _ (by simpa using hlt 0 (Nat.succ_pos m))]
      have := ih (a + 1) m (by omega)
        (fun k hk => by
          have := hlt (k + 1) (by omega)
          rw [show a + (k + 1) = a + 1 + k from by omega] at this
          exact this)
        (by rw [show a + 1 + m = a + (m + 1) from by omega]; exact hp)
      rw [this, show a + 1 + m = a + (m + 1) from by omega]

theorem popMin_some (pool : List Node) (i : Nat) (t : List Nat) :
    ∃ x rest, popMin pool (i :: t) = some (x, rest) := by
  rw [popMin]
  rcases h : popMin pool t with _ | ⟨j, r2⟩
  · exact ⟨i, t, rfl⟩
  · dsimp only
    split
    · exact ⟨i, t, rfl⟩
    · exact ⟨j, i :: r2, rfl⟩

theorem Rep_mono {pool pool' : List Node} {i : Nat} {t : HTree} {ix : List Nat}
    (h : Rep pool i t ix)
    (hag : ∀ j ∈ ix, pool'.getD j dNode = pool.getD j dNode) : Rep pool' i t ix := by
  induction h with
  | leaf s h1 h2 h3 h4 =>
    refine Rep.leaf s h1 ?_ ?_ ?_ <;> rw [hag s (by simp)] <;> assumption
  | node i li ri l r il ir hl hr h1 h2 h4 hge hi ihl ihr =>
    refine Rep.node i li ri l r il ir
      (ihl (fun j hj => hag j (by simp [hj]))) (ihr (fun j hj => hag j (by simp [hj])))
      ?_ ?_ ?_ hge hi <;> rw [hag i (by simp)] <;> assumption

theorem Rep_value {pool : List Node} {i : Nat} {t : HTree} {ix : List Nat}
    (h : Rep pool i t ix) : (pool.getD i dNode).value = (i : Int) := by
  cases h with
  | leaf s h1 h2 h3 h4 => exact h4
  | node i li ri l r il ir hl hr h1 h2 h4 hge hi => exact h4

theorem Rep_syms_sublist {pool : List Node} {i : Nat} {t : HTree} {ix : List Nat}
    (h : Rep pool i t ix) : t.syms.Sublist ix := by
  induction h with
  | leaf s h1 h2 h3 h4 => exact List.Sublist.refl [s]
  | node i li ri l r il ir hl hr h1 h2 h4 hge hi ihl ihr =>
    rw [HTree.syms]
    exact (List.Sublist.append ihl ihr).trans (List.sublist_cons_self i (il ++ ir))

theorem Rep_ix_lt {pool : List Node} {i : Nat} {t : HTree} {ix : List Nat}
    (h : Rep pool i t ix) : ∀ j ∈ ix, j < MaxNodes := by
  induction h with
  | leaf s h1 h2 h3 h4 =>
    intro j hj
    rw [List.mem_singleton] at hj
    subst hj
    rw [MaxSymbols] at h1
    rw [MaxNodes]
    omega
  | node i li ri l r il ir hl hr h1 h2 h4 hge hi ihl ihr =>
    intro j hj
    rcases List.mem_cons.mp hj with rfl | hj
    · exact hi
    · rcases List.mem_append.mp hj with hj | hj
      · exact ihl j hj
      · exact ihr j hj

theorem Rep_head {pool : List Node} {i : Nat} {t : HTree} {ix : List Nat}
    (h : Rep pool i t ix) : i ∈ ix := by
  cases h with
  | leaf s h1 h2 h3 h4 => simp
  | node i li ri l r il ir hl hr h1 h2 h4 hge hi => simp

theorem Rep_leaf_slot {pool : List Node} {i : Nat} {t : HTree} {ix : List Nat}
    (h : Rep pool i t ix) :
    ∀ s ∈ t.syms, s < MaxSymbols ∧ (pool.getD s dNode).leftChild = Nil ∧
      (pool.getD s dNode).rightChild = Nil ∧ (pool.getD s dNode).value = (s : Int) := by
  induction h with
  | leaf s h1 h2 h3 h4 =>
    intro x hx
    rw [HTree.syms, List.mem_singleton] at hx
    subst hx
    exact ⟨h1, h2, h3, h4⟩
  | node i li ri l r il ir hl hr h1 h2 h4 hge hi ihl ihr =>
    intro x hx
    rw [HTree.syms, List.mem_append] at hx
    rcases hx with hx | hx
    · exact ihl x hx
    · exact ihr x hx

theorem Rep_mem_sym {pool : List Node} {i : Nat} {t : HTree} {ix : List Nat}
    (h : Rep pool i t ix) : ∀ j ∈ ix, j < MaxSymbols → j ∈ t.syms := by
  induction h with
  | leaf s h1 h2 h3 h4 =>
    intro j hj _
    rw [List.mem_singleton] at hj
    subst hj
    simp [HTree.syms]
  | node i li ri l r il ir hl hr h1 h2 h4 hge hi ihl ihr =>
    intro j hj hjlt
    rw [HTree.syms, List.mem_append]
    rcases List.mem_cons.mp hj with rfl | hj
    · omega
    · rcases List.mem_append.mp hj with hj | hj
      · exact Or.inl (ihl j hj hjlt)
      · exact Or.inr (ihr j hj hjlt)

theorem forall₂_map_self {α β : Type} (R : α → β → Prop) (f : α → β) :
    ∀ (l : List α), (∀ a ∈ l, R a (f a)) → List.Forall₂ R l (l.map f) := by
  intro l
  induction l with
  | nil => intro _; simp
  | cons a t ih =>
    intro h
    rw [List.map_cons]
    exact List.Forall₂.cons (h a (by simp)) (ih (fun x hx => h x (by simp [hx])))

theorem forall₂_imp_mem {α β : Type} {R R' : α → β → Prop} :
    ∀ {l₁ : List α} {l₂ : List β}, List.Forall₂ R l₁ l₂ →
      (∀ a b, a ∈ l₁ → b ∈ l₂ → R a b → R' a b) → List.Forall₂ R' l₁ l₂ := by
  intro l₁ l₂ h
  induction h with
  | nil => intro _; exact List.Forall₂.nil
  | @cons a b t₁ t₂ hab htl ih =>
    intro himp
    exact List.Forall₂.cons (himp a b (by simp) (by simp) hab)
      (ih (fun x y hx hy => himp x y (by simp [hx]) (by simp [hy])))

theorem flatten_map_singleton {α : Type} (l : List α) :
    (l.map (fun s => [s])).flatten = l := by
  induction l with
  | nil => rfl
  | cons a t ih => simp [ih]

end huffman

namespace huffman

theorem isValid_of_freq_pos {nd : Node} (h : 0 < nd.frequency) : nd.isValid = true := by
  rw [Node.isValid, Nil]
  simp only [bne_iff_ne, ne_eq, decide_eq_true_eq]
  omega

theorem dNode_invalid : dNode.isValid = false := by decide

theorem forall₂_app {α β : Type} {R : α → β → Prop} :
    ∀ {l₁ l₃ : List α} {l₂ l₄ : List β}, List.Forall₂ R l₁ l₂ → List.Forall₂ R l₃ l₄ →
      List.Forall₂ R (l₁ ++ l₃) (l₂ ++ l₄) := by
  intro l₁ l₃ l₂ l₄ h1 h2
  induction h1 with
  | nil => simpa using h2
  | cons hab htl ih => exact List.Forall₂.cons hab ih

theorem forall₂_mem_left {α β : Type} {R : α → β → Prop} :
    ∀ {l₁ : List α} {l₂ : List β}, List.Forall₂ R l₁ l₂ →
      ∀ a ∈ l₁, ∃ b ∈ l₂, R a b := by
  intro l₁ l₂ h
  induction h with
  | nil => intro a ha; simp at ha
  | @cons x y t₁ t₂ hab htl ih =>
    intro a ha
    rcases List.mem_cons.mp ha with rfl | ha
    · exact ⟨y, by simp, hab⟩
    · obtain ⟨b, hb, hr⟩ := ih a ha
      exact ⟨b, by simp [hb], hr⟩

end huffman

namespace huffman

/-- The merge loop, run on a queue satisfying the invariant, terminates with
no error and produces a pool whose returned root represents a tree gathering
exactly the queued symbols, with all codes still cleared and every leaf slot
untouched. -/
theorem buildLoop_ok :
    ∀ (fuel : Nat) (pool : List Node) (q : List Nat) (ents : List (HTree × List Nat))
      (used : Nat), QInv pool q ents used → q ≠ [] →
      used + q.length ≤ MaxSymbols + 1 → q.length ≤ fuel →
      ∃ (pool' : List Node) (root : Nat) (t : HTree) (ix : List Nat),
        buildLoop pool q false fuel = (pool', root, false) ∧
        Rep pool' root t ix ∧ ix.Nodup ∧
        t.syms.Perm ((ents.map (fun e => e.1.syms)).flatten) ∧
        (∀ j, (pool'.getD j dNode).code = Code.nil) ∧
        (∀ s, s < MaxSymbols → pool'.getD s dNode = pool.getD s dNode) ∧
        pool'.length = MaxNodes := by
  intro fuel
  induction fuel with
  | zero =>
    intro pool q ents used _ hne _ hlen
    rw [Nat.le_zero] at hlen
    exact absurd (List.length_eq_zero.mp hlen) hne
  | succ fuel ih =>
    intro pool q ents used hQ hne hcount hlen
    rcases le_or_lt q.length 1 with hq1 | hq2
    · obtain ⟨r, rest, rfl⟩ := List.exists_cons_of_ne_nil hne
      have hrest : rest = [] := by
        rw [List.length_cons] at hq1
        exact List.length_eq_zero.mp (by omega)
      subst hrest
      rcases hQ.rel with _ | @⟨_, e, _, ents0, hab, htl⟩
      cases htl
      refine ⟨pool, r, e.1, e.2, ?_, hab, ?_, ?_, hQ.codes, fun s _ => rfl, hQ.plen⟩
      · rw [buildLoop, if_pos hq1]
      · simpa using hQ.ixnd
      · have h1 : (([e].map (fun e => e.1.syms)).flatten) = e.1.syms := by simp
        rw [h1]
    · have hq1 : ¬ q.length ≤ 1 := by omega
      obtain ⟨c0, q1, hpop0⟩ : ∃ x rest, popMin pool q = some (x, rest) := by
        obtain ⟨a, b, hab⟩ := List.exists_cons_of_ne_nil hne
        rw [hab]
        exact popMin_some pool a b
      obtain ⟨n, hn, hgn, hq1e⟩ := popMin_eraseIdx pool q c0 q1 hpop0
      have hlq1 : q1.length = q.length - 1 := by
        rw [hq1e, List.length_eraseIdx]
        simp [hn]
      have hq1ne : q1 ≠ [] := by
        intro h
        rw [h] at hlq1
        simp at hlq1
        omega
      obtain ⟨c1, q2, hpop1⟩ : ∃ x rest, popMin pool q1 = some (x, rest) := by
        obtain ⟨a, b, hab⟩ := List.exists_cons_of_ne_nil hq1ne
        rw [hab]
        exact popMin_some pool a b
      obtain ⟨m, hm, hgm, hq2e⟩ := popMin_eraseIdx pool q1 c1 q2 hpop1
      have hlq2 : q2.length = q.length - 2 := by
        rw [hq2e, List.length_eraseIdx]
        simp [hm]
        omega
      have hlen_eq : q.length = ents.length := hQ.rel.length_eq
      have hn2 : n < ents.length := by omega
      obtain ⟨hR0, hrel1⟩ := forall₂_get_eraseIdx hQ.rel n hn hn2
      set e0 := ents.get ⟨n, hn2⟩ with he0
      have hrep0 : Rep pool c0 e0.1 e0.2 := by rw [← hgn]; exact hR0
      have hrel1' : List.Forall₂ (fun i e => Rep pool i e.1 e.2) q1 (ents.eraseIdx n) := by
        rw [hq1e]
        exact hrel1
      have hm2 : m < (ents.eraseIdx n).length := by rw [← hrel1'.length_eq]; exact hm
      obtain ⟨hR1, hrel2⟩ := forall₂_get_eraseIdx hrel1' m hm hm2
      set e1 := (ents.eraseIdx n).get ⟨m, hm2⟩ with he1
      have hrep1 : Rep pool c1 e1.1 e1.2 := by rw [← hgm]; exact hR1
      set ents2 := (ents.eraseIdx n).eraseIdx m with hents2
      have hrel2' : List.Forall₂ (fun i e => Rep pool i e.1 e.2) q2 ents2 := by
        rw [hq2e]
        exact hrel2
      have hper0 : ents.Perm (e0 :: ents.eraseIdx n) := perm_get_eraseIdx ents n hn2
      have hper1 : (ents.eraseIdx n).Perm (e1 :: ents2) := perm_get_eraseIdx _ m hm2
      have hperm : ents.Perm (e0 :: e1 :: ents2) := hper0.trans (hper1.cons e0)
      have hmem0 : e0 ∈ ents := List.get_mem ents n hn2
      have hmem1 : e1 ∈ ents := (List.eraseIdx_sublist ents n).mem (List.get_mem _ m hm2)
      have hmem2 : ∀ e ∈ ents2, e ∈ ents := fun e he =>
        (List.eraseIdx_sublist ents n).mem ((List.eraseIdx_sublist _ m).mem he)
      have hflat : ∀ e ∈ ents, ∀ j ∈ e.2, j < MaxSymbols + used := fun e he j hj =>
        hQ.ixlt j (List.mem_flatten.mpr ⟨e.2, List.mem_map_of_mem Prod.snd he, hj⟩)
      have hused512 : used < 512 := by
        have h1 := hcount
        rw [MaxSymbols] at h1
        omega
      have hfind : (List.range' MaxSymbols 512).find?
          (fun n => !(pool.getD n dNode).isValid) = some (MaxSymbols + used) := by
        apply find?_range' _ 512 MaxSymbols used hused512
        · intro k hk
          have h1 := hQ.innerValid (MaxSymbols + k) (by omega) (by omega)
          rw [isValid_of_freq_pos h1]
          rfl
        · rw [hQ.fresh (MaxSymbols + used) le_rfl, dNode_invalid]
          rfl
      have hv0 : (pool.getD c0 dNode).value = (c0 : Int) := Rep_value hrep0
      have hv1 : (pool.getD c1 dNode).value = (c1 : Int) := Rep_value hrep1
      have hslot : pool.getD (MaxSymbols + used) dNode = dNode :=
        hQ.fresh (MaxSymbols + used) le_rfl
      set f := (pool.getD c0 dNode).frequency + (pool.getD c1 dNode).frequency with hf
      have hnd : ({ pool.getD (MaxSymbols + used) dNode with
            frequency := f, leftChild := (pool.getD c0 dNode).value,
            rightChild := (pool.getD c1 dNode).value,
            value := ((MaxSymbols + used : Nat) : Int) } : Node) =
          ⟨f, (c0 : Int), (c1 : Int), ((MaxSymbols + used : Nat) : Int), Code.nil⟩ := by
        rw [hslot, hv0, hv1]
        rfl
      set pool2 := pool.set (MaxSymbols + used)
        ⟨f, (c0 : Int), (c1 : Int), ((MaxSymbols + used : Nat) : Int), Code.nil⟩ with hpool2
      have hADD : addInnerNode pool f (pool.getD c0 dNode).value
          (pool.getD c1 dNode).value = (pool2, MaxSymbols + used, false) := by
        rw [addInnerNode, hfind]
        dsimp only
        rw [hnd]
      have hidxlen : MaxSymbols + used < pool.length := by
        rw [hQ.plen, MaxNodes]
        rw [MaxSymbols]
        omega
      have hg2self : pool2.getD (MaxSymbols + used) dNode =
          ⟨f, (c0 : Int), (c1 : Int), ((MaxSymbols + used : Nat) : Int), Code.nil⟩ :=
        getDg_set_self _ _ hidxlen
      have hg2ne : ∀ j, j ≠ MaxSymbols + used → pool2.getD j dNode = pool.getD j dNode :=
        fun j hj => getDg_set_ne _ _ (fun he => hj he.symm)
      have hc0q : c0 ∈ q := by
        rw [← hgn]
        exact List.get_mem q n hn
      have hc1q1 : c1 ∈ q1 := by
        rw [← hgm]
        exact List.get_mem q1 m hm
      have hc1q : c1 ∈ q := by
        rw [hq1e] at hc1q1
        exact (List.eraseIdx_sublist q n).mem hc1q1
      have hfpos : 0 < f := by
        have h1 := hQ.qfreq c0 hc0q
        have h2 := hQ.qfreq c1 hc1q
        rw [hf]
        omega
      have hq2subq : ∀ x ∈ q2, x ∈ q := by
        intro x hx
        rw [hq2e] at hx
        have hx1 : x ∈ q1 := (List.eraseIdx_sublist q1 m).mem hx
        rw [hq1e] at hx1
        exact (List.eraseIdx_sublist q n).mem hx1
      have hqflat : ∀ x ∈ q, x ∈ (ents.map Prod.snd).flatten := by
        intro x hx
        obtain ⟨e, he, hRx⟩ := forall₂_mem_left hQ.rel x hx
        exact List.mem_flatten.mpr ⟨e.2, List.mem_map_of_mem Prod.snd he, Rep_head hRx⟩
      have hqlt : ∀ x ∈ q, x < MaxSymbols + used := fun x hx => hQ.ixlt x (hqflat x hx)
      have hrel2'' : List.Forall₂ (fun i e => Rep pool2 i e.1 e.2) q2 ents2 :=
        forall₂_imp_mem hrel2' (fun a b _ hb hR =>
          Rep_mono hR (fun j hj => hg2ne j (by
            have h1 := hflat b (hmem2 b hb) j hj
            omega)))
      have hrepNew : Rep pool2 (MaxSymbols + used) (HTree.node e0.1 e1.1)
          ((MaxSymbols + used) :: e0.2 ++ e1.2) := by
        refine Rep.node (MaxSymbols + used) c0 c1 e0.1 e1.1 e0.2 e1.2 ?_ ?_ ?_ ?_ ?_ ?_ ?_
        · exact Rep_mono hrep0 (fun j hj => hg2ne j (by
            have h1 := hflat e0 hmem0 j hj
            omega))
        · exact Rep_mono hrep1 (fun j hj => hg2ne j (by
            have h1 := hflat e1 hmem1 j hj
            omega))
        · rw [hg2self]
        · rw [hg2self]
        · rw [hg2self]
        · omega
        · rw [MaxNodes]
          have h1 := hcount
          rw [MaxSymbols] at h1 ⊢
          omega
      have hrelNew : List.Forall₂ (fun i e => Rep pool2 i e.1 e.2) (q2 ++ [MaxSymbols + used])
          (ents2 ++ [(HTree.node e0.1 e1.1, (MaxSymbols + used) :: e0.2 ++ e1.2)]) :=
        forall₂_app hrel2'' (List.Forall₂.cons hrepNew List.Forall₂.nil)
      have hfl : List.Perm ((ents.map Prod.snd).flatten)
          (e0.2 ++ (e1.2 ++ (ents2.map Prod.snd).flatten)) := by
        have h1 := (hperm.map Prod.snd).flatten
        simpa using h1
      have hflNew : List.Perm
          (((ents2 ++ [(HTree.node e0.1 e1.1, (MaxSymbols + used) :: e0.2 ++ e1.2)]).map
            Prod.snd).flatten)
          ((MaxSymbols + used) :: (e0.2 ++ (e1.2 ++ (ents2.map Prod.snd).flatten))) := by
        simp only [List.map_append, List.flatten_append, List.map_cons, List.map_nil,
          List.flatten_cons, List.flatten_nil, List.append_nil]
        refine List.Perm.trans List.perm_append_comm ?_
        rw [List.cons_append, List.cons_append, List.append_assoc]
      have hndNew : ((((ents2 ++
          [(HTree.node e0.1 e1.1, (MaxSymbols + used) :: e0.2 ++ e1.2)])).map
            Prod.snd).flatten).Nodup := by
        rw [hflNew.nodup_iff]
        refine List.nodup_cons.mpr ⟨?_, (hfl.nodup_iff).mp hQ.ixnd⟩
        intro hmem
        have h1 : MaxSymbols + used < MaxSymbols + used := hQ.ixlt _ (hfl.mem_iff.mpr hmem)
        omega
      have hltNew : ∀ j ∈ (((ents2 ++
          [(HTree.node e0.1 e1.1, (MaxSymbols + used) :: e0.2 ++ e1.2)])).map
            Prod.snd).flatten, j < MaxSymbols + (used + 1) := by
        intro j hj
        rw [hflNew.mem_iff] at hj
        rcases List.mem_cons.mp hj with rfl | hj
        · omega
        · have h1 := hQ.ixlt j (hfl.mem_iff.mpr hj)
          omega
      have hQ2 : QInv pool2 (q2 ++ [MaxSymbols + used])
          (ents2 ++ [(HTree.node e0.1 e1.1, (MaxSymbols + used) :: e0.2 ++ e1.2)])
          (used + 1) := by
        refine ⟨?_, hrelNew, hndNew, hltNew, ?_, ?_, ?_, ?_⟩
        · rw [hpool2, List.length_set]
          exact hQ.plen
        · intro j hj
          rw [hg2ne j (by omega)]
          exact hQ.fresh j (by omega)
        · intro j hj1 hj2
          rcases eq_or_ne j (MaxSymbols + used) with rfl | hne2
          · rw [hg2self]
            exact hfpos
          · rw [hg2ne j hne2]
            exact hQ.innerValid j hj1 (by omega)
        · intro j
          rcases eq_or_ne j (MaxSymbols + used) with rfl | hne2
          · rw [hg2self]
          · rw [hg2ne j hne2]
            exact hQ.codes j
        · intro x hx
          rcases List.mem_append.mp hx with hx | hx
          · have hxq : x ∈ q := hq2subq x hx
            rw [hg2ne x (by have h1 := hqlt x hxq; omega)]
            exact hQ.qfreq x hxq
          · rw [List.mem_singleton] at hx
            subst hx
            rw [hg2self]
            exact hfpos
      have hcount2 : (used + 1) + (q2 ++ [MaxSymbols + used]).length ≤ MaxSymbols + 1 := by
        rw [List.length_append, List.length_singleton, hlq2]
        omega
      have hlen2 : (q2 ++ [MaxSymbols + used]).length ≤ fuel := by
        rw [List.length_append, List.length_singleton, hlq2]
        omega
      have hne2 : q2 ++ [MaxSymbols + used] ≠ [] := by simp
      obtain ⟨pool', root, t, ix, hbl, hrep', hnd', hsyms', hcodes', hleaf', hplen'⟩ :=
        ih pool2 (q2 ++ [MaxSymbols + used]) _ (used + 1) hQ2 hne2 hcount2 hlen2
      refine ⟨pool', root, t, ix, ?_, hrep', hnd', ?_, hcodes', ?_, hplen'⟩
      · rw [buildLoop.eq_def]
        dsimp only
        rw [if_neg hq1, hpop0]
        dsimp only
        rw [hpop1]
        dsimp only
        rw [hADD]
        dsimp only
        exact hbl
      · have hflS : List.Perm ((ents.map (fun e => e.1.syms)).flatten)
            (e0.1.syms ++ (e1.1.syms ++ ((ents2.map (fun e => e.1.syms)).flatten))) := by
          have h1 := (hperm.map (fun e => e.1.syms)).flatten
          simpa using h1
        have hflSNew : (((ents2 ++
            [(HTree.node e0.1 e1.1, (MaxSymbols + used) :: e0.2 ++ e1.2)]).map
              (fun e => e.1.syms)).flatten) =
            ((ents2.map (fun e => e.1.syms)).flatten) ++ (e0.1.syms ++ e1.1.syms) := by
          simp [HTree.syms]
        rw [hflSNew] at hsyms'
        refine hsyms'.trans ?_
        refine List.Perm.trans List.perm_append_comm ?_
        rw [List.append_assoc]
        exact (hflS.symm)
      · intro s hs
        rw [hleaf' s hs, hg2ne s (by
          rw [MaxSymbols] at hs ⊢
          omega)]

end huffman

namespace huffman

/-- Building the queue of valid leaves from the frequency pool and running the
merge loop: the result is an error-free tree over exactly the distinct bytes
of the data. -/
theorem build_initial (data : List Nat) (hne : data ≠ [])
    (hdata : ∀ b ∈ data, b < MaxSymbols) :
    ∃ (pool' : List Node) (root : Nat) (t : HTree) (ix : List Nat),
      buildLoop (countFrequencies initialNodes data)
        ((List.range MaxSymbols).filter
          (fun s => ((countFrequencies initialNodes data).getD s dNode).isValid))
        false MaxSymbols = (pool', root, false) ∧
      Rep pool' root t ix ∧ ix.Nodup ∧
      (∀ s, s ∈ t.syms ↔ s ∈ data) ∧ t.syms.Nodup ∧
      (∀ j, (pool'.getD j dNode).code = Code.nil) ∧
      (∀ s, s < MaxSymbols →
        pool'.getD s dNode = (countFrequencies initialNodes data).getD s dNode) ∧
      pool'.length = MaxNodes := by
  obtain ⟨hlen0, hget0⟩ := countFrequencies_char data hdata
  have hvalid : ∀ s, (((countFrequencies initialNodes data).getD s dNode).isValid = true) ↔
      (0 < data.count s ∧ s < MaxSymbols) := by
    intro s
    rw [hget0 s]
    split
    · rename_i hc
      simp only [iff_true_intro hc, iff_true]
      apply isValid_of_freq_pos
      show (0 : Int) < ((data.count s : Nat) : Int)
      exact_mod_cast hc.1
    · rename_i hc
      rw [dNode_invalid]
      simp only [Bool.false_eq_true, false_iff]
      exact hc
  have hq0mem : ∀ s, s ∈ (List.range MaxSymbols).filter
      (fun s => ((countFrequencies initialNodes data).getD s dNode).isValid) ↔ s ∈ data := by
    intro s
    rw [List.mem_filter, List.mem_range, hvalid s, List.count_pos_iff]
    constructor
    · exact fun h => h.2.1
    · intro h
      exact ⟨hdata s h, h, hdata s h⟩
  have hq0nd : ((List.range MaxSymbols).filter
      (fun s => ((countFrequencies initialNodes data).getD s dNode).isValid)).Nodup :=
    (List.nodup_range MaxSymbols).filter _
  have hq0lt : ∀ s ∈ (List.range MaxSymbols).filter
      (fun s => ((countFrequencies initialNodes data).getD s dNode).isValid),
      s < MaxSymbols := by
    intro s hs
    exact List.mem_range.mp (List.mem_filter.mp hs).1
  have hQ : QInv (countFrequencies initialNodes data)
      ((List.range MaxSymbols).filter
        (fun s => ((countFrequencies initialNodes data).getD s dNode).isValid))
      (((List.range MaxSymbols).filter
        (fun s => ((countFrequencies initialNodes data).getD s dNode).isValid)).map
        (fun s => (HTree.leaf s, [s])))
      0 := by
    refine ⟨hlen0, ?_, ?_, ?_, ?_, ?_, ?_, ?_⟩
    · apply forall₂_map_self
      intro s hs
      have hsd : s ∈ data := (hq0mem s).mp hs
      have hc : 0 < data.count s ∧ s < MaxSymbols := ⟨List.count_pos_iff.mpr hsd, hdata s hsd⟩
      have hs0 : (countFrequencies initialNodes data).getD s dNode =
          ⟨(data.count s : Int), Nil, Nil, (s : Int), Code.nil⟩ := by
        rw [hget0 s, if_pos hc]
      exact Rep.leaf s hc.2 (by rw [hs0]) (by rw [hs0]) (by rw [hs0])
    · rw [List.map_map]
      have h1 : (Prod.snd ∘ fun s => ((HTree.leaf s, [s]) : HTree × List Nat)) =
          (fun s => [s]) := rfl
      rw [h1, flatten_map_singleton]
      exact hq0nd
    · intro j hj
      rw [List.map_map] at hj
      have h1 : (Prod.snd ∘ fun s => ((HTree.leaf s, [s]) : HTree × List Nat)) =
          (fun s => [s]) := rfl
      rw [h1, flatten_map_singleton] at hj
      have := hq0lt j hj
      omega
    · intro j hj
      rw [hget0 j, if_neg (by omega)]
    · intro j hj1 hj2
      omega
    · intro j
      rw [hget0 j]
      split <;> rfl
    · intro s hs
      have hsd : s ∈ data := (hq0mem s).mp hs
      have hc : 0 < data.count s ∧ s < MaxSymbols := ⟨List.count_pos_iff.mpr hsd, hdata s hsd⟩
      rw [hget0 s, if_pos hc]
      show (0 : Int) < ((data.count s : Nat) : Int)
      exact_mod_cast hc.1
  obtain ⟨b, hb⟩ := List.exists_mem_of_ne_nil data hne
  have hqne : (List.range MaxSymbols).filter
      (fun s => ((countFrequencies initialNodes data).getD s dNode).isValid) ≠ [] :=
    List.ne_nil_of_mem ((hq0mem b).mpr hb)
  have hqlen : ((List.range MaxSymbols).filter
      (fun s => ((countFrequencies initialNodes data).getD s dNode).isValid)).length ≤
      MaxSymbols := by
    have h1 := List.length_filter_le
      (fun s => ((countFrequencies initialNodes data).getD s dNode).isValid)
      (List.range MaxSymbols)
    rw [List.length_range] at h1
    exact h1
  obtain ⟨pool', root, t, ix, hbl, hrep, hnd, hsyms, hcodes, hleaf, hplen⟩ :=
    buildLoop_ok MaxSymbols (countFrequencies initialNodes data) _ _ 0 hQ hqne
      (by omega) hqlen
  have hsymsq : t.syms.Perm ((List.range MaxSymbols).filter
      (fun s => ((countFrequencies initialNodes data).getD s dNode).isValid)) := by
    refine hsyms.trans ?_
    rw [List.map_map]
    have h1 : ((fun e => e.1.syms) ∘ fun s => ((HTree.leaf s, [s]) : HTree × List Nat)) =
        (fun s => [s]) := rfl
    rw [h1, flatten_map_singleton]
  refine ⟨pool', root, t, ix, hbl, hrep, hnd, ?_, ?_, hcodes, hleaf, hplen⟩
  · intro s
    rw [hsymsq.mem_iff]
    exact hq0mem s
  · exact hsymsq.nodup_iff.mpr hq0nd

end huffman

namespace huffman

theorem appendCode_eq_pushRunGo (c other : Code) :
    c.appendCode other = pushRunGo (c, false) (codeBits other) := by
  rw [Code.appendCode, pushRunGo, codeBits, List.foldl_map]

theorem pushRunGo_true : ∀ (bs : List Nat) (c : Code), (pushRunGo (c, true) bs).2 = true := by
  intro bs
  induction bs with
  | nil => intro c; rfl
  | cons b t ih =>
    intro c
    show (pushRunGo ((c.appendBit b).1, true) t).2 = true
    exact ih _

theorem pushRunGo_ok : ∀ (bs : List Nat) (c : Code), bitsGood bs → c.wf →
    c.length + bs.length ≤ 64 →
    pushRunGo (c, false) bs =
      (⟨c.bits + bitsVal bs * 2 ^ c.length, c.length + bs.length⟩, false) := by
  intro bs
  induction bs with
  | nil =>
    intro c _ _ _
    show (c, false) = (⟨c.bits + bitsVal [] * 2 ^ c.length, c.length + [].length⟩, false)
    rw [bitsVal_nil]
    simp
  | cons b t ih =>
    intro c hg hwf hle
    have hb : b ≤ 1 := hg b (by simp)
    rw [List.length_cons] at hle
    have hlt : c.length < 64 := by omega
    have hap := appendBit_push hlt hwf hb
    show pushRunGo ((c.appendBit b).1, false || (c.appendBit b).2) t = _
    rw [hap]
    have ihr := ih (c.push b) (fun x hx => hg x (by simp [hx])) (Code.push_wf hwf hb)
      (by rw [Code.push_length]; omega)
    rw [Code.push] at ihr
    show pushRunGo (⟨c.bits + b * 2 ^ c.length, c.length + 1⟩, false) t = _
    rw [ihr]
    rw [bitsVal_cons, List.length_cons]
    have he1 : c.bits + b * 2 ^ c.length + bitsVal t * 2 ^ (c.length + 1) =
        c.bits + (b + 2 * bitsVal t) * 2 ^ c.length := by
      rw [pow_succ]
      ring
    have he2 : c.length + 1 + t.length = c.length + (t.length + 1) := by omega
    rw [he1, he2]

theorem pushRunGo_err : ∀ (bs : List Nat) (c : Code), bitsGood bs → c.wf →
    64 < c.length + bs.length → c.length ≤ 64 → (pushRunGo (c, false) bs).2 = true := by
  intro bs
  induction bs with
  | nil =>
    intro c _ _ h hle
    simp only [List.length_nil, Nat.add_zero] at h
    omega
  | cons b t ih =>
    intro c hg hwf hgt hle
    rcases eq_or_ne c.length 64 with h64 | hne
    · have hab : c.appendBit b = (c, true) := by
        rw [Code.appendBit, if_pos (by rw [h64]; rfl)]
      show (pushRunGo ((c.appendBit b).1, false || (c.appendBit b).2) t).2 = true
      rw [hab]
      exact pushRunGo_true t c
    · have hlt : c.length < 64 := by omega
      have hb : b ≤ 1 := hg b (by simp)
      have hap := appendBit_push hlt hwf hb
      show (pushRunGo ((c.appendBit b).1, false || (c.appendBit b).2) t).2 = true
      rw [hap]
      show (pushRunGo (c.push b, false) t).2 = true
      rw [List.length_cons] at hgt
      exact ih (c.push b) (fun x hx => hg x (by simp [hx])) (Code.push_wf hwf hb)
        (by rw [Code.push_length]; omega) (by rw [Code.push_length]; omega)

theorem codeBits_eq_lsbBits (c : Code) : codeBits c = lsbBits c.bits c.length := rfl

theorem bitsVal_codeBits {c : Code} (h : c.wf) : bitsVal (codeBits c) = c.bits := by
  rw [codeBits_eq_lsbBits, bitsVal_lsbBits, Nat.mod_eq_of_lt h]

theorem nil_wf : Code.nil.wf := by
  rw [Code.wf]
  norm_num [Code.nil]

/-- Appending a well-formed code of length at most 64 onto a cleared code
reproduces it without firing the error hook. -/
theorem appendCode_nil_ok {other : Code} (hwf : other.wf) (hle : other.length ≤ 64) :
    Code.nil.appendCode other = (other, false) := by
  rw [appendCode_eq_pushRunGo,
    pushRunGo_ok (codeBits other) Code.nil (codeBits_good other) nil_wf
      (by rw [codeBits_length]; simpa [Code.nil] using hle)]
  rw [bitsVal_codeBits hwf, codeBits_length]
  simp [Code.nil]

/-- Appending a code longer than 64 bits onto a cleared code fires the error
hook. -/
theorem appendCode_nil_err {other : Code} (hgt : 64 < other.length) :
    (Code.nil.appendCode other).2 = true := by
  rw [appendCode_eq_pushRunGo]
  exact pushRunGo_err _ _ (codeBits_good other) nil_wf
    (by rw [codeBits_length]; simp [Code.nil]; omega) (by simp [Code.nil])

theorem natCast_bne_nil (k : Nat) : (((k : Nat) : Int) != Nil) = true := by
  rw [Nil]
  simp only [bne_iff_ne, ne_eq, decide_eq_true_eq]
  omega

/-- `Rep` only looks at the link and value fields, so any pool change that
preserves those (such as assigning codes) preserves the representation. -/
theorem Rep_fields {pool pool' : List Node}
    (hfields : ∀ j, (pool'.getD j dNode).leftChild = (pool.getD j dNode).leftChild ∧
      (pool'.getD j dNode).rightChild = (pool.getD j dNode).rightChild ∧
      (pool'.getD j dNode).value = (pool.getD j dNode).value) :
    ∀ {i : Nat} {t : HTree} {ix : List Nat}, Rep pool i t ix → Rep pool' i t ix := by
  intro i t ix h
  induction h with
  | leaf s h1 h2 h3 h4 =>
    exact Rep.leaf s h1 (by rw [(hfields s).1, h2]) (by rw [(hfields s).2.1, h3])
      (by rw [(hfields s).2.2, h4])
  | node i li ri l r il ir hl hr h1 h2 h4 hge hi ihl ihr =>
    exact Rep.node i li ri l r il ir ihl ihr (by rw [(hfields i).1, h1])
      (by rw [(hfields i).2.1, h2]) (by rw [(hfields i).2.2, h4]) hge hi

end huffman

namespace huffman

theorem recursiveAssignCodes_zero (pool : List Node) (i : Nat) (parent : Option Nat)
    (bit : Nat) : recursiveAssignCodes pool i parent bit 0 = (pool, true) := rfl


set_option maxHeartbeats 1600000 in
theorem recursiveAssignCodes_succ (pool : List Node) (i : Nat) (parent : Option Nat)
    (bit : Nat) (fuel : Nat) (c : Code)
    (hp1 : p1Step pool i parent = (c, false)) :
    recursiveAssignCodes pool i parent bit (fuel + 1) = assignBody pool i bit c fuel := by
  cases parent with
  | none =>
    have hc : (pool.getD i dNode).code = c := congrArg Prod.fst hp1
    rw [recursiveAssignCodes.eq_def]
    dsimp only
    rw [hc, assignBody]
    simp only [Bool.false_or]
  | some pi =>
    rw [recursiveAssignCodes.eq_def]
    dsimp only
    rw [show (pool.getD i dNode).code.appendCode ((pool.getD pi dNode).code) =
      (c, false) from hp1]
    rw [assignBody]
    dsimp only
    simp only [Bool.false_or]

set_option maxHeartbeats 1600000 in
theorem recursiveAssignCodes_errP (pool : List Node) (i : Nat) (parent : Option Nat)
    (bit : Nat) (fuel : Nat)
    (hp1 : (p1Step pool i parent).2 = true) :
    (recursiveAssignCodes pool i parent bit (fuel + 1)).2 = true := by
  cases parent with
  | none => exact Bool.noConfusion (show false = true from hp1)
  | some pi =>
    rw [recursiveAssignCodes.eq_def]
    dsimp only
    rw [show ((pool.getD i dNode).code.appendCode ((pool.getD pi dNode).code)).2 =
      true from hp1]
    simp

set_option maxHeartbeats 1600000 in
theorem recursiveAssignCodes_err64 (pool : List Node) (i : Nat) (parent : Option Nat)
    (bit : Nat) (fuel : Nat) (c : Code)
    (hp1 : p1Step pool i parent = (c, false))
    (h64 : c.length = CodeMaxBits) :
    (recursiveAssignCodes pool i parent bit (fuel + 1)).2 = true := by
  rw [recursiveAssignCodes_succ pool i parent bit fuel c hp1, assignBody]
  dsimp only
  rw [Code.appendBit, if_pos h64]
  simp

/-- The parent-code step either reproduces the parent's code `c` (when it
fits in 64 bits) or fires the error hook. -/
theorem p1_char (pool : List Node) (i : Nat) (parent : Option Nat) (c : Code)
    (hcnil : (pool.getD i dNode).code = Code.nil)
    (hpar : parentCode pool parent = c)
    (hcw : c.wf) :
    (c.length ≤ 64 ∧ p1Step pool i parent = (c, false)) ∨
    ((p1Step pool i parent).2 = true) := by
  cases parent with
  | none =>
    have hpar' : Code.nil = c := hpar
    left
    constructor
    · rw [← hpar']
      norm_num [Code.nil]
    · show ((pool.getD i dNode).code, false) = (c, false)
      rw [hcnil, hpar']
  | some pi =>
    have hpar' : (pool.getD pi dNode).code = c := hpar
    rcases le_or_lt (c.length) 64 with hle | hgt
    · left
      refine ⟨hle, ?_⟩
      show (pool.getD i dNode).code.appendCode ((pool.getD pi dNode).code) = (c, false)
      rw [hcnil, hpar', appendCode_nil_ok hcw hle]
    · right
      show ((pool.getD i dNode).code.appendCode ((pool.getD pi dNode).code)).2 = true
      rw [hcnil, hpar']
      exact appendCode_nil_err hgt

end huffman

namespace huffman

set_option maxHeartbeats 3200000 in
/-- Whenever `recursiveAssignCodes` completes without firing the error hook,
it only changes code fields, leaves slots outside the tree alone, and writes
exactly the `assignSpec` code into the leaf slot of every tree symbol. -/
theorem assign_ok :
    ∀ (t : HTree) (fuel : Nat) (pool : List Node) (i : Nat) (ix : List Nat)
      (parent : Option Nat) (bit : Nat) (c : Code),
      Rep pool i t ix → ix.Nodup → pool.length = MaxNodes →
      (∀ j ∈ ix, (pool.getD j dNode).code = Code.nil) →
      parentCode pool parent = c →
      c.wf → bit ≤ 1 → t.size ≤ fuel →
      (recursiveAssignCodes pool i parent bit fuel).2 = false →
      ∃ pool2, recursiveAssignCodes pool i parent bit fuel = (pool2, false) ∧
        (∀ j, j ∉ ix → pool2.getD j dNode = pool.getD j dNode) ∧
        (∀ j, (pool2.getD j dNode).frequency = (pool.getD j dNode).frequency ∧
          (pool2.getD j dNode).leftChild = (pool.getD j dNode).leftChild ∧
          (pool2.getD j dNode).rightChild = (pool.getD j dNode).rightChild ∧
          (pool2.getD j dNode).value = (pool.getD j dNode).value) ∧
        pool2.length = MaxNodes ∧
        (∀ p ∈ assignSpec t (c.push bit), (pool2.getD p.1 dNode).code = p.2) := by
  intro t
  induction t with
  | leaf s =>
    intro fuel pool i ix parent bit c hrep hnd hplen hcnil hpar hcw hbit hsz hsucc
    cases hrep with
    | leaf s' h1 h2 h3 h4 =>
      cases fuel with
      | zero =>
        rw [HTree.size] at hsz
        omega
      | succ fuel =>
        have hcnils := hcnil s (by simp)
        have hslen : s < pool.length := by
          rw [hplen, MaxNodes]
          rw [MaxSymbols] at h1
          omega
        rcases p1_char pool s parent c hcnils hpar hcw with ⟨hle, hp1⟩ | herr
        · rcases eq_or_ne c.length 64 with h64 | hne64
          · exfalso
            rw [recursiveAssignCodes_err64 pool s parent bit fuel c hp1
              (by rw [CodeMaxBits]; exact h64)] at hsucc
            exact Bool.noConfusion hsucc
          · have hlt : c.length < 64 := by omega
            have hp2 := appendBit_push hlt hcw hbit
            have heval : recursiveAssignCodes pool s parent bit (fuel + 1) =
                (pool.set s { pool.getD s dNode with code := c.push bit }, false) := by
              rw [recursiveAssignCodes_succ pool s parent bit fuel c hp1, assignBody]
              dsimp only
              rw [hp2]
              dsimp only
              rw [if_neg (by rw [h3]; simp), if_neg (by rw [h2]; simp)]
              simp only [Bool.or_self, Bool.or_false, Bool.false_or]
              rfl
            refine ⟨pool.set s { pool.getD s dNode with code := c.push bit }, heval,
              ?_, ?_, ?_, ?_⟩
            · intro j hj
              have hjs : j ≠ s := by simpa using hj
              exact getDg_set_ne _ _ (fun he => hjs he.symm)
            · intro j
              rcases eq_or_ne j s with rfl | hne
              · rw [getDg_set_self _ _ hslen]
                exact ⟨rfl, rfl, rfl, rfl⟩
              · rw [getDg_set_ne _ _ (fun he => hne he.symm)]
                exact ⟨rfl, rfl, rfl, rfl⟩
            · rw [List.length_set]
              exact hplen
            · intro p hp
              rw [assignSpec, List.mem_singleton] at hp
              subst hp
              rw [getDg_set_self _ _ hslen]
        · exfalso
          rw [recursiveAssignCodes_errP pool s parent bit fuel herr] at hsucc
          exact Bool.noConfusion hsucc
  | node l r ihl ihr =>
    intro fuel pool i ix parent bit c hrep hnd hplen hcnil hpar hcw hbit hsz hsucc
    cases hrep with
    | node i' li ri l' r' il ir hl hr h1 h2 h4 hge hi =>
      cases fuel with
      | zero =>
        rw [HTree.size] at hsz
        omega
      | succ fuel =>
        have hcnili := hcnil i (by simp)
        have hilen : i < pool.length := by
          rw [hplen]
          exact hi
        rcases p1_char pool i parent c hcnili hpar hcw with ⟨hle, hp1⟩ | herr
        · rcases eq_or_ne c.length 64 with h64 | hne64
          · exfalso
            rw [recursiveAssignCodes_err64 pool i parent bit fuel c hp1
              (by rw [CodeMaxBits]; exact h64)] at hsucc
            exact Bool.noConfusion hsucc
          · have hlt : c.length < 64 := by omega
            have hp2 := appendBit_push hlt hcw hbit
            have heval : recursiveAssignCodes pool i parent bit (fuel + 1) =
                (let pool1 := pool.set i ⟨(pool.getD i dNode).frequency, (li : Int),
                   (ri : Int), (pool.getD i dNode).value, c.push bit⟩
                 let q1 := recursiveAssignCodes pool1 li (some i) 0 fuel
                 let q2 := recursiveAssignCodes q1.1 ri (some i) 1 fuel
                 (q2.1, q1.2 || q2.2)) := by
              rw [recursiveAssignCodes_succ pool i parent bit fuel c hp1, assignBody]
              dsimp only
              rw [hp2]
              dsimp only
              rw [if_pos (by rw [h2]; exact natCast_bne_nil ri),
                  if_pos (by rw [h1]; exact natCast_bne_nil li)]
              rw [h1, h2]
              simp only [Int.toNat_natCast, Bool.false_or]
              rfl
            rw [List.cons_append, List.nodup_cons, List.mem_append] at hnd
            obtain ⟨hinotin, hndapp⟩ := hnd
            have hinil : i ∉ il := fun h => hinotin (Or.inl h)
            have hinir : i ∉ ir := fun h => hinotin (Or.inr h)
            have hndil : il.Nodup := hndapp.of_append_left
            have hndir : ir.Nodup := hndapp.of_append_right
            have hdisj : ∀ x ∈ il, x ∉ ir := fun x hx =>
              List.disjoint_of_nodup_append hndapp hx
            have hg1self : (pool.set i ⟨(pool.getD i dNode).frequency, (li : Int),
                (ri : Int), (pool.getD i dNode).value, c.push bit⟩).getD i dNode =
                ⟨(pool.getD i dNode).frequency, (li : Int), (ri : Int),
                 (pool.getD i dNode).value, c.push bit⟩ := getDg_set_self _ _ hilen
            have hg1ne : ∀ j, j ≠ i → (pool.set i ⟨(pool.getD i dNode).frequency,
                (li : Int), (ri : Int), (pool.getD i dNode).value, c.push bit⟩).getD j dNode =
                pool.getD j dNode := fun j hj => getDg_set_ne _ _ (fun he => hj he.symm)
            rw [heval] at hsucc
            dsimp only at hsucc
            rw [Bool.or_eq_false_iff] at hsucc
            obtain ⟨hs1, hs2⟩ := hsucc
            have hfields01 : ∀ j, ((pool.set i ⟨(pool.getD i dNode).frequency, (li : Int),
                (ri : Int), (pool.getD i dNode).value, c.push bit⟩).getD j dNode).frequency =
                  (pool.getD j dNode).frequency ∧
                ((pool.set i ⟨(pool.getD i dNode).frequency, (li : Int), (ri : Int),
                  (pool.getD i dNode).value, c.push bit⟩).getD j dNode).leftChild =
                  (pool.getD j dNode).leftChild ∧
                ((pool.set i ⟨(pool.getD i dNode).frequency, (li : Int), (ri : Int),
                  (pool.getD i dNode).value, c.push bit⟩).getD j dNode).rightChild =
                  (pool.getD j dNode).rightChild ∧
                ((pool.set i ⟨(pool.getD i dNode).frequency, (li : Int), (ri : Int),
                  (pool.getD i dNode).value, c.push bit⟩).getD j dNode).value =
                  (pool.getD j dNode).value := by
              intro j
              rcases eq_or_ne j i with rfl | hne
              · rw [hg1self]
                exact ⟨rfl, h1.symm, h2.symm, rfl⟩
              · rw [hg1ne j hne]
                exact ⟨rfl, rfl, rfl, rfl⟩
            have hrepl1 : Rep (pool.set i ⟨(pool.getD i dNode).frequency, (li : Int),
                (ri : Int), (pool.getD i dNode).value, c.push bit⟩) li l il :=
              Rep_mono hl (fun j hj => hg1ne j (fun he => hinil (he ▸ hj)))
            have hcnil1 : ∀ j ∈ il, ((pool.set i ⟨(pool.getD i dNode).frequency, (li : Int),
                (ri : Int), (pool.getD i dNode).value, c.push bit⟩).getD j dNode).code =
                Code.nil := fun j hj => by
              rw [hg1ne j (fun he => hinil (he ▸ hj))]
              exact hcnil j (by simp [hj])
            have hparl : parentCode (pool.set i ⟨(pool.getD i dNode).frequency, (li : Int),
                (ri : Int), (pool.getD i dNode).value, c.push bit⟩) (some i) = c.push bit := by
              show ((pool.set i ⟨(pool.getD i dNode).frequency, (li : Int),
                (ri : Int), (pool.getD i dNode).value, c.push bit⟩).getD i dNode).code =
                c.push bit
              rw [hg1self]
            have hszl : l.size ≤ fuel := by
              rw [HTree.size] at hsz
              omega
            have hszr : r.size ≤ fuel := by
              rw [HTree.size] at hsz
              omega
            obtain ⟨pool2, heq1, hout1, hfields1, hplen1, hcodes1⟩ :=
              ihl fuel _ li il (some i) 0 (c.push bit) hrepl1 hndil
                (by rw [List.length_set]; exact hplen) hcnil1 hparl
                (Code.push_wf hcw hbit) (by norm_num) hszl hs1
            rw [heq1] at hs2
            dsimp only at hs2
            have hrepr2 : Rep pool2 ri r ir :=
              Rep_fields (fun j => ⟨(hfields1 j).2.1, (hfields1 j).2.2.1,
                (hfields1 j).2.2.2⟩)
                (Rep_fields (fun j => ⟨(hfields01 j).2.1, (hfields01 j).2.2.1,
                  (hfields01 j).2.2.2⟩) hr)
            have hcnil2 : ∀ j ∈ ir, (pool2.getD j dNode).code = Code.nil := fun j hj => by
              rw [hout1 j (fun hjil => hdisj j hjil hj),
                hg1ne j (fun he => hinir (he ▸ hj))]
              exact hcnil j (by simp [hj])
            have hparr : parentCode pool2 (some i) = c.push bit := by
              show (pool2.getD i dNode).code = c.push bit
              rw [hout1 i hinil, hg1self]
            obtain ⟨pool3, heq2, hout2, hfields2, hplen2, hcodes2⟩ :=
              ihr fuel pool2 ri ir (some i) 1 (c.push bit) hrepr2 hndir hplen1 hcnil2 hparr
                (Code.push_wf hcw hbit) (by norm_num) hszr hs2
            have heval2 : recursiveAssignCodes pool i parent bit (fuel + 1) =
                (pool3, false) := by
              rw [heval]
              dsimp only
              rw [heq1]
              dsimp only
              rw [heq2]
              rfl
            refine ⟨pool3, heval2, ?_, ?_, hplen2, ?_⟩
            · intro j hj
              have hji : j ≠ i := fun he => hj (by rw [he]; simp)
              have hjil : j ∉ il := fun h => hj (by simp [h])
              have hjir : j ∉ ir := fun h => hj (by simp [h])
              rw [hout2 j hjir, hout1 j hjil, hg1ne j hji]
            · intro j
              have hA := hfields2 j
              have hB := hfields1 j
              have hC := hfields01 j
              exact ⟨(hA.1.trans hB.1).trans hC.1,
                (hA.2.1.trans hB.2.1).trans hC.2.1,
                (hA.2.2.1.trans hB.2.2.1).trans hC.2.2.1,
                (hA.2.2.2.trans hB.2.2.2).trans hC.2.2.2⟩
            · intro p hp
              rw [assignSpec, List.mem_append] at hp
              rcases hp with hp | hp
              · have hp1mem : p.1 ∈ l.syms := by
                  have hfst := assignSpec_fst l ((c.push bit).push 0)
                  exact hfst ▸ (List.mem_map_of_mem Prod.fst hp)
                have hp1il : p.1 ∈ il := (Rep_syms_sublist hl).mem hp1mem
                rw [hout2 p.1 (hdisj p.1 hp1il)]
                exact hcodes1 p hp
              · exact hcodes2 p hp
        · exfalso
          rw [recursiveAssignCodes_errP pool i parent bit fuel herr] at hsucc
          exact Bool.noConfusion hsucc

end huffman

namespace huffman

theorem Rep_ix_length {pool : List Node} {i : Nat} {t : HTree} {ix : List Nat}
    (h : Rep pool i t ix) : ix.length = t.size := by
  induction h with
  | leaf s h1 h2 h3 h4 => rfl
  | node i li ri l r il ir hl hr h1 h2 h4 hge hi ihl ihr =>
    rw [HTree.size, List.cons_append, List.length_cons, List.length_append, ihl, ihr]

theorem Rep_size_le {pool : List Node} {i : Nat} {t : HTree} {ix : List Nat}
    (h : Rep pool i t ix) (hnd : ix.Nodup) : t.size ≤ MaxNodes := by
  rw [← Rep_ix_length h]
  have hsub : ix ⊆ List.range MaxNodes := fun j hj =>
    List.mem_range.mpr (Rep_ix_lt h j hj)
  have h1 := (List.subperm_of_subset hnd hsub).length_le
  rw [List.length_range] at h1
  exact h1

set_option maxHeartbeats 1600000 in
/-- `buildHuffmanTree` on the frequency-counted pool, when its error flag
stays down: leaf slots of occurring bytes are valid and carry well-formed,
non-empty, mutually prefix-free codes; all other leaf slots are untouched and
code-free. -/
theorem tree_ok (data : List Nat) (hne : data ≠ [])
    (hdata : ∀ b ∈ data, b < MaxSymbols)
    (hsucc : (buildHuffmanTree (countFrequencies initialNodes data)).2.2 = false) :
    ∃ nodes root,
      buildHuffmanTree (countFrequencies initialNodes data) = (nodes, root, false) ∧
      nodes.length = MaxNodes ∧
      (∀ s, s < MaxSymbols → ((nodes.getD s dNode).isValid = true ↔ s ∈ data)) ∧
      (∀ s, s < MaxSymbols → s ∉ data → (nodes.getD s dNode).code = Code.nil) ∧
      (∀ s ∈ data, ((nodes.getD s dNode).code).wf ∧ 1 ≤ ((nodes.getD s dNode).code).length) ∧
      (∀ s ∈ data, ∀ u ∈ data, s ≠ u →
        ¬ codePre ((nodes.getD s dNode).code) ((nodes.getD u dNode).code)) := by
  obtain ⟨pool', root, t, ix, hbl, hrep, hnd, hmem, hsnodup, hcodes, hleaf, hplen⟩ :=
    build_initial data hne hdata
  obtain ⟨hlen0, hget0⟩ := countFrequencies_char data hdata
  rw [buildHuffmanTree, hbl] at hsucc ⊢
  dsimp only at hsucc ⊢
  have hsz : t.size ≤ MaxNodes := Rep_size_le hrep hnd
  have hcnili : ∀ j ∈ ix, (pool'.getD j dNode).code = Code.nil := fun j _ => hcodes j
  have hpar : parentCode pool' none = Code.nil := rfl
  have hsucc2 : (recursiveAssignCodes pool' root none 0 MaxNodes).2 = false := by
    rcases hflag : (recursiveAssignCodes pool' root none 0 MaxNodes).2 with _ | _
    · rfl
    · exfalso
      rcases hres : recursiveAssignCodes pool' root none 0 MaxNodes with ⟨nodes2, e2⟩
      rw [hres] at hsucc hflag
      dsimp only at hsucc hflag
      rw [hflag] at hsucc
      exact Bool.noConfusion hsucc
  obtain ⟨pool3, heq, hout, hfields, hplen3, hcodes3⟩ :=
    assign_ok t MaxNodes pool' root ix none 0 Code.nil hrep hnd hplen hcnili hpar
      nil_wf (by norm_num) hsz hsucc2
  rw [heq]
  dsimp only
  refine ⟨pool3, root, rfl, hplen3, ?_, ?_, ?_, ?_⟩
  · intro s hs
    have hfv := (hfields s).1
    have hval : (pool3.getD s dNode).isValid = (pool'.getD s dNode).isValid := by
      rw [Node.isValid, Node.isValid, hfv]
    rw [hval]
    have hleafs := hleaf s hs
    rw [hleafs, hget0 s]
    split
    · rename_i hc
      constructor
      · intro _
        exact List.count_pos_iff.mp hc.1
      · intro _
        apply isValid_of_freq_pos
        show (0 : Int) < ((data.count s : Nat) : Int)
        exact_mod_cast hc.1
    · rename_i hc
      rw [dNode_invalid]
      constructor
      · intro h
        exact Bool.noConfusion h
      · intro hmem2
        exact absurd ⟨List.count_pos_iff.mpr hmem2, hs⟩ hc
  · intro s hs hnmem
    have hsix : s ∉ ix := by
      intro hsix
      exact hnmem ((hmem s).mp (Rep_mem_sym hrep s hsix hs))
    rw [hout s hsix]
    exact hcodes s
  · intro s hs
    have hsyms : s ∈ t.syms := (hmem s).mpr hs
    have hfst := assignSpec_fst t (Code.nil.push 0)
    obtain ⟨p, hp, hpe⟩ := List.mem_map.mp (hfst ▸ hsyms)
    have hcs : (pool3.getD s dNode).code = p.2 := by
      rw [← hpe]
      exact hcodes3 p hp
    obtain ⟨hpre, hwf⟩ := assignSpec_ext t (Code.nil.push 0)
      (Code.push_wf nil_wf (by norm_num)) p hp
    rw [hcs]
    refine ⟨hwf, ?_⟩
    have h1 := hpre.1
    rw [Code.push_length] at h1
    norm_num [Code.nil] at h1
    omega
  · intro s hs u hu hne2
    have hsyms : s ∈ t.syms := (hmem s).mpr hs
    have husyms : u ∈ t.syms := (hmem u).mpr hu
    have hfst := assignSpec_fst t (Code.nil.push 0)
    obtain ⟨p, hp, hpe⟩ := List.mem_map.mp (hfst ▸ hsyms)
    obtain ⟨q, hq, hqe⟩ := List.mem_map.mp (hfst ▸ husyms)
    have hcs : (pool3.getD s dNode).code = p.2 := by
      rw [← hpe]
      exact hcodes3 p hp
    have hcu : (pool3.getD u dNode).code = q.2 := by
      rw [← hqe]
      exact hcodes3 q hq
    rw [hcs, hcu]
    exact assignSpec_prefix_free t (Code.nil.push 0)
      (Code.push_wf nil_wf (by norm_num)) hsnodup p hp q hq
      (by rw [hpe, hqe]; exact hne2)

end huffman

namespace huffman

theorem maxFold_le (pool : List Node) :
    ∀ (L : List Nat) (init : Nat),
      init ≤ L.foldl
        (fun m s =>
          let nd := pool.getD s dNode
          if nd.isValid && decide (m < nd.code.length) then nd.code.length else m) init := by
  intro L
  induction L with
  | nil => intro init; exact le_rfl
  | cons a t ih =>
    intro init
    refine le_trans ?_ (ih _)
    dsimp only
    split
    · rename_i hc
      rw [Bool.and_eq_true, decide_eq_true_eq] at hc
      omega
    · exact le_rfl

theorem maxFold_mem (pool : List Node) :
    ∀ (L : List Nat) (init : Nat) (s : Nat), s ∈ L →
      (pool.getD s dNode).isValid = true →
      (pool.getD s dNode).code.length ≤ L.foldl
        (fun m s =>
          let nd := pool.getD s dNode
          if nd.isValid && decide (m < nd.code.length) then nd.code.length else m) init := by
  intro L
  induction L with
  | nil => intro init s hs; exact absurd hs (List.not_mem_nil s)
  | cons a t ih =>
    intro init s hs hv
    rcases List.mem_cons.mp hs with rfl | hs
    · refine le_trans ?_ (maxFold_le pool t _)
      dsimp only
      split
      · exact le_rfl
      · rename_i hc
        rw [Bool.and_eq_true] at hc
        have h2 : ¬ (decide (init < (pool.getD s dNode).code.length) = true) :=
          fun hd => hc ⟨hv, hd⟩
        rw [decide_eq_true_eq] at h2
        omega
    · exact ih _ s hs hv

end huffman

namespace huffman

/-- All valid leaf codes are bounded by the scan of `writeTreeBitStream`. -/
theorem maxCodeLen_ge (pool : List Node) (s : Nat) (hs : s < MaxSymbols)
    (hv : (pool.getD s dNode).isValid = true) :
    (pool.getD s dNode).code.length ≤ maxCodeLen pool := by
  rw [maxCodeLen]
  exact maxFold_mem pool (List.range MaxSymbols) 0 s (List.mem_range.mpr hs) hv

theorem bitsForInteger_fact :
    ∀ num, num < 65 → 1 ≤ num → num < 2 ^ bitsForInteger num ∧ bitsForInteger num ≤ 7 := by
  decide

theorem symBits_good (cs : Nat → Code) (width s : Nat) : bitsGood (symBits cs width s) := by
  intro b hb
  rw [symBits, List.mem_append] at hb
  rcases hb with hb | hb
  · exact lsbBits_good _ _ b hb
  · exact codeBits_good _ b hb

theorem bitsGood_append {l m : List Nat} (hl : bitsGood l) (hm : bitsGood m) :
    bitsGood (l ++ m) := by
  intro b hb
  rcases List.mem_append.mp hb with hb | hb
  · exact hl b hb
  · exact hm b hb

theorem bitsGood_flatten {L : List (List Nat)} (h : ∀ l ∈ L, bitsGood l) :
    bitsGood L.flatten := by
  intro b hb
  obtain ⟨l, hl, hbl⟩ := List.mem_flatten.mp hb
  exact h l hl b hbl

theorem headerAll_good (cs : Nat → Code) (width : Nat) : bitsGood (headerAll cs width) := by
  rw [headerAll]
  refine bitsGood_append (bitsGood_append (lsbBits_good _ _) (lsbBits_good _ _)) ?_
  refine bitsGood_flatten ?_
  intro l hl
  obtain ⟨s, _, hsl⟩ := List.mem_map.mp hl
  rw [← hsl]
  exact symBits_good cs width s

theorem headerPad_good (n : Nat) : bitsGood (headerPad n) := by
  intro b hb
  rw [headerPad] at hb
  rw [List.eq_of_mem_replicate hb]
  omega

theorem payBits_good (cs : Nat → Code) (input : List Nat) : bitsGood (payBits cs input) := by
  rw [payBits]
  refine bitsGood_flatten ?_
  intro l hl
  obtain ⟨s, _, hsl⟩ := List.mem_map.mp hl
  rw [← hsl]
  exact codeBits_good _

theorem symBits_length (cs : Nat → Code) (width s : Nat) :
    (symBits cs width s).length = width + (cs s).length := by
  rw [symBits, List.length_append, lsbBits_length, codeBits_length]

theorem writeRecFold (nodes : List Node) (width : Nat) :
    ∀ (L : List Nat) (w : BitStreamWriter) (n : Nat),
      L.foldl
        (fun (p : BitStreamWriter × Nat) s =>
          let nd := nodes.getD s dNode
          let w := p.1.appendBitsU64 nd.code.length width
          let w := w.appendBitsU64 nd.code.bits nd.code.length
          (w, p.2 + width + nd.code.length)) (w, n) =
      (w.appendRun ((L.map (symBits (fun s => (nodes.getD s dNode).code) width)).flatten),
       n + ((L.map (symBits (fun s => (nodes.getD s dNode).code) width)).flatten).length) := by
  intro L
  induction L with
  | nil =>
    intro w n
    simp [appendRun_nil]
  | cons a t ih =>
    intro w n
    rw [List.foldl_cons]
    dsimp only
    rw [appendBitsU64_eq_run, appendBitsU64_eq_run, ← appendRun_append, ih]
    have hsym : lsbBits ((nodes.getD a dNode).code).length width ++
        lsbBits ((nodes.getD a dNode).code).bits ((nodes.getD a dNode).code).length =
        symBits (fun s => (nodes.getD s dNode).code) width a := by
      rw [symBits, codeBits_eq_lsbBits]
    rw [hsym]
    rw [List.map_cons, List.flatten_cons, appendRun_append]
    congr 1
    rw [List.length_append, symBits_length]
    omega

theorem padLoop_eq :
    ∀ (fuel : Nat) (w : BitStreamWriter) (tp : Nat), (8 - tp % 8) % 8 ≤ fuel →
      padLoop w tp fuel = (w.appendRun (headerPad tp), tp + (8 - tp % 8) % 8) := by
  intro fuel
  induction fuel with
  | zero =>
    intro w tp h
    have h0 : tp % 8 = 0 := by omega
    rw [padLoop, headerPad, h0]
    simp [appendRun_nil]
  | succ fuel ih =>
    intro w tp h
    rw [padLoop]
    rcases eq_or_ne (tp % 8) 0 with h0 | h0
    · rw [if_neg (by omega), headerPad, h0]
      simp [appendRun_nil]
    · rw [if_pos h0]
      have hk : (8 - tp % 8) % 8 = (8 - (tp + 1) % 8) % 8 + 1 := by omega
      rw [ih (w.appendBit 0) (tp + 1) (by omega)]
      rw [headerPad, headerPad, hk, List.replicate_succ, appendRun_cons]
      congr 1
      omega

theorem writeDataFold (nodes : List Node) :
    ∀ (L : List Nat) (w : BitStreamWriter),
      L.foldl (fun w b => w.appendCode ((nodes.getD b dNode).code)) w =
      w.appendRun (payBits (fun s => (nodes.getD s dNode).code) L) := by
  intro L
  induction L with
  | nil =>
    intro w
    rw [payBits]
    simp [appendRun_nil]
  | cons a t ih =>
    intro w
    rw [List.foldl_cons, appendCode_eq_run, ih, payBits, payBits, List.map_cons,
      List.flatten_cons, appendRun_append]

theorem list_range_getD (l : List Nat) :
    (List.range l.length).map (fun i => l.getD i 0) = l := by
  apply List.ext_getElem
  · rw [List.length_map, List.length_range]
  · intro i h1 h2
    have hi : i < l.length := by
      rw [List.length_map, List.length_range] at h1
      exact h1
    rw [List.getElem_map, List.getElem_range, List.getD_eq_getElem _ _ hi]

theorem headerAll_length (cs : Nat → Code) (width : Nat) :
    (headerAll cs width).length =
      32 + (((List.range MaxSymbols).map (symBits cs width)).flatten).length := by
  rw [headerAll, List.length_append, List.length_append, lsbBits_length, lsbBits_length]

end huffman

namespace huffman

theorem writeData_nodes (st : EncState) (d : List Nat) :
    (writeDataBitStream st d).nodes = st.nodes := rfl

theorem writeData_err (st : EncState) (d : List Nat) :
    (writeDataBitStream st d).err = st.err := rfl

theorem writeData_tp (st : EncState) (d : List Nat) :
    (writeDataBitStream st d).treePrefixBits = st.treePrefixBits := rfl

theorem writeData_bs (st : EncState) (d : List Nat) :
    (writeDataBitStream st d).bitStream =
      d.foldl (fun w b => w.appendCode ((st.nodes.getD b dNode).code)) st.bitStream := rfl

set_option maxHeartbeats 3200000 in
/-- The encoder constructor, run with the self-describing header and no
error-hook invocation: the node pool carries valid, well-formed, mutually
prefix-free codes for exactly the occurring bytes, and the produced bit
stream is precisely header, byte padding and payload. -/
theorem encoder_char (data : List Nat) (hne : data ≠ [])
    (hdata : ∀ b ∈ data, b < MaxSymbols)
    (hsucc : (encoderInit data true).err = false) :
    ∃ nodes : List Node,
      (encoderInit data true).nodes = nodes ∧
      1 ≤ maxCodeLen nodes ∧ maxCodeLen nodes ≤ 64 ∧
      (∀ s, s < MaxSymbols → ((nodes.getD s dNode).isValid = true ↔ s ∈ data)) ∧
      (∀ s, s < MaxSymbols → s ∉ data → (nodes.getD s dNode).code = Code.nil) ∧
      (∀ s ∈ data, ((nodes.getD s dNode).code).wf ∧
        1 ≤ ((nodes.getD s dNode).code).length ∧
        ((nodes.getD s dNode).code).length ≤ maxCodeLen nodes) ∧
      (∀ s ∈ data, ∀ u ∈ data, s ≠ u →
        ¬ codePre ((nodes.getD s dNode).code) ((nodes.getD u dNode).code)) ∧
      (encoderInit data true).treePrefixBits =
        (headerAll (fun s => (nodes.getD s dNode).code)
            (bitsForInteger (maxCodeLen nodes))).length +
          (8 - (headerAll (fun s => (nodes.getD s dNode).code)
            (bitsForInteger (maxCodeLen nodes))).length % 8) % 8 ∧
      WInv (encoderInit data true).bitStream
        (headerAll (fun s => (nodes.getD s dNode).code)
            (bitsForInteger (maxCodeLen nodes)) ++
         headerPad (headerAll (fun s => (nodes.getD s dNode).code)
            (bitsForInteger (maxCodeLen nodes))).length ++
         payBits (fun s => (nodes.getD s dNode).code) data) := by
  rcases hbt : buildHuffmanTree (countFrequencies initialNodes data) with ⟨nodes, root, e⟩
  have henc : encoderInit data true =
      writeDataBitStream (writeTreeBitStream ⟨BitStreamWriter.init, nodes, root, 0, e⟩)
        data := by
    rw [encoderInit, hbt]
    dsimp only
    rw [if_pos rfl]
  rw [henc] at hsucc
  rw [writeData_err] at hsucc
  by_cases hbad : maxCodeLen nodes = 0 ∨ 64 < maxCodeLen nodes
  · exfalso
    rw [writeTreeBitStream] at hsucc
    rw [if_pos (by
      simp only [Bool.or_eq_true, decide_eq_true_eq, CodeMaxBits]
      exact hbad)] at hsucc
    exact Bool.noConfusion hsucc
  · push_neg at hbad
    obtain ⟨hml0, hml64⟩ := hbad
    have hcond : ¬ ((decide (maxCodeLen nodes = 0) ||
        decide (CodeMaxBits < maxCodeLen nodes)) = true) := by
      simp only [Bool.or_eq_true, decide_eq_true_eq, CodeMaxBits]
      push_neg
      exact ⟨hml0, hml64⟩
    have hwt0 : writeTreeBitStream ⟨BitStreamWriter.init, nodes, root, 0, e⟩ =
        { bitStream := (padLoop ((List.range MaxSymbols).foldl
            (fun (p : BitStreamWriter × Nat) s =>
              let nd := nodes.getD s dNode
              let w := p.1.appendBitsU64 nd.code.length (bitsForInteger (maxCodeLen nodes))
              let w := w.appendBitsU64 nd.code.bits nd.code.length
              (w, p.2 + bitsForInteger (maxCodeLen nodes) + nd.code.length))
            ((BitStreamWriter.init.appendBitsU64 MaxSymbols 16).appendBitsU64
              (bitsForInteger (maxCodeLen nodes)) 16, 32)).1
            ((List.range MaxSymbols).foldl
            (fun (p : BitStreamWriter × Nat) s =>
              let nd := nodes.getD s dNode
              let w := p.1.appendBitsU64 nd.code.length (bitsForInteger (maxCodeLen nodes))
              let w := w.appendBitsU64 nd.code.bits nd.code.length
              (w, p.2 + bitsForInteger (maxCodeLen nodes) + nd.code.length))
            ((BitStreamWriter.init.appendBitsU64 MaxSymbols 16).appendBitsU64
              (bitsForInteger (maxCodeLen nodes)) 16, 32)).2 8).1,
          nodes := nodes, treeRoot := root,
          treePrefixBits := (padLoop ((List.range MaxSymbols).foldl
            (fun (p : BitStreamWriter × Nat) s =>
              let nd := nodes.getD s dNode
              let w := p.1.appendBitsU64 nd.code.length (bitsForInteger (maxCodeLen nodes))
              let w := w.appendBitsU64 nd.code.bits nd.code.length
              (w, p.2 + bitsForInteger (maxCodeLen nodes) + nd.code.length))
            ((BitStreamWriter.init.appendBitsU64 MaxSymbols 16).appendBitsU64
              (bitsForInteger (maxCodeLen nodes)) 16, 32)).1
            ((List.range MaxSymbols).foldl
            (fun (p : BitStreamWriter × Nat) s =>
              let nd := nodes.getD s dNode
              let w := p.1.appendBitsU64 nd.code.length (bitsForInteger (maxCodeLen nodes))
              let w := w.appendBitsU64 nd.code.bits nd.code.length
              (w, p.2 + bitsForInteger (maxCodeLen nodes) + nd.code.length))
            ((BitStreamWriter.init.appendBitsU64 MaxSymbols 16).appendBitsU64
              (bitsForInteger (maxCodeLen nodes)) 16, 32)).2 8).2,
          err := e } := by
      rw [writeTreeBitStream, if_neg hcond]
    rw [hwt0] at hsucc
    dsimp only at hsucc
    subst hsucc
    have htree : (buildHuffmanTree (countFrequencies initialNodes data)).2.2 = false := by
      rw [hbt]
    obtain ⟨nodes2, root2, hbteq, hplen2, hval2, hnil2, hwf2, hpf2⟩ :=
      tree_ok data hne hdata htree
    rw [hbt] at hbteq
    rw [Prod.mk.injEq, Prod.mk.injEq] at hbteq
    obtain ⟨hn2, hr2, _⟩ := hbteq
    subst hn2
    subst hr2
    refine ⟨nodes, ?_, ?_, hml64, hval2, hnil2, ?_, hpf2, ?_, ?_⟩
    · rw [henc, writeData_nodes, hwt0]
    · omega
    · intro s hs
      obtain ⟨hw, hl⟩ := hwf2 s hs
      refine ⟨hw, hl, ?_⟩
      apply maxCodeLen_ge nodes s (hdata s hs)
      exact (hval2 s (hdata s hs)).mpr hs
    · rw [henc, writeData_tp, hwt0]
      dsimp only
      rw [writeRecFold]
      dsimp only
      rw [padLoop_eq 8 _ _ (by omega)]
      dsimp only
      rw [← headerAll_length]
    · rw [henc, writeData_bs, hwt0]
      dsimp only
      rw [writeRecFold]
      dsimp only
      rw [padLoop_eq 8 _ _ (by omega)]
      dsimp only
      rw [writeDataFold]
      have h0 : WInv BitStreamWriter.init [] := WInv_init
      have h1 : WInv (BitStreamWriter.init.appendBitsU64 MaxSymbols 16)
          (lsbBits MaxSymbols 16) := by
        rw [appendBitsU64_eq_run]
        have h := WInv_appendRun h0 (lsbBits_good MaxSymbols 16)
        rwa [List.nil_append] at h
      have h2 : WInv ((BitStreamWriter.init.appendBitsU64 MaxSymbols 16).appendBitsU64
          (bitsForInteger (maxCodeLen nodes)) 16)
          (lsbBits MaxSymbols 16 ++ lsbBits (bitsForInteger (maxCodeLen nodes)) 16) := by
        rw [appendBitsU64_eq_run]
        exact WInv_appendRun h1 (lsbBits_good (bitsForInteger (maxCodeLen nodes)) 16)
      have h3 : WInv (((BitStreamWriter.init.appendBitsU64 MaxSymbols 16).appendBitsU64
          (bitsForInteger (maxCodeLen nodes)) 16).appendRun
          (((List.range MaxSymbols).map (symBits (fun s => (nodes.getD s dNode).code)
            (bitsForInteger (maxCodeLen nodes)))).flatten))
          (headerAll (fun s => (nodes.getD s dNode).code)
            (bitsForInteger (maxCodeLen nodes))) := by
        have hflatgood : bitsGood (((List.range MaxSymbols).map
            (symBits (fun s => (nodes.getD s dNode).code)
              (bitsForInteger (maxCodeLen nodes)))).flatten) := by
          refine bitsGood_flatten ?_
          intro l hl
          obtain ⟨s, _, hsl⟩ := List.mem_map.mp hl
          rw [← hsl]
          exact symBits_good _ _ s
        have h := WInv_appendRun h2 hflatgood
        rw [headerAll]
        exact h
      have h4 := WInv_appendRun h3 (headerPad_good
        ((headerAll (fun s => (nodes.getD s dNode).code)
          (bitsForInteger (maxCodeLen nodes))).length))
      have h5 := WInv_appendRun h4 (payBits_good (fun s => (nodes.getD s dNode).code) data)
      rw [← headerAll_length]
      exact h5

end huffman

namespace huffman

theorem recPos_succ (cs : Nat → Code) (width c : Nat) :
    recPos cs width (c + 1) = recPos cs width c + width + (cs c).length := by
  rw [recPos, recPos, List.range_succ, List.map_append, List.flatten_append,
    List.length_append]
  simp [symBits_length]
  omega

theorem recPos_maxSymbols (cs : Nat → Code) (width : Nat) :
    recPos cs width MaxSymbols = (headerAll cs width).length := by
  rw [headerAll_length, recPos]

theorem recPos_zero (cs : Nat → Code) (width : Nat) : recPos cs width 0 = 32 := rfl

/-- The decoder's inner bit loop over an in-range window: mirror of
`readBitsLoop` that reports success. -/
theorem readCodeLoop_ok {bits : List Nat} (hgood : bitsGood bits) :
    ∀ (n k : Nat) (r : BitStreamReader), RInv r bits k → k + n ≤ bits.length →
    r.currCode.bits < 2 ^ r.currCode.length → r.currCode.length + n ≤ 64 →
    readCodeLoop r n =
      (⟨r.stream, r.sizeInBytes, r.sizeInBits, (k + n) / 8, (k + n) % 8, k + n,
       ⟨r.currCode.bits + bitsVal ((bits.drop k).take n) * 2 ^ r.currCode.length,
        r.currCode.length + n⟩, r.err⟩, true) := by
  intro n
  induction n with
  | zero =>
    intro k r h hle hv hl
    obtain ⟨stream, szBytes, szBits, cb, nb, nn, code, err⟩ := r
    obtain ⟨hcont, hszb, hpos, hcur, hnxt⟩ := h
    simp only at hcont hszb hpos hcur hnxt
    rw [readCodeLoop]
    simp only [List.take_zero, bitsVal_nil, Nat.zero_mul, Nat.add_zero]
    rw [← hcur, ← hnxt, ← hpos]
  | succ n ih =>
    intro k r h hle hv hl
    have hklt : k < bits.length := by omega
    rw [readCodeLoop, RInv_readNextBit h hklt]
    have hb : bits.getD k 0 ≤ 1 := by
      have : bits.getD k 0 ∈ bits := getD_pos_mem 0 hklt
      exact hgood _ this
    have hpush := appendBit_push (c := r.currCode) (by omega) hv hb
    rw [hpush]
    simp only [Bool.or_false]
    set r2 : BitStreamReader :=
      ⟨r.stream, r.sizeInBytes, r.sizeInBits, (k + 1) / 8, (k + 1) % 8, k + 1,
       ⟨r.currCode.bits + bits.getD k 0 * 2 ^ r.currCode.length, r.currCode.length + 1⟩,
       r.err⟩ with hr2
    have h2 : RInv r2 bits (k + 1) := ⟨h.content, h.szb, rfl, rfl, rfl⟩
    have hv2 : r2.currCode.bits < 2 ^ r2.currCode.length := by
      rw [hr2]
      simp only
      rw [pow_succ]
      have h3 := Nat.mul_le_mul_right (2 ^ r.currCode.length) hb
      rw [Nat.one_mul] at h3
      omega
    have hl2 : r2.currCode.length + n ≤ 64 := by
      rw [hr2]
      simp only
      omega
    have hrec := ih (k + 1) r2 h2 (by omega) hv2 hl2
    rw [hrec, hr2]
    simp only
    have hseg : (bits.drop k).take (n + 1) = bits.getD k 0 :: (bits.drop (k + 1)).take n := by
      rw [List.drop_eq_getElem_cons hklt, List.take_succ_cons]
      congr 1
      rw [List.getD_eq_getElem _ _ hklt]
    rw [hseg, bitsVal_cons]
    rw [show k + (n + 1) = k + 1 + n from by omega,
        show r.currCode.length + (n + 1) = r.currCode.length + 1 + n from by omega,
        show r.currCode.bits +
              (bits.getD k 0 + 2 * bitsVal ((bits.drop (k + 1)).take n)) * 2 ^ r.currCode.length =
            r.currCode.bits + bits.getD k 0 * 2 ^ r.currCode.length +
              bitsVal ((bits.drop (k + 1)).take n) * 2 ^ (r.currCode.length + 1) from by
          rw [pow_succ]
          ring]

theorem skipPadLoop_ok {bits : List Nat} (hgood : bitsGood bits) :
    ∀ (fuel : Nat) (r : BitStreamReader) (tp k : Nat), RInv r bits k → r.err = false →
      r.currCode.bits < 2 ^ r.currCode.length →
      r.currCode.length + (8 - tp % 8) % 8 ≤ 64 →
      (8 - tp % 8) % 8 ≤ fuel → k + (8 - tp % 8) % 8 ≤ bits.length →
      ∃ cc, skipPadLoop r tp fuel =
        (⟨r.stream, r.sizeInBytes, r.sizeInBits, (k + (8 - tp % 8) % 8) / 8,
          (k + (8 - tp % 8) % 8) % 8, k + (8 - tp % 8) % 8, cc, false⟩,
         tp + (8 - tp % 8) % 8) := by
  intro fuel
  induction fuel with
  | zero =>
    intro r tp k h herr hv hl hf hk
    have h0 : tp % 8 = 0 := by omega
    have hp : (8 - tp % 8) % 8 = 0 := by omega
    rw [hp] at *
    obtain ⟨stream, szBytes, szBits, cb, nb, nn, code, err⟩ := r
    obtain ⟨hcont, hszb, hpos, hcur, hnxt⟩ := h
    simp only at hcont hszb hpos hcur hnxt herr
    rw [skipPadLoop]
    refine ⟨code, ?_⟩
    simp only [Nat.add_zero]
    rw [← hcur, ← hnxt, ← hpos, herr]
  | succ fuel ih =>
    intro r tp k h herr hv hl hf hk
    rcases eq_or_ne (tp % 8) 0 with h0 | h0
    · have hp : (8 - tp % 8) % 8 = 0 := by omega
      rw [hp] at *
      obtain ⟨stream, szBytes, szBits, cb, nb, nn, code, err⟩ := r
      obtain ⟨hcont, hszb, hpos, hcur, hnxt⟩ := h
      simp only at hcont hszb hpos hcur hnxt herr
      rw [skipPadLoop, if_neg (by omega)]
      refine ⟨code, ?_⟩
      simp only [Nat.add_zero]
      rw [← hcur, ← hnxt, ← hpos, herr]
    · have hp : (8 - tp % 8) % 8 = (8 - (tp + 1) % 8) % 8 + 1 := by omega
      have hklt : k < bits.length := by omega
      rw [skipPadLoop, if_pos h0, RInv_readNextBit h hklt]
      have hb : bits.getD k 0 ≤ 1 := hgood _ (getD_pos_mem 0 hklt)
      have hpush := appendBit_push (c := r.currCode) (by omega) hv hb
      rw [hpush]
      simp only [Bool.or_false]
      set r2 : BitStreamReader :=
        ⟨r.stream, r.sizeInBytes, r.sizeInBits, (k + 1) / 8, (k + 1) % 8, k + 1,
         ⟨r.currCode.bits + bits.getD k 0 * 2 ^ r.currCode.length, r.currCode.length + 1⟩,
         r.err⟩ with hr2
      have h2 : RInv r2 bits (k + 1) := ⟨h.content, h.szb, rfl, rfl, rfl⟩
      have hv2 : r2.currCode.bits < 2 ^ r2.currCode.length := by
        rw [hr2]
        simp only
        rw [pow_succ]
        have h3 := Nat.mul_le_mul_right (2 ^ r.currCode.length) hb
        rw [Nat.one_mul] at h3
        omega
      obtain ⟨cc, hrec⟩ := ih r2 (tp + 1) (k + 1) h2 (by rw [hr2]; exact herr) hv2
        (by rw [hr2]; simp only; omega) (by omega) (by omega)
      rw [hrec, hr2]
      simp only
      refine ⟨cc, ?_⟩
      rw [show k + 1 + (8 - (tp + 1) % 8) % 8 = k + (8 - tp % 8) % 8 from by omega,
          show tp + 1 + (8 - (tp + 1) % 8) % 8 = tp + (8 - tp % 8) % 8 from by omega]

end huffman

namespace huffman

set_option maxHeartbeats 6400000 in
/-- The 256-record code-table loop of `readPrefixData`, run over the bits the
encoder wrote: it reconstructs every code exactly and stops at the end of the
records with no error. -/
theorem readCodesLoop_ok {B : List Nat} (hgood : bitsGood B) (cs : Nat → Code)
    (width : Nat) (hw1 : 1 ≤ width) (hw : width ≤ 64)
    (hcs : ∀ s, s < MaxSymbols → (cs s).wf ∧ (cs s).length ≤ 64 ∧
      (cs s).length < 2 ^ width) :
    ∀ (n c : Nat) (codes : List Code) (r : BitStreamReader),
      c + n = MaxSymbols → codes.length = MaxSymbols →
      (∀ s, s < c → codes.getD s Code.nil = cs s) →
      RInv r B (recPos cs width c) → r.err = false →
      (∃ tail, B.drop (recPos cs width c) =
        (((List.range' c n).map (symBits cs width)).flatten) ++ tail) →
      ∃ codes2 r2, readCodesLoop codes r width (recPos cs width c) c n =
        (codes2, r2, recPos cs width MaxSymbols, false) ∧
        codes2.length = MaxSymbols ∧
        (∀ s, s < MaxSymbols → codes2.getD s Code.nil = cs s) ∧
        RInv r2 B (recPos cs width MaxSymbols) ∧ r2.err = false ∧
        r2.stream = r.stream := by
  intro n
  induction n with
  | zero =>
    intro c codes r hc hlen htab hR herr _
    rw [readCodesLoop]
    have hc256 : c = MaxSymbols := by omega
    subst hc256
    exact ⟨codes, r, rfl, hlen, fun s hs => htab s hs, hR, herr, rfl⟩
  | succ n ih =>
    intro c codes r hc hlen htab hR herr hdrop
    obtain ⟨tail, hdrop⟩ := hdrop
    have hclt : c < MaxSymbols := by omega
    obtain ⟨hwf, hle64, hlt2w⟩ := hcs c hclt
    rw [List.range'_succ c n 1, List.map_cons, List.flatten_cons, List.append_assoc,
      symBits, List.append_assoc] at hdrop
    have harith : B.length - recPos cs width c =
        width + ((cs c).length +
          ((((List.range' (c + 1) n).map (symBits cs width)).flatten).length +
            tail.length)) := by
      have h1 := congrArg List.length hdrop
      rw [List.length_drop] at h1
      simpa [lsbBits_length, codeBits_length] using h1
    have hrange : recPos cs width c + width + (cs c).length ≤ B.length := by omega
    have hR0 : RInv { r with currCode := Code.nil } B (recPos cs width c) :=
      ⟨hR.content, hR.szb, hR.pos, hR.cur, hR.nxt⟩
    have hval1 : bitsVal ((B.drop (recPos cs width c)).take width) = (cs c).length := by
      rw [hdrop, List.take_left' (lsbBits_length _ _), bitsVal_lsbBits,
        Nat.mod_eq_of_lt hlt2w]
    have hread1 : readCodeLoop ({ r with currCode := Code.nil }) width =
        (⟨r.stream, r.sizeInBytes, r.sizeInBits, (recPos cs width c + width) / 8,
          (recPos cs width c + width) % 8, recPos cs width c + width,
          ⟨(cs c).length, width⟩, r.err⟩, true) := by
      have h := readCodeLoop_ok hgood width (recPos cs width c) _ hR0 (by omega)
        (by norm_num [Code.nil]) (by norm_num [Code.nil]; omega)
      rw [h]
      simp [Code.nil, hval1]
    have hdrop2 : B.drop (recPos cs width c + width) =
        codeBits (cs c) ++
          ((((List.range' (c + 1) n).map (symBits cs width)).flatten) ++ tail) := by
      rw [← List.drop_drop, hdrop, List.drop_left' (lsbBits_length _ _)]
    have hR1 : RInv (⟨r.stream, r.sizeInBytes, r.sizeInBits,
        (recPos cs width c + width) / 8, (recPos cs width c + width) % 8,
        recPos cs width c + width, Code.nil, r.err⟩ : BitStreamReader) B
        (recPos cs width c + width) :=
      ⟨hR.content, hR.szb, rfl, rfl, rfl⟩
    have hval2 : bitsVal ((B.drop (recPos cs width c + width)).take (cs c).length) =
        (cs c).bits := by
      rw [hdrop2, List.take_left' (codeBits_length _), bitsVal_codeBits hwf]
    have hread2 : readCodeLoop (⟨r.stream, r.sizeInBytes, r.sizeInBits,
        (recPos cs width c + width) / 8, (recPos cs width c + width) % 8,
        recPos cs width c + width, Code.nil, r.err⟩ : BitStreamReader) ((cs c).length) =
        (⟨r.stream, r.sizeInBytes, r.sizeInBits,
          (recPos cs width c + width + (cs c).length) / 8,
          (recPos cs width c + width + (cs c).length) % 8,
          recPos cs width c + width + (cs c).length, cs c, r.err⟩, true) := by
      have h := readCodeLoop_ok hgood ((cs c).length) (recPos cs width c + width) _ hR1
        (by omega) (by norm_num [Code.nil]) (by norm_num [Code.nil]; omega)
      rw [h]
      simp only [Code.nil, hval2]
      rw [show (⟨0 + (cs c).bits * 2 ^ 0, 0 + (cs c).length⟩ : Code) = cs c from by
        simp]
    rw [readCodesLoop]
    dsimp only
    rw [hread1]
    dsimp only
    rw [hread2]
    dsimp only
    have htab2 : ∀ s, s < c + 1 → (codes.set c (cs c)).getD s Code.nil = cs s := by
      intro s hs
      rcases eq_or_ne s c with rfl | hne
      · exact getDg_set_self _ _ (by rw [hlen]; exact hclt)
      · rw [getDg_set_ne _ _ (fun he => hne he.symm)]
        exact htab s (by omega)
    have hR3 : RInv (⟨r.stream, r.sizeInBytes, r.sizeInBits,
        recPos cs width (c + 1) / 8, recPos cs width (c + 1) % 8,
        recPos cs width (c + 1), cs c, r.err⟩ : BitStreamReader) B
        (recPos cs width (c + 1)) := ⟨hR.content, hR.szb, rfl, rfl, rfl⟩
    have hdrop3 : ∃ tail2, B.drop (recPos cs width (c + 1)) =
        (((List.range' (c + 1) n).map (symBits cs width)).flatten) ++ tail2 := by
      refine ⟨tail, ?_⟩
      rw [recPos_succ, ← List.drop_drop, hdrop2, List.drop_left' (codeBits_length _)]
    obtain ⟨codes2, r2, hloop, hlen2, htabf, hRf, herrf, hstreamf⟩ :=
      ih (c + 1) (codes.set c (cs c)) _ (by omega) (by rw [List.length_set]; exact hlen)
        htab2 hR3 herr hdrop3
    rw [show recPos cs width c + width + (cs c).length = recPos cs width (c + 1) from
      (recPos_succ cs width c).symm]
    rw [hloop]
    exact ⟨codes2, r2, rfl, hlen2, htabf, hRf, herrf, hstreamf⟩

end huffman

namespace huffman

set_option maxHeartbeats 6400000 in
/-- `readPrefixData` on a stream that starts with the encoder's padded header
reconstructs the full code table and stops exactly at the end of the padding,
with no error. -/
theorem readPrefixData_ok {B : List Nat} (hgood : bitsGood B) (cs : Nat → Code)
    (width : Nat) (hw1 : 1 ≤ width) (hw16 : width ≤ 16)
    (hcs : ∀ s, s < MaxSymbols → (cs s).wf ∧ (cs s).length ≤ 64 ∧
      (cs s).length < 2 ^ width)
    (tail : List Nat)
    (hBe : B = (headerAll cs width ++ headerPad (headerAll cs width).length) ++ tail)
    (r0 : BitStreamReader) (hr : RInv r0 B 0) (herr : r0.err = false) :
    ∃ codes r2, readPrefixData r0 = (codes, r2, false) ∧
      codes.length = MaxSymbols ∧
      (∀ s, s < MaxSymbols → codes.getD s Code.nil = cs s) ∧
      RInv r2 B ((headerAll cs width).length +
        (8 - (headerAll cs width).length % 8) % 8) ∧
      r2.err = false ∧ r2.currCode = Code.nil := by
  have hBassoc : B = lsbBits MaxSymbols 16 ++ (lsbBits width 16 ++
      ((((List.range MaxSymbols).map (symBits cs width)).flatten) ++
        (headerPad (headerAll cs width).length ++ tail))) := by
    rw [hBe, headerAll]
    simp only [List.append_assoc]
  have hlenB : B.length = (headerAll cs width).length +
      ((8 - (headerAll cs width).length % 8) % 8 + tail.length) := by
    rw [hBe]
    simp only [List.length_append, headerPad, List.length_replicate]
    omega
  have hAll32 : 32 ≤ (headerAll cs width).length := by
    rw [headerAll_length]
    omega
  have h32B : 32 ≤ B.length := by omega
  have htake16 : (B.drop 0).take 16 = lsbBits MaxSymbols 16 := by
    rw [List.drop_zero, hBassoc, List.take_left' (lsbBits_length _ _)]
  have hdrop16 : B.drop 16 = lsbBits width 16 ++
      ((((List.range MaxSymbols).map (symBits cs width)).flatten) ++
        (headerPad (headerAll cs width).length ++ tail)) := by
    rw [hBassoc, List.drop_left' (lsbBits_length _ _)]
  have htake16b : (B.drop 16).take 16 = lsbBits width 16 := by
    rw [hdrop16, List.take_left' (lsbBits_length _ _)]
  have hdrop32 : B.drop 32 =
      (((List.range MaxSymbols).map (symBits cs width)).flatten) ++
        (headerPad (headerAll cs width).length ++ tail) := by
    rw [show (32 : Nat) = 16 + 16 from rfl, ← List.drop_drop, hdrop16,
      List.drop_left' (lsbBits_length _ _)]
  have hread1 := readBitsU64_ok hgood hr 16 (by omega) (by omega)
  rw [htake16, bitsVal_lsbBits, Nat.mod_eq_of_lt (by rw [MaxSymbols]; norm_num)] at hread1
  norm_num at hread1
  have hR16 : RInv (⟨r0.stream, r0.sizeInBytes, r0.sizeInBits, 2, 0,
      16, ⟨MaxSymbols, 16⟩, r0.err⟩ : BitStreamReader) B 16 :=
    ⟨hr.content, hr.szb, rfl, by norm_num, by norm_num⟩
  have hread2 := readBitsU64_ok hgood hR16 16 (by omega) (by omega)
  rw [htake16b, bitsVal_lsbBits,
    Nat.mod_eq_of_lt (lt_of_le_of_lt hw16 (by norm_num))] at hread2
  norm_num at hread2
  rw [readPrefixData, hread1]
  dsimp only
  rw [hread2]
  dsimp only
  rw [if_neg (fun h => h rfl)]
  have hRloopstart : RInv (⟨r0.stream, r0.sizeInBytes, r0.sizeInBits, 4,
      0, 32, ⟨width, 16⟩, r0.err⟩ : BitStreamReader) B
      (recPos cs width 0) := by
    rw [recPos_zero]
    exact ⟨hr.content, hr.szb, rfl, by norm_num, by norm_num⟩
  have hdroploop : ∃ tl, B.drop (recPos cs width 0) =
      (((List.range' 0 MaxSymbols).map (symBits cs width)).flatten) ++ tl := by
    refine ⟨headerPad (headerAll cs width).length ++ tail, ?_⟩
    rw [recPos_zero, ← List.range_eq_range', hdrop32]
  obtain ⟨codes2, r2, hloop, hlen2, htab2, hR2, herr2, hstr2⟩ :=
    readCodesLoop_ok hgood cs width hw1 (by omega) hcs MaxSymbols 0
      (List.replicate MaxSymbols Code.nil) _ (by omega)
      (by rw [List.length_replicate]) (fun s hs => absurd hs (Nat.not_lt_zero s))
      hRloopstart herr hdroploop
  rw [recPos_zero] at hloop
  rw [hloop]
  dsimp only
  rw [if_neg (fun h => Bool.noConfusion h)]
  have hR2n : RInv ({ r2 with currCode := Code.nil }) B (recPos cs width MaxSymbols) :=
    ⟨hR2.content, hR2.szb, hR2.pos, hR2.cur, hR2.nxt⟩
  obtain ⟨cc, hskip⟩ := skipPadLoop_ok hgood 8 ({ r2 with currCode := Code.nil })
    (recPos cs width MaxSymbols) (recPos cs width MaxSymbols) hR2n herr2
    (by norm_num [Code.nil]) (by norm_num [Code.nil]; omega) (by omega)
    (by rw [recPos_maxSymbols]; omega)
  rw [hskip]
  dsimp only
  refine ⟨codes2, _, rfl, hlen2, htab2, ?_, rfl, rfl⟩
  rw [← recPos_maxSymbols cs width]
  exact ⟨hR2.content, hR2.szb, rfl, rfl, rfl⟩

end huffman

namespace huffman

/-- Consolidated facts about the encoder's code table needed by the decoder:
well-formedness bounds for every symbol and the width bounds. -/
theorem encoder_cs_facts (data : List Nat) (hne : data ≠ [])
    (hdata : ∀ b ∈ data, b < MaxSymbols)
    (hsucc : (encoderInit data true).err = false) :
    ∃ nodes : List Node,
      (encoderInit data true).nodes = nodes ∧
      1 ≤ bitsForInteger (maxCodeLen nodes) ∧
      bitsForInteger (maxCodeLen nodes) ≤ 16 ∧
      (∀ s, s < MaxSymbols → ((nodes.getD s dNode).code).wf ∧
        ((nodes.getD s dNode).code).length ≤ 64 ∧
        ((nodes.getD s dNode).code).length < 2 ^ bitsForInteger (maxCodeLen nodes)) := by
  obtain ⟨nodes, hn, hml1, hml64, hval, hnil, hwf, hpf, htp, hW⟩ :=
    encoder_char data hne hdata hsucc
  obtain ⟨hpow, hwle⟩ := bitsForInteger_fact (maxCodeLen nodes) (by omega) hml1
  have hw1 : 1 ≤ bitsForInteger (maxCodeLen nodes) := by
    rcases Nat.eq_zero_or_pos (bitsForInteger (maxCodeLen nodes)) with h0 | h1
    · rw [h0, pow_zero] at hpow
      omega
    · exact h1
  refine ⟨nodes, hn, hw1, by omega, ?_⟩
  intro s hs
  by_cases hmem : s ∈ data
  · obtain ⟨h1, h2, h3⟩ := hwf s hmem
    exact ⟨h1, by omega, by omega⟩
  · rw [hnil s hs hmem]
    refine ⟨nil_wf, ?_, ?_⟩
    · norm_num [Code.nil]
    · norm_num [Code.nil]

end huffman

/-- C3: for every non-empty byte input whose Huffman encoding completes
without invoking the fatal-error hook, running the decoder's `readPrefixData`
on the encoder's output consumes exactly the header prefix written by
`writeTreeBitStream` (the decoder stops at `treePrefixBits` with no error) and
reconstructs a 256-entry code table that agrees with the encoder's leaf code,
in both bits and length, for every symbol occurring in the input. -/
theorem C3_huffman_header_round_trip (input : List Nat) (hne : input ≠ [])
    (hb : ∀ b ∈ input, b < 256)
    (hok : (huffman.encoderInit input true).err = false) :
    ∃ codes r2,
      huffman.readPrefixData
        (huffman.BitStreamReader.init (huffman.encoderInit input true).bitStream.stream
          (huffman.encoderInit input true).bitStream.getByteCount
          (huffman.encoderInit input true).bitStream.getBitCount) = (codes, r2, false) ∧
      (∀ s ∈ input, codes.getD s huffman.Code.nil =
        (((huffman.encoderInit input true).nodes).getD s huffman.dNode).code) ∧
      r2.numBitsRead = (huffman.encoderInit input true).treePrefixBits := by
  have hdata : ∀ b ∈ input, b < huffman.MaxSymbols := by
    rw [huffman.MaxSymbols]
    exact hb
  obtain ⟨nodes, hn, hml1, hml64, hval, hnil, hwf, hpf, htp, hW⟩ :=
    huffman.encoder_char input hne hdata hok
  obtain ⟨nodes2, hn2, hw1, hw16, hcs⟩ := huffman.encoder_cs_facts input hne hdata hok
  rw [hn] at hn2
  subst hn2
  have hgood : huffman.bitsGood
      (huffman.headerAll (fun s => (nodes.getD s huffman.dNode).code)
          (huffman.bitsForInteger (huffman.maxCodeLen nodes)) ++
        huffman.headerPad (huffman.headerAll (fun s => (nodes.getD s huffman.dNode).code)
          (huffman.bitsForInteger (huffman.maxCodeLen nodes))).length ++
        huffman.payBits (fun s => (nodes.getD s huffman.dNode).code) input) :=
    huffman.bitsGood_append (huffman.bitsGood_append (huffman.headerAll_good _ _)
      (huffman.headerPad_good _)) (huffman.payBits_good _ _)
  have hr0 := huffman.RInv_ofWriter hW
  obtain ⟨codes, r2, heq, hlen, htab, hR2, herr2, hcc⟩ :=
    huffman.readPrefixData_ok hgood (fun s => (nodes.getD s huffman.dNode).code)
      (huffman.bitsForInteger (huffman.maxCodeLen nodes)) hw1 hw16 hcs
      (huffman.payBits (fun s => (nodes.getD s huffman.dNode).code) input) rfl
      _ hr0 rfl
  refine ⟨codes, r2, heq, ?_, ?_⟩
  · intro s hs
    rw [htab s (hdata s hs), hn]
  · rw [hR2.pos, htp]

set_option maxRecDepth 100000 in
/-- C3 witness: the theorem applied at the one-byte input `[1]`. -/
theorem C3_huffman_header_round_trip_witness :
    (([1] : List Nat) ≠ [] ∧ (∀ b ∈ ([1] : List Nat), b < 256) ∧
      (huffman.encoderInit [1] true).err = false) ∧
    ∃ codes r2,
      huffman.readPrefixData
        (huffman.BitStreamReader.init (huffman.encoderInit [1] true).bitStream.stream
          (huffman.encoderInit [1] true).bitStream.getByteCount
          (huffman.encoderInit [1] true).bitStream.getBitCount) = (codes, r2, false) ∧
      (∀ s ∈ ([1] : List Nat), codes.getD s huffman.Code.nil =
        (((huffman.encoderInit [1] true).nodes).getD s huffman.dNode).code) ∧
      r2.numBitsRead = (huffman.encoderInit [1] true).treePrefixBits :=
  ⟨⟨by decide, by decide, by decide⟩,
   C3_huffman_header_round_trip [1] (by decide) (by decide) (by decide)⟩

namespace huffman

/-- Each extracted bit of a code word is 0 or 1. -/
theorem getBit_le_one (c : Code) (i : Nat) : c.getBit i ≤ 1 := by
  rw [Code.getBit]
  exact Nat.and_le_right

/-- Bits below the truncation width are unchanged by `% 2 ^ j`. -/
theorem shiftR_and_one_mod {x j i : Nat} (h : i < j) :
    ((x % 2 ^ j) >>> i) &&& 1 = (x >>> i) &&& 1 := by
  have h1 := Nat.testBit_mod_two_pow x j i
  rw [Nat.testBit_to_div_mod, Nat.testBit_to_div_mod, decide_eq_true h, Bool.true_and] at h1
  have hiff := decide_eq_decide.mp h1
  rw [Nat.and_one_is_mod, Nat.and_one_is_mod, Nat.shiftRight_eq_div_pow,
    Nat.shiftRight_eq_div_pow]
  have ha := Nat.mod_two_eq_zero_or_one (x % 2 ^ j / 2 ^ i)
  have hb := Nat.mod_two_eq_zero_or_one (x / 2 ^ i)
  rcases ha with ha | ha <;> rcases hb with hb | hb
  · rw [ha, hb]
  · rw [ha, hb] at hiff
    simp at hiff
  · rw [ha, hb] at hiff
    simp at hiff
  · rw [ha, hb]

/-- Growing a truncated word by its next bit yields the next truncation. -/
theorem mod_pow_step (x j : Nat) :
    x % 2 ^ j + ((x >>> j) &&& 1) * 2 ^ j = x % 2 ^ (j + 1) := by
  rw [Nat.and_one_is_mod, Nat.shiftRight_eq_div_pow, Nat.mod_pow_succ]
  ring

theorem payBits_cons (cs : Nat → Code) (b : Nat) (rest : List Nat) :
    payBits cs (b :: rest) = codeBits (cs b) ++ payBits cs rest := by
  simp [payBits]

/-- `Decoder::decode`'s loop at the end of the stream: exit with no error. -/
theorem decodeLoop_step_end {r r' : BitStreamReader} (codes : List Code) (data : List Nat)
    (n cap fuel : Nat) (h : r.readNextBit = (false, r')) :
    decodeLoop codes r data n cap (fuel + 1) = (data, n, false) := by
  rw [decodeLoop, h]

/-- `Decoder::decode`'s loop on a bit that completes no code: keep reading. -/
theorem decodeLoop_step_skip {r r1 : BitStreamReader} (codes : List Code) (data : List Nat)
    (n cap fuel : Nat) (h : r.readNextBit = (true, r1))
    (hm : findMatchingCode codes r1.currCode = Nil) :
    decodeLoop codes r data n cap (fuel + 1) = decodeLoop codes r1 data n cap fuel := by
  rw [decodeLoop, h]
  dsimp only
  rw [hm]
  simp

/-- `Decoder::decode`'s loop on a bit that completes the code of symbol `b`
with room left in the output: emit `b` and reset the accumulator. -/
theorem decodeLoop_step_emit {r r1 : BitStreamReader} (codes : List Code) (data : List Nat)
    (n cap fuel : Nat) (b : Nat) (h : r.readNextBit = (true, r1))
    (hm : findMatchingCode codes r1.currCode = (b : Nat)) (hn : n ≠ cap) :
    decodeLoop codes r data n cap (fuel + 1) =
      decodeLoop codes { r1 with currCode := Code.nil } (data ++ [b]) (n + 1) cap fuel := by
  rw [decodeLoop, h]
  dsimp only
  rw [hm]
  have h1 : (((b : Nat) : Int) == Nil) = false := by
    rw [Nil]
    simp only [beq_eq_false_iff_ne, ne_eq]
    omega
  rw [h1]
  simp [hn]

/-- `findMatchingCode` on a code word matching no table entry returns `Nil`. -/
theorem findMatchingCode_none (codes : List Code) (code : Code)
    (h : ∀ c, c < MaxSymbols → codes.getD c Code.nil ≠ code) :
    findMatchingCode codes code = Nil := by
  rw [findMatchingCode]
  have hnone : (List.range MaxSymbols).find?
      (fun c => decide (code = codes.getD c Code.nil)) = none := by
    rw [List.find?_eq_none]
    intro x hx
    rw [List.mem_range] at hx
    simp only [decide_eq_true_eq]
    exact fun he => h x hx he.symm
  rw [hnone]

/-- `findMatchingCode` returns the first table slot holding the code word. -/
theorem findMatchingCode_eq (codes : List Code) (code : Code) (b : Nat)
    (hb : b < MaxSymbols) (hmatch : codes.getD b Code.nil = code)
    (hprev : ∀ c, c < b → codes.getD c Code.nil ≠ code) :
    findMatchingCode codes code = (b : Nat) := by
  rw [findMatchingCode, List.range_eq_range']
  have hfind := find?_range' (fun c => decide (code = codes.getD c Code.nil))
    MaxSymbols 0 b hb ?_ ?_
  · rw [Nat.zero_add] at hfind
    rw [hfind]
  · intro k hk
    simp only [Nat.zero_add, decide_eq_false_iff_not]
    exact fun he => hprev k hk he.symm
  · simp only [Nat.zero_add, decide_eq_true_eq]
    exact hmatch.symm

end huffman

namespace huffman

set_option maxHeartbeats 1600000 in
/-- Reading the remaining `m` bits of the prefix code of symbol `b` from the
stream: every proper prefix of the code matches no table entry, the full code
matches exactly slot `b`, so the decode loop emits `b` once and resets. -/
theorem decodeSym {B : List Nat} (cs : Nat → Code) (codes : List Code) (input : List Nat)
    (htab : ∀ s, s < MaxSymbols → codes.getD s Code.nil = cs s)
    (hwfc : ∀ s ∈ input, (cs s).wf ∧ 1 ≤ (cs s).length ∧ (cs s).length ≤ 64)
    (hnilc : ∀ s, s < MaxSymbols → s ∉ input → cs s = Code.nil)
    (hpf : ∀ s ∈ input, ∀ u ∈ input, s ≠ u → ¬ codePre (cs s) (cs u))
    (hinp : ∀ s ∈ input, s < MaxSymbols)
    (b : Nat) (hb : b ∈ input) (k : Nat)
    (hkb : k + (cs b).length ≤ B.length)
    (hbitsb : ∀ j, j < (cs b).length → B.getD (k + j) 0 = (cs b).getBit j) :
    ∀ m, 1 ≤ m → ∀ j, j + m = (cs b).length →
    ∀ (r : BitStreamReader) (data : List Nat) (n cap fuel : Nat),
      RInv r B (k + j) → r.err = false →
      r.currCode = ⟨(cs b).bits % 2 ^ j, j⟩ → n ≠ cap →
      decodeLoop codes r data n cap (fuel + m) =
        decodeLoop codes
          ⟨r.stream, r.sizeInBytes, r.sizeInBits, (k + (cs b).length) / 8,
           (k + (cs b).length) % 8, k + (cs b).length, Code.nil, false⟩
          (data ++ [b]) (n + 1) cap fuel := by
  intro m
  induction m with
  | zero => intro h1; exact absurd h1 (by norm_num)
  | succ m ih =>
    intro _ j hj r data n cap fuel hr herr hcc hncap
    have hwfb := hwfc b hb
    have hwfb1 : (cs b).bits < 2 ^ (cs b).length := hwfb.1
    have hjlt : j < (cs b).length := by omega
    have hkj : k + j < B.length := by omega
    have hread := RInv_readNextBit hr hkj
    rw [hbitsb j hjlt, hcc, herr] at hread
    have hj64 : j < 64 := by omega
    have hmod_lt : (cs b).bits % 2 ^ j < 2 ^ j :=
      Nat.mod_lt _ (Nat.pos_pow_of_pos j (by norm_num))
    have hpush := appendBit_push (c := ⟨(cs b).bits % 2 ^ j, j⟩) hj64 hmod_lt
      (getBit_le_one (cs b) j)
    rw [hpush] at hread
    simp only [Bool.or_self] at hread
    rw [Code.getBit, mod_pow_step] at hread
    rcases Nat.eq_zero_or_pos m with hm0 | hmpos
    · subst hm0
      have hjl : j + 1 = (cs b).length := by omega
      have hC : (⟨(cs b).bits % 2 ^ (j + 1), j + 1⟩ : Code) = cs b := by
        rw [hjl, Nat.mod_eq_of_lt hwfb1]
      rw [hC] at hread
      have hbM := hinp b hb
      have hfm : findMatchingCode codes (cs b) = ((b : Nat) : Int) := by
        apply findMatchingCode_eq codes (cs b) b hbM (htab b hbM)
        intro c hcb
        have hcM : c < MaxSymbols := lt_trans hcb hbM
        rw [htab c hcM]
        by_cases hcin : c ∈ input
        · intro he
          apply hpf c hcin b hb (Nat.ne_of_lt hcb)
          rw [he]
          exact codePre_refl (cs b)
        · intro he
          rw [hnilc c hcM hcin] at he
          have hlen0 : (0 : Nat) = (cs b).length := congrArg Code.length he
          omega
      rw [show fuel + (0 + 1) = fuel + 1 from by omega]
      rw [decodeLoop_step_emit codes data n cap fuel b hread hfm hncap]
      rw [show k + (cs b).length = k + j + 1 from by omega]
    · have hprefix : ∀ c, c < MaxSymbols →
          codes.getD c Code.nil ≠ (⟨(cs b).bits % 2 ^ (j + 1), j + 1⟩ : Code) := by
        intro c hc
        rw [htab c hc]
        by_cases hcin : c ∈ input
        · intro he
          have hlc : (cs c).length = j + 1 := congrArg Code.length he
          apply hpf c hcin b hb ?hne ?hpre
          case hne =>
            intro hcb
            subst hcb
            omega
          case hpre =>
            refine ⟨by omega, ?_⟩
            intro i hi
            rw [hlc] at hi
            rw [he]
            rw [Code.getBit, Code.getBit]
            exact (shiftR_and_one_mod hi).symm
        · intro he
          rw [hnilc c hc hcin] at he
          have hlc : (0 : Nat) = j + 1 := congrArg Code.length he
          omega
      have hfm : findMatchingCode codes (⟨(cs b).bits % 2 ^ (j + 1), j + 1⟩ : Code) = Nil :=
        findMatchingCode_none codes _ hprefix
      rw [show fuel + (m + 1) = (fuel + m) + 1 from by omega]
      rw [decodeLoop_step_skip codes data n cap (fuel + m) hread hfm]
      have hR : RInv (⟨r.stream, r.sizeInBytes, r.sizeInBits, (k + j + 1) / 8, (k + j + 1) % 8,
          k + j + 1, ⟨(cs b).bits % 2 ^ (j + 1), j + 1⟩, false⟩ : BitStreamReader)
          B (k + (j + 1)) := by
        rw [show k + (j + 1) = k + j + 1 from by omega]
        exact ⟨hr.content, hr.szb, rfl, rfl, rfl⟩
      rw [ih hmpos (j + 1) (by omega) _ data n cap fuel hR rfl rfl hncap]
end huffman

namespace huffman

set_option maxHeartbeats 1600000 in
/-- The decode loop over a stream whose tail (from the current position) is
the concatenated codes of `rest`: it emits exactly `rest` and exits without
error at the end of the stream. -/
theorem decodeLoop_ok {B : List Nat} (cs : Nat → Code) (codes : List Code) (input : List Nat)
    (htab : ∀ s, s < MaxSymbols → codes.getD s Code.nil = cs s)
    (hwfc : ∀ s ∈ input, (cs s).wf ∧ 1 ≤ (cs s).length ∧ (cs s).length ≤ 64)
    (hnilc : ∀ s, s < MaxSymbols → s ∉ input → cs s = Code.nil)
    (hpf : ∀ s ∈ input, ∀ u ∈ input, s ≠ u → ¬ codePre (cs s) (cs u))
    (hinp : ∀ s ∈ input, s < MaxSymbols) :
    ∀ (rest : List Nat), (∀ s ∈ rest, s ∈ input) →
    ∀ (pre : List Nat), B = pre ++ payBits cs rest →
    ∀ (r : BitStreamReader), RInv r B pre.length → r.err = false → r.currCode = Code.nil →
    ∀ (data : List Nat) (n cap : Nat), n + rest.length = cap →
    ∀ (fuel : Nat), 1 ≤ fuel →
    decodeLoop codes r data n cap (fuel + (payBits cs rest).length) =
      (data ++ rest, cap, false) := by
  intro rest
  induction rest with
  | nil =>
    intro hsub pre hB r hr herr hcc data n cap hn fuel hfuel
    obtain ⟨fuel, rfl⟩ : ∃ f, fuel = f + 1 := ⟨fuel - 1, by omega⟩
    have hpay : payBits cs [] = [] := rfl
    rw [hpay]
    simp only [List.length_nil, Nat.add_zero]
    have hend : B.length ≤ pre.length := by
      rw [hB, hpay, List.append_nil]
    rw [decodeLoop_step_end codes data n cap fuel (RInv_readNextBit_end hr hend)]
    simp only [List.length_nil, Nat.add_zero] at hn
    rw [List.append_nil, show cap = n from hn.symm]
  | cons b rest ih =>
    intro hsub pre hB r hr herr hcc data n cap hn fuel hfuel
    have hbin : b ∈ input := hsub b (List.mem_cons_self b rest)
    have hwfb := hwfc b hbin
    have hn2 : n + (rest.length + 1) = cap := by simpa using hn
    rw [payBits_cons] at hB
    have hB2 : B = (pre ++ codeBits (cs b)) ++ payBits cs rest := by
      rw [hB, List.append_assoc]
    have hBlen : B.length =
        pre.length + (cs b).length + (payBits cs rest).length := by
      rw [hB2, List.length_append, List.length_append, codeBits_length]
    have hkb : pre.length + (cs b).length ≤ B.length := by omega
    have hbitsb : ∀ j, j < (cs b).length → B.getD (pre.length + j) 0 = (cs b).getBit j := by
      intro j hjl
      have hjc : j < (codeBits (cs b)).length := by rw [codeBits_length]; exact hjl
      rw [hB, getD_append_right 0 (by omega), Nat.add_sub_cancel_left,
        getD_append_left 0 hjc, codeBits_eq_lsbBits, lsbBits_getD hjl, Code.getBit]
    have hr0 : RInv r B (pre.length + 0) := by
      rw [Nat.add_zero]
      exact hr
    have hcc0 : r.currCode = ⟨(cs b).bits % 2 ^ 0, 0⟩ := by
      rw [hcc, Code.nil, pow_zero, Nat.mod_one]
    have hstep := decodeSym cs codes input htab hwfc hnilc hpf hinp b hbin pre.length hkb
      hbitsb (cs b).length hwfb.2.1 0 (by omega) r data n cap
      (fuel + (payBits cs rest).length) hr0 herr hcc0 (by omega)
    rw [show fuel + (payBits cs (b :: rest)).length =
        (fuel + (payBits cs rest).length) + (cs b).length from by
      rw [payBits_cons, List.length_append, codeBits_length]; omega]
    rw [hstep]
    have hR2 : RInv (⟨r.stream, r.sizeInBytes, r.sizeInBits,
        (pre.length + (cs b).length) / 8, (pre.length + (cs b).length) % 8,
        pre.length + (cs b).length, Code.nil, false⟩ : BitStreamReader)
        B (pre ++ codeBits (cs b)).length := by
      have hplen : (pre ++ codeBits (cs b)).length = pre.length + (cs b).length := by
        rw [List.length_append, codeBits_length]
      rw [hplen]
      exact ⟨hr.content, hr.szb, rfl, rfl, rfl⟩
    rw [ih (fun s hs => hsub s (List.mem_cons_of_mem b hs)) (pre ++ codeBits (cs b)) hB2
      _ hR2 rfl rfl (data ++ [b]) (n + 1) cap (by simp at hn ⊢; omega) fuel hfuel]
    simp

end huffman

namespace huffman

/-- `easyEncode` with valid pointers and the exact input length: the guards
pass, the range-rebuild of the input buffer is the input itself, and the call
hands back the encoder's stream with its byte and bit counts and the sticky
hook and out-of-bounds flags. -/
theorem easyEncode_char (input : List Nat) (hne : input ≠ []) :
    easyEncode (some input) (input.length : Int) true true true =
      ⟨some (encoderInit input true).bitStream.stream,
       (encoderInit input true).bitStream.getByteCount,
       (encoderInit input true).bitStream.getBitCount,
       (encoderInit input true).err,
       (encoderInit input true).bitStream.oob⟩ := by
  have hlen0 : ¬ ((input.length : Int) ≤ 0) := by
    have := List.length_pos.mpr hne
    omega
  rw [easyEncode]
  dsimp only
  rw [if_neg (by decide)]
  rw [if_neg ?hg]
  case hg =>
    simp only [Bool.not_true, Bool.or_false, decide_eq_true_eq]
    exact hlen0
  rw [Int.toNat_natCast, list_range_getD]

end huffman

namespace huffman

set_option maxHeartbeats 3200000 in
/-- Decoding the encoder's stream with its exact byte and bit counts and
output capacity `|input|` parses the header, replays the payload codes and
returns `|input|` with the input reproduced byte-for-byte and no error. -/
theorem easyDecode_of_encoder (input : List Nat) (hne : input ≠ [])
    (hdata : ∀ b ∈ input, b < MaxSymbols)
    (hsucc : (encoderInit input true).err = false) :
    easyDecode (some (encoderInit input true).bitStream.stream)
      ((encoderInit input true).bitStream.getByteCount : Int)
      ((encoderInit input true).bitStream.getBitCount : Int)
      true (input.length : Int) = ((input.length : Int), input, false) := by
  obtain ⟨nodes, hn, hml1, hml64, hval, hnil, hwf, hpf, htp, hW⟩ :=
    encoder_char input hne hdata hsucc
  obtain ⟨nodes2, hn2, hw1, hw16, hcs⟩ := encoder_cs_facts input hne hdata hsucc
  rw [hn] at hn2
  subst hn2
  obtain ⟨cs, hcseq⟩ : ∃ cs, (fun s => (nodes.getD s dNode).code) = cs := ⟨_, rfl⟩
  have hcsp : ∀ s, (nodes.getD s dNode).code = cs s := fun s => congrFun hcseq s
  obtain ⟨width, hwideq⟩ : ∃ w, bitsForInteger (maxCodeLen nodes) = w := ⟨_, rfl⟩
  rw [hcseq, hwideq] at hW htp
  rw [hwideq] at hw1 hw16
  have hcs' : ∀ s, s < MaxSymbols → (cs s).wf ∧ (cs s).length ≤ 64 ∧
      (cs s).length < 2 ^ width := by
    intro s hs
    rw [← hcsp s, ← hwideq]
    exact hcs s hs
  have hwf' : ∀ s ∈ input, (cs s).wf ∧ 1 ≤ (cs s).length ∧ (cs s).length ≤ 64 := by
    intro s hs
    obtain ⟨h1, h2, h3⟩ := hwf s hs
    rw [← hcsp s]
    exact ⟨h1, h2, le_trans h3 hml64⟩
  have hnil' : ∀ s, s < MaxSymbols → s ∉ input → cs s = Code.nil := by
    intro s h1 h2
    rw [← hcsp s]
    exact hnil s h1 h2
  have hpf' : ∀ s ∈ input, ∀ u ∈ input, s ≠ u → ¬ codePre (cs s) (cs u) := by
    intro s hs u hu hne2
    rw [← hcsp s, ← hcsp u]
    exact hpf s hs u hu hne2
  have hgood : bitsGood (headerAll cs width ++ headerPad (headerAll cs width).length ++
      payBits cs input) :=
    bitsGood_append (bitsGood_append (headerAll_good _ _) (headerPad_good _))
      (payBits_good _ _)
  have hr0 := RInv_ofWriter hW
  obtain ⟨codes, r2, heq, hclen, htab, hR2, herr2, hcc2⟩ :=
    readPrefixData_ok hgood cs width hw1 hw16 hcs' (payBits cs input) rfl _ hr0 rfl
  have hbitc : (encoderInit input true).bitStream.getBitCount =
      (headerAll cs width ++ headerPad (headerAll cs width).length ++
        payBits cs input).length := hW.nbits
  have hbytec := getByteCount_ceil hW
  have hB16 : 16 ≤ (headerAll cs width ++ headerPad (headerAll cs width).length ++
      payBits cs input).length := by
    rw [List.length_append, List.length_append, headerAll_length]
    omega
  have hPlen : (headerPad (headerAll cs width).length).length =
      (8 - (headerAll cs width).length % 8) % 8 := by
    rw [headerPad, List.length_replicate]
  have hr2' : RInv r2 (headerAll cs width ++ headerPad (headerAll cs width).length ++
      payBits cs input)
      (headerAll cs width ++ headerPad (headerAll cs width).length).length := by
    rw [List.length_append, hPlen]
    exact hR2
  rw [easyDecode]
  dsimp only
  rw [if_neg (by decide)]
  rw [if_neg ?hguard]
  case hguard =>
    simp only [Bool.or_eq_true, decide_eq_true_eq, not_or]
    refine ⟨⟨?_, ?_⟩, ?_⟩
    · rw [hbytec]
      omega
    · rw [hbitc]
      omega
    · have := List.length_pos.mpr hne
      omega
  simp only [Int.toNat_natCast]
  rw [heq]
  dsimp only
  rw [hR2.szb]
  rw [show (headerAll cs width ++ headerPad (headerAll cs width).length ++
      payBits cs input).length + 1 =
    ((headerAll cs width ++ headerPad (headerAll cs width).length).length + 1) +
      (payBits cs input).length from by
    simp only [List.length_append]
    omega]
  rw [decodeLoop_ok cs codes input htab hwf' hnil' hpf' hdata input
    (fun s hs => hs) (headerAll cs width ++ headerPad (headerAll cs width).length) rfl
    r2 hr2' herr2 hcc2 [] 0 input.length (by omega)
    ((headerAll cs width ++ headerPad (headerAll cs width).length).length + 1) (by omega)]
  simp

end huffman

/-- C1: for every non-empty byte input whose Huffman encoding completes
without invoking the fatal-error hook, running `easyEncode` on the input and
then `easyDecode` on the resulting buffer with its returned byte and bit
counts and output capacity exactly `|input|` returns `|input|` and reproduces
the input byte-for-byte, with no decode error. -/
theorem C1_huffman_round_trip (input : List Nat) (hne : input ≠ [])
    (hb : ∀ b ∈ input, b < 256)
    (hook : (huffman.easyEncode (some input) (input.length : Int) true true true).hooked =
      false) :
    huffman.easyDecode
      (huffman.easyEncode (some input) (input.length : Int) true true true).compressed
      ((huffman.easyEncode (some input) (input.length : Int)
        true true true).compressedSizeBytes : Int)
      ((huffman.easyEncode (some input) (input.length : Int)
        true true true).compressedSizeBits : Int)
      true (input.length : Int) = ((input.length : Int), input, false) := by
  have hdata : ∀ b ∈ input, b < huffman.MaxSymbols := by
    rw [huffman.MaxSymbols]
    exact hb
  rw [huffman.easyEncode_char input hne] at hook ⊢
  dsimp only at hook ⊢
  exact huffman.easyDecode_of_encoder input hne hdata hook

set_option maxRecDepth 100000 in
/-- C1 witness: the round trip at the one-byte input `[1]`. -/
theorem C1_huffman_round_trip_witness :
    (([1] : List Nat) ≠ [] ∧ (∀ b ∈ ([1] : List Nat), b < 256) ∧
      (huffman.easyEncode (some [1]) (([1] : List Nat).length : Int)
        true true true).hooked = false) ∧
    huffman.easyDecode
      (huffman.easyEncode (some [1]) (([1] : List Nat).length : Int) true true true).compressed
      ((huffman.easyEncode (some [1]) (([1] : List Nat).length : Int)
        true true true).compressedSizeBytes : Int)
      ((huffman.easyEncode (some [1]) (([1] : List Nat).length : Int)
        true true true).compressedSizeBits : Int)
      true (([1] : List Nat).length : Int) =
    ((([1] : List Nat).length : Int), [1], false) :=
  ⟨⟨by decide, by decide, by decide⟩,
   C1_huffman_round_trip [1] (by decide) (by decide) (by decide)⟩
